import Mathlib

/-!
Verification of the protocrap table-driven protobuf codec.

The development shallowly embeds the Rust sources: `decoding.rs` (table-driven
resumable decoder), `base.rs` (untyped object accessors), `containers.rs`
(arena-backed containers), `reflection.rs` (dynamic field access), `arena.rs`
(bump allocator), `utils.rs` (bounded stack) and the driver methods of
`lib.rs`.  The wire-primitive module and the encoder are not among the
sources; where they are needed they are modelled from the specification and
marked as such.

Machine memory is modelled functionally: a message `Object` is a map from
byte offsets to typed slots, the arena heap is a map from pointers to
objects, and input buffers are lists of bytes.  Cursors are indices, the
`end` pointer is the logical buffer length, and decode limits are integers
relative to `end`, exactly as in the source.
-/

namespace Protocrap

/-- SLOP_SIZE: the 16-byte lookahead margin every decoder read may rely on. -/
def SLOP : Nat := 16

/-- The value of isize::MAX, used as the initial decode limit in decode_flat. -/
def isizeMax : Int := 2 ^ 63 - 1

/-- Byte fetch from a memory image: indices past the image read as 0, and
values are reduced mod 256 so that arbitrary `List Nat` inputs behave as raw
u8 memory. -/
def byteAt (mem : List Nat) (i : Nat) : Nat := mem.getD i 0 % 256

/-- A slice read of `n` bytes starting at `i` (ReadCursor::read_slice). -/
def sliceBytes (mem : List Nat) (i n : Nat) : List Nat :=
  (List.range n).map (fun k => byteAt mem (i + k))

/-- Modelled from the spec: `wire.rs` is absent from the sources; §4.1
specifies a 10-byte-max little-endian base-128 varint decoder returning a
u64.  Accumulates 7-bit groups; a missing terminator within the byte budget
is an error.  Returns the value and the index one past the last byte. -/
def readVarintAux : Nat → List Nat → Nat → Nat → Nat → Option (Nat × Nat)
  | 0, _, _, _, _ => none
  | maxLen+1, mem, i, shift, acc =>
    let b := byteAt mem i
    if b < 0x80 then some ((acc + b * 2 ^ shift) % 2 ^ 64, i + 1)
    else readVarintAux maxLen mem (i + 1) (shift + 7) (acc + (b - 0x80) * 2 ^ shift)

/-- Modelled from the spec: read a 10-byte-max varint as u64. -/
def readVarint (mem : List Nat) (i : Nat) : Option (Nat × Nat) :=
  readVarintAux 10 mem i 0 0

/-- Modelled from the spec: the 5-byte-max tag reader, which rejects
oversize tags and a trailing zero continuation byte; the result is a u32. -/
def readTagAux : Nat → List Nat → Nat → Nat → Nat → Bool → Option (Nat × Nat)
  | 0, _, _, _, _, _ => none
  | maxLen+1, mem, i, shift, acc, started =>
    let b := byteAt mem i
    if b < 0x80 then
      if started ∧ b = 0 then none
      else some ((acc + b * 2 ^ shift) % 2 ^ 32, i + 1)
    else readTagAux maxLen mem (i + 1) (shift + 7) (acc + (b - 0x80) * 2 ^ shift) true

/-- Modelled from the spec: read a wire tag (5-byte-max varint to u32). -/
def readTag (mem : List Nat) (i : Nat) : Option (Nat × Nat) :=
  readTagAux 5 mem i 0 0 false

/-- Modelled from the spec: read a length (5-byte-max varint bounded to
INT32_MAX, returned as a non-negative isize). -/
def readSize (mem : List Nat) (i : Nat) : Option (Int × Nat) :=
  match readVarintAux 5 mem i 0 0 with
  | none => none
  | some (v, j) => if v ≤ 2 ^ 31 - 1 then some ((v : Int), j) else none

/-- Modelled from the spec: unaligned little-endian load of `width` bytes. -/
def readFixedLE (width : Nat) (mem : List Nat) (i : Nat) : Nat :=
  (List.range width).foldr (fun k acc => acc * 256 + byteAt mem (i + k)) 0

/-- Modelled from the spec: zigzag decode `(n >> 1) XOR -(n AND 1)` on the
64-bit pattern. -/
def zigzagDecode (n : Nat) : Nat :=
  n / 2 ^^^ (if n % 2 = 1 then 2 ^ 64 - 1 else 0)

/-- The 32-bit zigzag decode path `zigzag_decode(v as u32 as u64) as i32`,
expressed on bit patterns. -/
def zigzagDecode32 (n : Nat) : Nat :=
  zigzagDecode (n % 2 ^ 32) % 2 ^ 32

/-- Canonical varint encoding (little-endian base 128); the fuel of 10 bytes
covers every u64. -/
def varintEncodeAux : Nat → Nat → List Nat
  | 0, _ => []
  | fuel+1, v => if v < 128 then [v] else (v % 128 + 128) :: varintEncodeAux fuel (v / 128)

/-- Canonical varint encoding of a u64 value. -/
def varintEncode (v : Nat) : List Nat := varintEncodeAux 10 (v % 2 ^ 64)

/-- Little-endian fixed-width encoding. -/
def fixedEncodeLE : Nat → Nat → List Nat
  | 0, _ => []
  | w+1, v => v % 256 :: fixedEncodeLE w (v / 256)

/-- The closed field-kind enumeration of the wire module (`FieldKind`). -/
inductive FieldKind where
  | Varint64 | Varint32 | Int32 | Varint64Zigzag | Varint32Zigzag | Bool
  | Fixed64 | Fixed32 | Bytes | String | Message | Group | Unknown
  | RepeatedVarint64 | RepeatedVarint32 | RepeatedInt32
  | RepeatedVarint64Zigzag | RepeatedVarint32Zigzag | RepeatedBool
  | RepeatedFixed64 | RepeatedFixed32 | RepeatedBytes | RepeatedString
  | RepeatedMessage | RepeatedGroup
deriving DecidableEq, Repr

/-- A decode table entry `{ kind:8, has_bit:8, offset:16 }` (decoding.rs
`TableEntry`), with the packed u32 replaced by its three fields. -/
structure TableEntry where
  kind : FieldKind
  hasBitIdx : Nat
  offset : Nat
deriving DecidableEq, Repr

/-- An aux entry: storage offset of a message field plus the index of the
child table in the table environment (tables link by index, which also
represents cyclic table graphs). -/
structure AuxEntry where
  offset : Nat
  childTable : Nat
deriving DecidableEq, Repr

/-- An encode entry `{ has_bit, kind, offset, encoded_tag }`; the
precomputed tag bytes are represented by the tag value. -/
structure EncodeEntry where
  hasBit : Nat
  kind : FieldKind
  offset : Nat
  encodedTag : Nat
deriving DecidableEq, Repr

/-- A per-message-type codec table (tables.rs is absent from the sources; the
shape is determined by its uses in decoding.rs, test_utils.rs and the spec):
object size, sparse decode entries indexed by field number, aux entries keyed
by the aux offset stored in message-kind entries, and encode entries in
declaration order. -/
structure Table where
  size : Nat
  decodeEntries : List TableEntry
  auxEntries : List (Nat × AuxEntry)
  encodeEntries : List EncodeEntry
deriving Repr

/-- The table environment: tables referenced by index (child links may form
cycles, as for descriptor.proto). -/
def TableEnv := List Table

/-- The default (empty) table, returned for dangling table indices. -/
def Table.default0 : Table := ⟨0, [], [], []⟩

/-- Table lookup in the environment. -/
def tableAt (env : TableEnv) (i : Nat) : Table := List.getD env i Table.default0

/-- Table::entry — decode-entry lookup by field number; out of range is
`none` (decoding.rs lines 43-49). -/
def Table.entry (t : Table) (fieldNumber : Nat) : Option TableEntry :=
  t.decodeEntries.get? fieldNumber

/-- Table::aux_entry_decode — aux entry addressed by the offset stored in a
message-kind entry.  A well-formed table defines every offset that is used;
the fallback mirrors the raw in-memory indexing being total. -/
def Table.auxEntryDecode (t : Table) (auxOff : Nat) : AuxEntry :=
  ((t.auxEntries.find? (fun p => p.1 == auxOff)).map Prod.snd).getD ⟨0, 0⟩

/-! ## Objects and the heap

An `Obj` is untyped storage addressed by byte offset; a slot holds the value
last stored there with the width/shape the codec used.  Absent slots read as
zeroed memory (`Object::create` zero-fills). -/

/-- One storage slot of an object.  Integer scalars are stored as their bit
patterns. -/
inductive Slot where
  | word (v : Nat)
  | n64 (v : Nat)
  | n32 (v : Nat)
  | bl (v : Bool)
  | bytes (v : List Nat)
  | rep64 (v : List Nat)
  | rep32 (v : List Nat)
  | repBool (v : List Bool)
  | repBytes (v : List (List Nat))
  | msgPtr (p : Nat)
  | repMsg (ps : List Nat)
deriving DecidableEq, Repr

/-- An object: byte offset to slot; `none` is zeroed memory. -/
def Obj := Nat → Option Slot

/-- The zeroed object (Object::create zero-fills its storage). -/
def Obj.empty : Obj := fun _ => none

/-- Store a slot at an offset. -/
def Obj.upd (o : Obj) (off : Nat) (s : Slot) : Obj :=
  fun k => if k = off then some s else o k

/-- Read a u32 metadata word (has-bit words and oneof discriminants). -/
def Obj.readWord (o : Obj) (off : Nat) : Nat :=
  match o off with | some (.word v) => v | _ => 0

/-- Read an 8-byte scalar. -/
def Obj.readN64 (o : Obj) (off : Nat) : Nat :=
  match o off with | some (.n64 v) => v | _ => 0

/-- Read a 4-byte scalar. -/
def Obj.readN32 (o : Obj) (off : Nat) : Nat :=
  match o off with | some (.n32 v) => v | _ => 0

/-- Read a bool field. -/
def Obj.readBool (o : Obj) (off : Nat) : Bool :=
  match o off with | some (.bl v) => v | _ => false

/-- Read a Bytes container (zeroed memory is the empty container). -/
def Obj.readBytes (o : Obj) (off : Nat) : List Nat :=
  match o off with | some (.bytes v) => v | _ => []

/-- Read a RepeatedField of 8-byte elements. -/
def Obj.readRep64 (o : Obj) (off : Nat) : List Nat :=
  match o off with | some (.rep64 v) => v | _ => []

/-- Read a RepeatedField of 4-byte elements. -/
def Obj.readRep32 (o : Obj) (off : Nat) : List Nat :=
  match o off with | some (.rep32 v) => v | _ => []

/-- Read a RepeatedField of bools. -/
def Obj.readRepBool (o : Obj) (off : Nat) : List Bool :=
  match o off with | some (.repBool v) => v | _ => []

/-- Read a RepeatedField of Bytes. -/
def Obj.readRepBytes (o : Obj) (off : Nat) : List (List Nat) :=
  match o off with | some (.repBytes v) => v | _ => []

/-- Read a singular message pointer; `none` is the null pointer (zeroed
memory). -/
def Obj.readMsgPtr (o : Obj) (off : Nat) : Option Nat :=
  match o off with | some (.msgPtr p) => some p | _ => none

/-- Read a RepeatedField of message pointers. -/
def Obj.readRepMsg (o : Obj) (off : Nat) : List Nat :=
  match o off with | some (.repMsg ps) => ps | _ => []

/-- Object::has_bit — test bit `idx % 32` of the metadata word `idx / 32`. -/
def Obj.hasBit (o : Obj) (idx : Nat) : Bool :=
  o.readWord (idx / 32 * 4) &&& 2 ^ (idx % 32) ≠ 0

/-- Object::set_has_bit — OR bit `idx % 32` into metadata word `idx / 32`. -/
def Obj.setHasBit (o : Obj) (idx : Nat) : Obj :=
  o.upd (idx / 32 * 4) (.word (o.readWord (idx / 32 * 4) ||| 2 ^ (idx % 32)))

/-- Object::clear_has_bit. -/
def Obj.clearHasBit (o : Obj) (idx : Nat) : Obj :=
  o.upd (idx / 32 * 4)
    (.word (o.readWord (idx / 32 * 4) &&& (2 ^ 32 - 1 - 2 ^ (idx % 32))))

/-- The arena heap: pointers to objects plus a fresh-pointer counter.
Allocation always hands out a fresh zeroed object (the pure model of
Object::create). -/
structure Heap where
  objs : Nat → Obj
  next : Nat

/-- Object lookup. -/
def Heap.get (h : Heap) (p : Nat) : Obj := h.objs p

/-- Store one slot of one object. -/
def Heap.setSlot (h : Heap) (p off : Nat) (s : Slot) : Heap :=
  { h with objs := fun q => if q = p then (h.objs p).upd off s else h.objs q }

/-- Replace a whole object. -/
def Heap.setObj (h : Heap) (p : Nat) (o : Obj) : Heap :=
  { h with objs := fun q => if q = p then o else h.objs q }

/-- Object::create — allocate and zero a fresh object. -/
def Heap.alloc (h : Heap) : Nat × Heap :=
  (h.next,
   { objs := fun q => if q = h.next then Obj.empty else h.objs q,
     next := h.next + 1 })

/-- DynamicMessage::clear — zero the object's storage (reflection.rs lines
415-424). -/
def Heap.clearObj (h : Heap) (p : Nat) : Heap := h.setObj p Obj.empty

end Protocrap

namespace Protocrap

/-! ## Decoder state (decoding.rs) -/

/-- A decode stack frame (`StackEntry`): the saved object/table (none for
unknown-field skip frames) and `delta_limit_or_group_tag`. -/
structure SEntry where
  objTable : Option (Nat × Nat)
  delta : Int
deriving DecidableEq

/-- The active decode context (`DecodeObjectState`): limit relative to the
buffer end, plus the current object pointer and table index. -/
structure Ctx where
  limit : Int
  obj : Nat
  tbl : Nat
deriving DecidableEq

/-- The append target of a resumable bytes/string value: either a singular
Bytes field or the last element of a repeated Bytes field. -/
inductive BytesTarget where
  | field (p off : Nat)
  | repLast (p off : Nat)
deriving DecidableEq

/-- The element conversion of a packed stream, standing for the `decode_fn`
closures passed to decode_packed and the two fixed widths. -/
inductive PackKind where
  | u64 | u32 | i64z | i32z | boolk | f64 | f32
deriving DecidableEq

/-- The `DecodeObject` continuation discriminant. -/
inductive DObj where
  | nil
  | message (p tbl : Nat)
  | bytesTgt (tgt : BytesTarget) (validate : Bool)
  | skipLenDelim
  | skipGroup
  | packed (k : PackKind) (p off : Nat)
deriving DecidableEq

/-- calc_limited_end: narrow the end pointer by `min(limit, 0)`. -/
def calcLimitedEnd (e : Nat) (limit : Int) : Int := e + min limit 0

/-- StackEntry::into_context (decoding.rs 63-90): group pops check the tag;
limit pops widen the limit by the stored delta; frames without an
object/table cannot become a context (the source marks this unreachable). -/
def SEntry.intoContext (se : SEntry) (limit : Int) (fieldNumber : Option Nat) : Option Ctx :=
  match fieldNumber with
  | some fn =>
    if -se.delta ≠ (fn : Int) then none
    else match se.objTable with
      | some (p, t) => some ⟨limit, p, t⟩
      | none => none
  | none =>
    if se.delta < 0 then none
    else match se.objTable with
      | some (p, t) => some ⟨limit + se.delta, p, t⟩
      | none => none

/-- DecodeObjectState::push_limit: compute the narrowed limit, push the
current object/table with the delta, fail on negative delta or a full
stack. -/
def pushLimit (ctx : Ctx) (len : Int) (cursor e : Nat) (stack : List SEntry) (cap : Nat) :
    Option (Ctx × List SEntry) :=
  let newLimit : Int := (cursor : Int) - (e : Int) + len
  let delta := ctx.limit - newLimit
  if delta < 0 then none
  else if cap ≤ stack.length then none
  else some ({ ctx with limit := newLimit }, ⟨some (ctx.obj, ctx.tbl), delta⟩ :: stack)

/-- DecodeObjectState::push_group: push a sentinel frame holding the negated
group field number. -/
def pushGroup (ctx : Ctx) (fieldNumber : Nat) (stack : List SEntry) (cap : Nat) :
    Option (List SEntry) :=
  if cap ≤ stack.length then none
  else some (⟨some (ctx.obj, ctx.tbl), -(fieldNumber : Int)⟩ :: stack)

/-- DecodeObjectState::set — write a scalar slot, routing through set_oneof
(discriminant write) when the entry's has-bit has its top bit set, and
through Object::set (has-bit write) otherwise. -/
def ctxSet (h : Heap) (p : Nat) (entry : TableEntry) (fieldNumber : Nat) (s : Slot) : Heap :=
  if entry.hasBitIdx &&& 0x80 ≠ 0 then
    (h.setSlot p ((entry.hasBitIdx &&& 0x7F) * 4) (.word fieldNumber)).setSlot p entry.offset s
  else
    (h.setObj p ((h.get p).setHasBit entry.hasBitIdx)).setSlot p entry.offset s

/-- Push onto a RepeatedField of 8-byte elements. -/
def heapPushRep64 (h : Heap) (p off v : Nat) : Heap :=
  h.setSlot p off (.rep64 ((h.get p).readRep64 off ++ [v]))

/-- Push onto a RepeatedField of 4-byte elements. -/
def heapPushRep32 (h : Heap) (p off v : Nat) : Heap :=
  h.setSlot p off (.rep32 ((h.get p).readRep32 off ++ [v]))

/-- Push onto a RepeatedField of bools. -/
def heapPushRepBool (h : Heap) (p off : Nat) (v : Bool) : Heap :=
  h.setSlot p off (.repBool ((h.get p).readRepBool off ++ [v]))

/-- Object::add_bytes — push a fresh Bytes element onto a repeated bytes
field. -/
def heapPushRepBytes (h : Heap) (p off : Nat) (v : List Nat) : Heap :=
  h.setSlot p off (.repBytes ((h.get p).readRepBytes off ++ [v]))

/-- Push onto a RepeatedField of message pointers. -/
def heapPushRepMsg (h : Heap) (p off q : Nat) : Heap :=
  h.setSlot p off (.repMsg ((h.get p).readRepMsg off ++ [q]))

/-- Bytes::append through a saved `&mut Bytes` continuation target. -/
def heapAppendTarget (h : Heap) (tgt : BytesTarget) (slice : List Nat) : Heap :=
  match tgt with
  | .field p off => h.setSlot p off (.bytes ((h.get p).readBytes off ++ slice))
  | .repLast p off =>
    let l := (h.get p).readRepBytes off
    h.setSlot p off (.repBytes (l.dropLast ++ [l.getLast?.getD [] ++ slice]))

/-- Read the accumulated contents of a bytes continuation target. -/
def readTarget (h : Heap) (tgt : BytesTarget) : List Nat :=
  match tgt with
  | .field p off => (h.get p).readBytes off
  | .repLast p off => (((h.get p).readRepBytes off).getLast?).getD []

/-- The per-element conversion and container push of a packed varint stream
(the decode_fn closures of decoding.rs 1077-1126). -/
def packPush (h : Heap) (p off : Nat) (k : PackKind) (v : Nat) : Heap :=
  match k with
  | .u64 => heapPushRep64 h p off v
  | .u32 => heapPushRep32 h p off (v % 2 ^ 32)
  | .i64z => heapPushRep64 h p off (zigzagDecode v)
  | .i32z => heapPushRep32 h p off (zigzagDecode32 v)
  | .boolk => heapPushRepBool h p off (v != 0)
  | .f64 => h
  | .f32 => h

/-- Whether a byte is a UTF-8 continuation byte. -/
def isCont (b : Nat) : Bool := decide (0x80 ≤ b) && decide (b < 0xC0)

/-- UTF-8 validity of a byte sequence, as checked by core::str::from_utf8:
no overlong forms, no surrogates, at most U+10FFFF. -/
def isValidUtf8 : List Nat → Bool
  | [] => true
  | b :: rest =>
    if b < 0x80 then isValidUtf8 rest
    else if b < 0xC2 then false
    else if b < 0xE0 then
      match rest with
      | c1 :: r => isCont c1 && isValidUtf8 r
      | [] => false
    else if b < 0xF0 then
      match rest with
      | c1 :: c2 :: r =>
        (if b = 0xE0 then decide (0xA0 ≤ c1) && decide (c1 < 0xC0)
         else if b = 0xED then decide (0x80 ≤ c1) && decide (c1 < 0xA0)
         else isCont c1) && isCont c2 && isValidUtf8 r
      | _ => false
    else if b < 0xF5 then
      match rest with
      | c1 :: c2 :: c3 :: r =>
        (if b = 0xF0 then decide (0x90 ≤ c1) && decide (c1 < 0xC0)
         else if b = 0xF4 then decide (0x80 ≤ c1) && decide (c1 < 0x90)
         else isCont c1) && isCont c2 && isCont c3 && isValidUtf8 r
      | _ => false
    else false

/-- unpack_varint (decoding.rs 395-408): read and push varints until the
cursor reaches `stop`; a malformed varint fails. -/
def unpackVarint (k : PackKind) (p off : Nat) (mem : List Nat) (stop : Int) :
    Nat → Heap → Nat → Heap × Option Nat
  | 0, h, _ => (h, none)
  | fuel+1, h, cursor =>
    if (cursor : Int) < stop then
      match readVarint mem cursor with
      | none => (h, none)
      | some (v, c1) => unpackVarint k p off mem stop fuel (packPush h p off k v) c1
    else (h, some cursor)

/-- unpack_fixed (decoding.rs 410-422): read and push fixed-width values
until the cursor reaches `stop`; never fails. -/
def unpackFixed (wide : Bool) (p off : Nat) (mem : List Nat) (stop : Int) :
    Nat → Heap → Nat → Heap × Nat
  | 0, h, cursor => (h, cursor)
  | fuel+1, h, cursor =>
    if (cursor : Int) < stop then
      if wide then
        unpackFixed wide p off mem stop fuel
          (heapPushRep64 h p off (readFixedLE 8 mem cursor)) (cursor + 8)
      else
        unpackFixed wide p off mem stop fuel
          (heapPushRep32 h p off (readFixedLE 4 mem cursor)) (cursor + 4)
    else (h, cursor)

/-- The outcome of one iteration of the decode loop's parse loop. -/
inductive StepRes where
  | cont (h : Heap) (ctx : Ctx) (cursor : Nat) (stack : List SEntry)
  | ret (h : Heap) (cursor : Nat) (limit : Int) (obj : DObj) (stack : List SEntry)
  | intoSkipGroup (h : Heap) (limit : Int) (cursor : Nat) (stack : List SEntry)
  | fail (h : Heap)

/-- The unknown-field path of decode_loop's parse loop (decoding.rs 933-1014):
dispatch on the wire type, skipping the value; a tag of zero terminates a
top-level parse, a field number of zero is otherwise an error. -/
def decodeStepUnknown (h : Heap) (ctx : Ctx) (tag c1 : Nat) (limitedEnd : Int)
    (e cap : Nat) (stack : List SEntry) (mem : List Nat) : StepRes :=
  let fieldNumber := tag >>> 3
  if fieldNumber = 0 then
    if tag = 0 then
      if stack.isEmpty then .ret h c1 ctx.limit .nil stack else .fail h
    else .fail h
  else
    match tag &&& 7 with
    | 0 =>
      match readVarint mem c1 with
      | none => .fail h
      | some (_, c2) => .cont h ctx c2 stack
    | 1 => .cont h ctx (c1 + 8) stack
    | 2 =>
      match readSize mem c1 with
      | none => .fail h
      | some (len, c2) =>
        if (c2 : Int) - limitedEnd + len ≤ (SLOP : Int) then
          .cont h ctx (c2 + len.toNat) stack
        else
          match pushLimit ctx len c2 e stack cap with
          | none => .fail h
          | some (ctx', stack') => .ret h c2 ctx'.limit .skipLenDelim stack'
    | 3 =>
      match pushGroup ctx fieldNumber stack cap with
      | none => .fail h
      | some stack' => .intoSkipGroup h ctx.limit c1 stack'
    | 4 =>
      match stack with
      | [] => .fail h
      | se :: rest =>
        match se.intoContext ctx.limit (some fieldNumber) with
        | none => .fail h
        | some ctx' => .cont h ctx' c1 rest
    | 5 => .cont h ctx (c1 + 4) stack
    | _ => .fail h

/-- One iteration of decode_loop's inner parse loop (decoding.rs 504-1022):
read a tag, dispatch on the table entry's FieldKind, falling through to the
unknown-field path on a missing entry, an Unknown kind, or a wire-type
mismatch. -/
def decodeStep (env : TableEnv) (cap fuel : Nat) (h : Heap) (ctx : Ctx)
    (cursor e : Nat) (mem : List Nat) (stack : List SEntry) : StepRes :=
  let limitedEnd := calcLimitedEnd e ctx.limit
  match readTag mem cursor with
  | none => .fail h
  | some (tag, c1) =>
    let fieldNumber := tag >>> 3
    let unknown : StepRes := decodeStepUnknown h ctx tag c1 limitedEnd e cap stack mem
    match (tableAt env ctx.tbl).entry fieldNumber with
    | none => unknown
    | some entry =>
      match entry.kind with
      | .Unknown => unknown
      | .Varint64 =>
        if tag &&& 7 ≠ 0 then unknown else
        match readVarint mem c1 with
        | none => .fail h
        | some (v, c2) => .cont (ctxSet h ctx.obj entry fieldNumber (.n64 v)) ctx c2 stack
      | .Varint32 | .Int32 =>
        if tag &&& 7 ≠ 0 then unknown else
        match readVarint mem c1 with
        | none => .fail h
        | some (v, c2) => .cont (ctxSet h ctx.obj entry fieldNumber (.n32 (v % 2 ^ 32))) ctx c2 stack
      | .Varint64Zigzag =>
        if tag &&& 7 ≠ 0 then unknown else
        match readVarint mem c1 with
        | none => .fail h
        | some (v, c2) => .cont (ctxSet h ctx.obj entry fieldNumber (.n64 (zigzagDecode v))) ctx c2 stack
      | .Varint32Zigzag =>
        if tag &&& 7 ≠ 0 then unknown else
        match readVarint mem c1 with
        | none => .fail h
        | some (v, c2) => .cont (ctxSet h ctx.obj entry fieldNumber (.n32 (zigzagDecode32 v))) ctx c2 stack
      | .Bool =>
        if tag &&& 7 ≠ 0 then unknown else
        match readVarint mem c1 with
        | none => .fail h
        | some (v, c2) => .cont (ctxSet h ctx.obj entry fieldNumber (.bl (v != 0))) ctx c2 stack
      | .Fixed64 =>
        if tag &&& 7 ≠ 1 then unknown else
        .cont (ctxSet h ctx.obj entry fieldNumber (.n64 (readFixedLE 8 mem c1))) ctx (c1 + 8) stack
      | .Fixed32 =>
        if tag &&& 7 ≠ 5 then unknown else
        .cont (ctxSet h ctx.obj entry fieldNumber (.n32 (readFixedLE 4 mem c1))) ctx (c1 + 4) stack
      | .Bytes | .String =>
        if tag &&& 7 ≠ 2 then unknown else
        let validate := entry.kind == FieldKind.String
        match readSize mem c1 with
        | none => .fail h
        | some (len, c2) =>
          if (c2 : Int) - limitedEnd + len ≤ (SLOP : Int) then
            let slice := sliceBytes mem c2 len.toNat
            if validate && !(isValidUtf8 slice) then .fail h
            else .cont (ctxSet h ctx.obj entry fieldNumber (.bytes slice)) ctx (c2 + len.toNat) stack
          else
            match pushLimit ctx len c2 e stack cap with
            | none => .fail h
            | some (ctx', stack') =>
              let slice := sliceBytes mem c2 ((SLOP : Int) - ((c2 : Int) - e)).toNat
              let h' := ctxSet h ctx.obj entry fieldNumber (.bytes slice)
              .ret h' (e + SLOP) ctx'.limit (.bytesTgt (.field ctx.obj entry.offset) validate) stack'
      | .Message =>
        if tag &&& 7 ≠ 2 then unknown else
        let h1 :=
          if entry.hasBitIdx &&& 0x80 ≠ 0 then
            h.setSlot ctx.obj ((entry.hasBitIdx &&& 0x7F) * 4) (.word fieldNumber)
          else h
        match readSize mem c1 with
        | none => .fail h1
        | some (len, c2) =>
          match pushLimit ctx len c2 e stack cap with
          | none => .fail h1
          | some (ctx', stack') =>
            let aux := (tableAt env ctx.tbl).auxEntryDecode entry.offset
            match (h1.get ctx.obj).readMsgPtr aux.offset with
            | some p => .cont h1 ⟨ctx'.limit, p, aux.childTable⟩ c2 stack'
            | none =>
              let (p, h2) := h1.alloc
              let h3 := h2.setSlot ctx.obj aux.offset (.msgPtr p)
              .cont h3 ⟨ctx'.limit, p, aux.childTable⟩ c2 stack'
      | .Group =>
        if tag &&& 7 ≠ 3 then unknown else
        match pushGroup ctx fieldNumber stack cap with
        | none => .fail h
        | some stack' =>
          let aux := (tableAt env ctx.tbl).auxEntryDecode entry.offset
          match (h.get ctx.obj).readMsgPtr aux.offset with
          | some p => .cont h ⟨ctx.limit, p, aux.childTable⟩ c1 stack'
          | none =>
            let (p, h2) := h.alloc
            let h3 := h2.setSlot ctx.obj aux.offset (.msgPtr p)
            .cont h3 ⟨ctx.limit, p, aux.childTable⟩ c1 stack'
      | .RepeatedVarint64 | .RepeatedVarint32 | .RepeatedInt32
      | .RepeatedVarint64Zigzag | .RepeatedVarint32Zigzag | .RepeatedBool =>
        let k : PackKind :=
          match entry.kind with
          | .RepeatedVarint64 => .u64
          | .RepeatedVarint32 | .RepeatedInt32 => .u32
          | .RepeatedVarint64Zigzag => .i64z
          | .RepeatedVarint32Zigzag => .i32z
          | _ => .boolk
        if tag &&& 7 = 0 then
          match readVarint mem c1 with
          | none => .fail h
          | some (v, c2) => .cont (packPush h ctx.obj entry.offset k v) ctx c2 stack
        else if tag &&& 7 = 2 then
          match readSize mem c1 with
          | none => .fail h
          | some (len, c2) =>
            if (c2 : Int) - limitedEnd + len ≤ 0 then
              let stop : Int := (c2 : Int) + len
              match unpackVarint k ctx.obj entry.offset mem stop fuel h c2 with
              | (h', none) => .fail h'
              | (h', some c3) =>
                if (c3 : Int) = stop then .cont h' ctx c3 stack else .fail h'
            else
              match pushLimit ctx len c2 e stack cap with
              | none => .fail h
              | some (ctx', stack') =>
                match unpackVarint k ctx.obj entry.offset mem (e : Int) fuel h c2 with
                | (h', none) => .fail h'
                | (h', some c3) =>
                  .ret h' c3 ctx'.limit (.packed k ctx.obj entry.offset) stack'
        else unknown
      | .RepeatedFixed64 | .RepeatedFixed32 =>
        let wide := entry.kind == FieldKind.RepeatedFixed64
        let nativeWire : Nat := if wide then 1 else 5
        if tag &&& 7 = nativeWire then
          let h' :=
            if wide then heapPushRep64 h ctx.obj entry.offset (readFixedLE 8 mem c1)
            else heapPushRep32 h ctx.obj entry.offset (readFixedLE 4 mem c1)
          .cont h' ctx (c1 + (if wide then 8 else 4)) stack
        else if tag &&& 7 = 2 then
          match readSize mem c1 with
          | none => .fail h
          | some (len, c2) =>
            if (c2 : Int) - limitedEnd + len ≤ 0 then
              let stop : Int := (c2 : Int) + len
              match unpackFixed wide ctx.obj entry.offset mem stop fuel h c2 with
              | (h', c3) =>
                if (c3 : Int) = stop then .cont h' ctx c3 stack else .fail h'
            else
              match pushLimit ctx len c2 e stack cap with
              | none => .fail h
              | some (ctx', stack') =>
                match unpackFixed wide ctx.obj entry.offset mem (e : Int) fuel h c2 with
                | (h', c3) =>
                  .ret h' c3 ctx'.limit
                    (.packed (if wide then .f64 else .f32) ctx.obj entry.offset) stack'
        else unknown
      | .RepeatedBytes | .RepeatedString =>
        if tag &&& 7 ≠ 2 then unknown else
        let validate := entry.kind == FieldKind.RepeatedString
        match readSize mem c1 with
        | none => .fail h
        | some (len, c2) =>
          if (c2 : Int) - limitedEnd + len ≤ (SLOP : Int) then
            let slice := sliceBytes mem c2 len.toNat
            if validate && !(isValidUtf8 slice) then .fail h
            else .cont (heapPushRepBytes h ctx.obj entry.offset slice) ctx (c2 + len.toNat) stack
          else
            match pushLimit ctx len c2 e stack cap with
            | none => .fail h
            | some (ctx', stack') =>
              let slice := sliceBytes mem c2 ((SLOP : Int) - ((c2 : Int) - e)).toNat
              let h' := heapPushRepBytes h ctx.obj entry.offset slice
              .ret h' (e + SLOP) ctx'.limit
                (.bytesTgt (.repLast ctx.obj entry.offset) validate) stack'
      | .RepeatedMessage =>
        if tag &&& 7 ≠ 2 then unknown else
        match readSize mem c1 with
        | none => .fail h
        | some (len, c2) =>
          match pushLimit ctx len c2 e stack cap with
          | none => .fail h
          | some (ctx', stack') =>
            let aux := (tableAt env ctx.tbl).auxEntryDecode entry.offset
            let (p, h2) := h.alloc
            let h3 := heapPushRepMsg h2 ctx.obj aux.offset p
            .cont h3 ⟨ctx'.limit, p, aux.childTable⟩ c2 stack'
      | .RepeatedGroup =>
        if tag &&& 7 ≠ 3 then unknown else
        match pushGroup ctx fieldNumber stack cap with
        | none => .fail h
        | some stack' =>
          let aux := (tableAt env ctx.tbl).auxEntryDecode entry.offset
          let (p, h2) := h.alloc
          let h3 := heapPushRepMsg h2 ctx.obj aux.offset p
          .cont h3 ⟨ctx.limit, p, aux.childTable⟩ c1 stack'

/-- The result of the mutually recursive decode functions: the threaded heap
and, on success, cursor, limit, continuation object and the decode stack. -/
def DRes := Heap × Option (Nat × Int × DObj × List SEntry)

mutual

/-- decode_loop (decoding.rs 493-1039): the table-driven parse loop.  Each
call is one iteration of the source's loops; the first argument is
structural fuel (the driver supplies more than the loop can consume, one
unit per iteration). -/
def decodeLoop (env : TableEnv) (cap e : Nat) (mem : List Nat) :
    Nat → Heap → Ctx → Nat → List SEntry → DRes
  | 0, h, _, _, _ => (h, none)
  | fuel+1, h, ctx, cursor, stack =>
    let limitedEnd := calcLimitedEnd e ctx.limit
    if (cursor : Int) < limitedEnd then
      match decodeStep env cap fuel h ctx cursor e mem stack with
      | .cont h' ctx' c' st' => decodeLoop env cap e mem fuel h' ctx' c' st'
      | .ret h' c l ob st' => (h', some (c, l, ob, st'))
      | .intoSkipGroup h' l c' st' => skipGroup env cap e mem fuel h' l c' st'
      | .fail h' => (h', none)
    else
      if (cursor : Int) - e = ctx.limit then
        match stack with
        | [] => (h, some (cursor, ctx.limit, .nil, stack))
        | se :: rest =>
          match se.intoContext ctx.limit none with
          | none => (h, none)
          | some ctx' => decodeLoop env cap e mem fuel h ctx' cursor rest
      else if (e : Int) ≤ cursor then
        (h, some (cursor, ctx.limit, .message ctx.obj ctx.tbl, stack))
      else if (cursor : Int) ≠ limitedEnd then (h, none)
      else decodeLoop env cap e mem fuel h ctx cursor stack

/-- skip_group (decoding.rs 286-393): skip an unknown group, tracking
nesting with sentinel frames; an end-group tag matching a frame that saved
an object/table resumes decode_loop there. -/
def skipGroup (env : TableEnv) (cap e : Nat) (mem : List Nat) :
    Nat → Heap → Int → Nat → List SEntry → DRes
  | 0, h, _, _, _ => (h, none)
  | fuel+1, h, limit, cursor, stack =>
    let limitedEnd := calcLimitedEnd e limit
    if (cursor : Int) < limitedEnd then
      match readTag mem cursor with
      | none => (h, none)
      | some (tag, c1) =>
        let fn := tag >>> 3
        if fn = 0 then (h, none)
        else
          match tag &&& 7 with
          | 0 =>
            match readVarint mem c1 with
            | none => (h, none)
            | some (_, c2) => skipGroup env cap e mem fuel h limit c2 stack
          | 1 => skipGroup env cap e mem fuel h limit (c1 + 8) stack
          | 2 =>
            match readSize mem c1 with
            | none => (h, none)
            | some (len, c2) =>
              if (c2 : Int) - limitedEnd + len ≤ (SLOP : Int) then
                skipGroup env cap e mem fuel h limit (c2 + len.toNat) stack
              else
                let newLimit := (c2 : Int) - e + len
                let delta := limit - newLimit
                if delta < 0 then (h, none)
                else if cap ≤ stack.length then (h, none)
                else (h, some (c2, newLimit, .skipLenDelim, ⟨none, delta⟩ :: stack))
          | 3 =>
            if cap ≤ stack.length then (h, none)
            else skipGroup env cap e mem fuel h limit c1 (⟨none, -(fn : Int)⟩ :: stack)
          | 4 =>
            match stack with
            | [] => (h, none)
            | se :: rest =>
              if -se.delta ≠ (fn : Int) then (h, none)
              else
                match se.objTable with
                | some (p, t) => decodeLoop env cap e mem fuel h ⟨limit, p, t⟩ c1 rest
                | none => skipGroup env cap e mem fuel h limit c1 rest
          | 5 => skipGroup env cap e mem fuel h limit (c1 + 4) stack
          | _ => (h, none)
    else
      if (cursor : Int) - e = limit then
        match stack with
        | [] => (h, some (cursor, limit, .nil, []))
        | se :: rest =>
          match se.objTable with
          | none => (h, none)
          | some _ =>
            match se.intoContext limit none with
            | none => (h, none)
            | some ctx' => decodeLoop env cap e mem fuel h ctx' cursor rest
      else if (e : Int) ≤ cursor then (h, some (cursor, limit, .skipGroup, stack))
      else if limitedEnd ≤ (cursor : Int) then (h, none)
      else skipGroup env cap e mem fuel h limit cursor stack

/-- skip_length_delimited (decoding.rs 258-283): consume the rest of an
unknown length-delimited value across buffers. -/
def skipLenDelim (env : TableEnv) (cap e : Nat) (mem : List Nat) :
    Nat → Heap → Int → List SEntry → DRes
  | 0, h, _, _ => (h, none)
  | fuel+1, h, limit, stack =>
    if (SLOP : Int) < limit then
      (h, some (e + SLOP, limit, .skipLenDelim, stack))
    else
      let c2 := ((e : Int) + limit).toNat
      match stack with
      | [] => (h, none)
      | se :: rest =>
        match se.objTable with
        | none => skipGroup env cap e mem fuel h (limit + se.delta) c2 rest
        | some _ =>
          match se.intoContext limit none with
          | none => (h, none)
          | some ctx' => decodeLoop env cap e mem fuel h ctx' c2 rest

/-- decode_string (decoding.rs 466-490): append the visible part of a
bytes/string value to its target; when the value completes, validate UTF-8
if requested and resume the parent context. -/
def decodeString (env : TableEnv) (cap e : Nat) (mem : List Nat) :
    Nat → Heap → Int → BytesTarget → Bool → Nat → List SEntry → DRes
  | 0, h, _, _, _, _, _ => (h, none)
  | fuel+1, h, limit, tgt, validate, cursor, stack =>
    if (SLOP : Int) < limit then
      let slice := sliceBytes mem cursor ((SLOP : Int) - ((cursor : Int) - e)).toNat
      (heapAppendTarget h tgt slice, some (e + SLOP, limit, .bytesTgt tgt validate, stack))
    else
      let slice := sliceBytes mem cursor (limit - ((cursor : Int) - e)).toNat
      let h1 := heapAppendTarget h tgt slice
      if validate && !(isValidUtf8 (readTarget h1 tgt)) then (h1, none)
      else
        match stack with
        | [] => (h1, none)
        | se :: rest =>
          match se.intoContext limit none with
          | none => (h1, none)
          | some ctx' => decodeLoop env cap e mem fuel h1 ctx' (((e : Int) + limit).toNat) rest

/-- decode_packed (decoding.rs 426-444): resume a packed varint stream. -/
def decodePackedVar (env : TableEnv) (cap e : Nat) (mem : List Nat) :
    Nat → Heap → Int → PackKind → Nat → Nat → Nat → List SEntry → DRes
  | 0, h, _, _, _, _, _, _ => (h, none)
  | fuel+1, h, limit, k, p, off, cursor, stack =>
    if 0 < limit then
      match unpackVarint k p off mem (e : Int) fuel h cursor with
      | (h', none) => (h', none)
      | (h', some c3) => (h', some (c3, limit, .packed k p off, stack))
    else
      let limitedEnd := calcLimitedEnd e limit
      match unpackVarint k p off mem limitedEnd fuel h cursor with
      | (h', none) => (h', none)
      | (h', some c3) =>
        match stack with
        | [] => (h', none)
        | se :: rest =>
          match se.intoContext limit none with
          | none => (h', none)
          | some ctx' => decodeLoop env cap e mem fuel h' ctx' c3 rest

/-- decode_fixed (decoding.rs 447-464): resume a packed fixed-width
stream. -/
def decodePackedFixed (env : TableEnv) (cap e : Nat) (mem : List Nat) :
    Nat → Heap → Int → Bool → Nat → Nat → Nat → List SEntry → DRes
  | 0, h, _, _, _, _, _, _ => (h, none)
  | fuel+1, h, limit, wide, p, off, cursor, stack =>
    if 0 < limit then
      match unpackFixed wide p off mem (e : Int) fuel h cursor with
      | (h', c3) =>
        (h', some (c3, limit, .packed (if wide then .f64 else .f32) p off, stack))
    else
      let limitedEnd := calcLimitedEnd e limit
      match unpackFixed wide p off mem limitedEnd fuel h cursor with
      | (h', c3) =>
        match stack with
        | [] => (h', none)
        | se :: rest =>
          match se.intoContext limit none with
          | none => (h', none)
          | some ctx' => decodeLoop env cap e mem fuel h' ctx' c3 rest

end

/-- The decoder state held between resume calls (`ResumeableState`). -/
structure RState where
  limit : Int
  obj : DObj
  overrun : Int
deriving DecidableEq

/-- The fuel supplied to one go_decode dispatch: generous relative to the
number of loop iterations possible over a buffer of length `e` (each
iteration consumes a byte or pops a frame). -/
def decodeFuel (e cap : Nat) : Nat := 4 * e + 4 * cap + 100

/-- ResumeableState::go_decode (decoding.rs 1048-1143): account the buffer
against limit and overrun, then dispatch on the continuation object.  `mem`
is the buffer together with the 16 bytes of readable memory that follow it;
`e` is the buffer length. -/
def goDecode (env : TableEnv) (cap : Nat) (h : Heap) (st : RState)
    (stack : List SEntry) (mem : List Nat) (e : Nat) :
    Heap × Option (RState × List SEntry) :=
  let len : Int := e
  let limit := st.limit - len
  if len ≤ st.overrun then
    (h, some ({ limit := limit, obj := st.obj, overrun := st.overrun - len }, stack))
  else
    let cursor := st.overrun.toNat
    let fuel := decodeFuel e cap
    let res : DRes :=
      match st.obj with
      | .message p t => decodeLoop env cap e mem fuel h ⟨limit, p, t⟩ cursor stack
      | .bytesTgt tgt v => decodeString env cap e mem fuel h limit tgt v cursor stack
      | .skipLenDelim => skipLenDelim env cap e mem fuel h limit stack
      | .skipGroup => skipGroup env cap e mem fuel h limit cursor stack
      | .packed .f64 p off => decodePackedFixed env cap e mem fuel h limit true p off cursor stack
      | .packed .f32 p off => decodePackedFixed env cap e mem fuel h limit false p off cursor stack
      | .packed k p off => decodePackedVar env cap e mem fuel h limit k p off cursor stack
      | .nil => (h, none)
    match res with
    | (h', none) => (h', none)
    | (h', some (c, l, ob, stack')) =>
      (h', some ({ limit := l, obj := ob, overrun := (c : Int) - e }, stack'))

/-- The resumable decoder (`ResumeableDecode`): state, the 32-byte patch
buffer and the bounded stack (capacity is the STACK_DEPTH parameter). -/
structure RDecoder where
  rstate : RState
  patch : List Nat
  stack : List SEntry

/-- ResumeableDecode::new (decoding.rs 1154-1165). -/
def RDecoder.new (p tbl : Nat) (limit : Int) : RDecoder :=
  { rstate := { limit := limit, obj := .message p tbl, overrun := (SLOP : Int) },
    patch := List.replicate (2 * SLOP) 0,
    stack := [] }

/-- Overwrite `v.length` bytes of `l` starting at `start`. -/
def listSetRange (l : List Nat) (start : Nat) (v : List Nat) : List Nat :=
  l.take start ++ v ++ l.drop (start + v.length)

/-- ResumeableDecode::resume_impl (decoding.rs 1190-1214): run the patch
window and then the body of the chunk (large chunks), or accumulate into the
patch buffer (chunks of at most SLOP bytes), sliding the patch tail. -/
def resumeImpl (env : TableEnv) (cap : Nat) (h : Heap) (d : RDecoder) (buf : List Nat) :
    Heap × Option RDecoder :=
  match d.rstate.obj with
  | .nil => (h, none)
  | _ =>
    if SLOP < buf.length then
      let patch1 := listSetRange d.patch SLOP (buf.take SLOP)
      match goDecode env cap h d.rstate d.stack patch1 SLOP with
      | (h1, none) => (h1, none)
      | (h1, some (st1, stack1)) =>
        match st1.obj with
        | .nil => (h1, none)
        | _ =>
          match goDecode env cap h1 st1 stack1 buf (buf.length - SLOP) with
          | (h2, none) => (h2, none)
          | (h2, some (st2, stack2)) =>
            let patch2 := listSetRange patch1 0 (buf.drop (buf.length - SLOP))
            (h2, some { rstate := st2, patch := patch2, stack := stack2 })
    else
      let size := buf.length
      let patch1 := listSetRange d.patch SLOP buf
      match goDecode env cap h d.rstate d.stack patch1 size with
      | (h1, none) => (h1, none)
      | (h1, some (st1, stack1)) =>
        let patch2 := listSetRange patch1 0 ((patch1.drop size).take SLOP)
        (h1, some { rstate := st1, patch := patch2, stack := stack1 })

/-- ResumeableDecode::finish (decoding.rs 1173-1188): flush the patch tail
and require no overrun, a plain message state and an empty stack. -/
def finishDecode (env : TableEnv) (cap : Nat) (h : Heap) (d : RDecoder) : Heap × Bool :=
  match d.rstate.obj with
  | .nil => (h, false)
  | _ =>
    match goDecode env cap h d.rstate d.stack d.patch SLOP with
    | (h1, none) => (h1, false)
    | (h1, some (st, stack')) =>
      (h1, (st.overrun == 0) &&
        (match st.obj with | .message _ _ => true | _ => false) && stack'.isEmpty)

/-- ProtobufMut::decode_flat (lib.rs 336-352): resume once over the buffer,
then finish; on any failure the target object is cleared. -/
def decodeFlat (env : TableEnv) (cap : Nat) (h : Heap) (p tbl : Nat) (buf : List Nat) :
    Bool × Heap :=
  let d := RDecoder.new p tbl isizeMax
  match resumeImpl env cap h d buf with
  | (h1, none) => (false, h1.clearObj p)
  | (h1, some d1) =>
    match finishDecode env cap h1 d1 with
    | (h2, false) => (false, h2.clearObj p)
    | (h2, true) => (true, h2)

/-- FieldDescriptorProto label. -/
inductive Label where
  | optional | required | repeated
deriving DecidableEq

/-- FieldDescriptorProto type. -/
inductive PType where
  | int32 | int64 | uint32 | uint64 | sint32 | sint64
  | fixed32 | fixed64 | sfixed32 | sfixed64 | float | double
  | bool | string | bytes | message | group | enum
deriving DecidableEq

/-- The parts of a FieldDescriptorProto that reflection consults. -/
structure FieldDescriptor where
  number : Nat
  label : Label
  typ : PType
  hasOneofIndex : Bool
deriving DecidableEq

/-- reflection::is_repeated. -/
def isRepeatedFd (f : FieldDescriptor) : Bool := f.label == Label.repeated

/-- reflection::is_message. -/
def isMessageFd (f : FieldDescriptor) : Bool :=
  f.typ == PType.message || f.typ == PType.group

/-- reflection::needs_has_bit (reflection.rs 152-154). -/
def needsHasBit (f : FieldDescriptor) : Bool :=
  !isRepeatedFd f && !isMessageFd f && !f.hasOneofIndex

/-- A dynamically typed field value (reflection.rs `Value`); float values are
their bit patterns. -/
inductive Value where
  | int32 (v : Nat) | int64 (v : Nat) | uint32 (v : Nat) | uint64 (v : Nat)
  | float (v : Nat) | double (v : Nat) | bool (v : Bool)
  | str (v : List Nat) | bytes (v : List Nat)
  | message (p tbl : Nat)
  | repInt32 (v : List Nat) | repInt64 (v : List Nat)
  | repUInt32 (v : List Nat) | repUInt64 (v : List Nat)
  | repFloat (v : List Nat) | repDouble (v : List Nat)
  | repBool (v : List Bool) | repString (v : List (List Nat))
  | repBytes (v : List (List Nat)) | repMessage (ps : List Nat) (tbl : Nat)
deriving DecidableEq

/-- The singular-value read of get_field after the presence checks
(reflection.rs 365-401). -/
def getScalarValue (env : TableEnv) (tbl : Nat) (o : Obj) (entry : TableEntry)
    (f : FieldDescriptor) : Option Value :=
  match f.typ with
  | .int32 | .sint32 | .sfixed32 | .enum => some (.int32 (o.readN32 entry.offset))
  | .int64 | .sint64 | .sfixed64 => some (.int64 (o.readN64 entry.offset))
  | .uint32 | .fixed32 => some (.uint32 (o.readN32 entry.offset))
  | .uint64 | .fixed64 => some (.uint64 (o.readN64 entry.offset))
  | .float => some (.float (o.readN32 entry.offset))
  | .double => some (.double (o.readN64 entry.offset))
  | .bool => some (.bool (o.readBool entry.offset))
  | .string => some (.str (o.readBytes entry.offset))
  | .bytes => some (.bytes (o.readBytes entry.offset))
  | .message | .group =>
    let aux := (tableAt env tbl).auxEntryDecode entry.offset
    match o.readMsgPtr aux.offset with
    | none => none
    | some q => some (.message q aux.childTable)

/-- DynamicMessageRef::get_field (reflection.rs 256-404).  Repeated fields
are present iff non-empty; otherwise a oneof entry compares the
discriminant, a field with a has-bit checks it, and message fields check
the pointer for null.  The source unwraps the entry lookup; fields outside
the decode-entry range yield `none` here. -/
def getField (env : TableEnv) (h : Heap) (p tbl : Nat) (f : FieldDescriptor) :
    Option Value :=
  match (tableAt env tbl).entry f.number with
  | none => none
  | some entry =>
    let o := h.get p
    if f.label == Label.repeated then
      match f.typ with
      | .int32 | .sint32 | .sfixed32 | .enum =>
        let s := o.readRep32 entry.offset
        if s.isEmpty then none else some (.repInt32 s)
      | .int64 | .sint64 | .sfixed64 =>
        let s := o.readRep64 entry.offset
        if s.isEmpty then none else some (.repInt64 s)
      | .uint32 | .fixed32 =>
        let s := o.readRep32 entry.offset
        if s.isEmpty then none else some (.repUInt32 s)
      | .uint64 | .fixed64 =>
        let s := o.readRep64 entry.offset
        if s.isEmpty then none else some (.repUInt64 s)
      | .float =>
        let s := o.readRep32 entry.offset
        if s.isEmpty then none else some (.repFloat s)
      | .double =>
        let s := o.readRep64 entry.offset
        if s.isEmpty then none else some (.repDouble s)
      | .bool =>
        let s := o.readRepBool entry.offset
        if s.isEmpty then none else some (.repBool s)
      | .string =>
        let s := o.readRepBytes entry.offset
        if s.isEmpty then none else some (.repString s)
      | .bytes =>
        let s := o.readRepBytes entry.offset
        if s.isEmpty then none else some (.repBytes s)
      | .message | .group =>
        let aux := (tableAt env tbl).auxEntryDecode entry.offset
        let s := o.readRepMsg aux.offset
        if s.isEmpty then none else some (.repMessage s aux.childTable)
    else
      if entry.hasBitIdx &&& 0x80 ≠ 0 then
        if o.readWord ((entry.hasBitIdx &&& 0x7F) * 4) ≠ f.number then none
        else getScalarValue env tbl o entry f
      else if needsHasBit f then
        if o.hasBit entry.hasBitIdx then getScalarValue env tbl o entry f else none
      else getScalarValue env tbl o entry f

/-! ## Arena (arena.rs) -/

/-- Round `a` up to a multiple of `n`; for power-of-two `n` this equals the
source's mask arithmetic `(a + n - 1) AND NOT (n - 1)`. -/
def alignUp (a n : Nat) : Nat := (a + n - 1) / n * n

/-- size_of::<MemBlock> — prev pointer plus the stored Layout. -/
def memBlockHeader : Nat := 24

/-- Layout::extend — offset of the appended item and the extended
(size, align). -/
def layoutExtend (size1 align1 size2 align2 : Nat) : (Nat × Nat) × Nat :=
  let off := alignUp size1 align2
  ((off + size2, max align1 align2), off)

/-- Layout::pad_to_align. -/
def layoutPad (size align : Nat) : Nat := alignUp size align

/-- One arena memory block, by address and full layout size. -/
structure MemBlockM where
  addr : Nat
  size : Nat
deriving DecidableEq, Repr

/-- The arena (arena.rs): the prev-linked block list with the current block
first, the bump cursor and end pointers (0 models null), whether a backing
allocator exists, and the model allocator's next fresh address. -/
structure ArenaM where
  blocks : List MemBlockM
  cursor : Nat
  endp : Nat
  hasAlloc : Bool
  nextA : Nat
deriving DecidableEq, Repr

/-- Arena::new — no blocks, null cursor and end. -/
def ArenaM.new : ArenaM :=
  { blocks := [], cursor := 0, endp := 0, hasAlloc := true, nextA := 64 }

/-- Arena::from_slice over a caller buffer at `addr` of length `len`. -/
def ArenaM.fromSlice (addr len : Nat) : ArenaM :=
  { blocks := [⟨addr, len⟩], cursor := addr + memBlockHeader, endp := addr + len,
    hasAlloc := false, nextA := 0 }

/-- The model backing allocator: returns a fresh suitably aligned address. -/
def ArenaM.allocate (a : ArenaM) (size align : Nat) : Nat × ArenaM :=
  let addr := alignUp a.nextA align
  (addr, { a with nextA := addr + size })

/-- Arena::alloc_dedicated (arena.rs 206-237): allocate a dedicated block
and insert it just behind the current block, leaving cursor and end
untouched; with no current block it becomes the only block and cursor/end
remain null. -/
def ArenaM.allocDedicated (a : ArenaM) (size align : Nat) : Option (Nat × ArenaM) :=
  if !a.hasAlloc then none else
  let ext := layoutExtend memBlockHeader 8 size align
  let finalSize := layoutPad ext.1.1 ext.1.2
  let dataOff := ext.2
  let (addr, a1) := a.allocate finalSize ext.1.2
  match a1.blocks with
  | [] => some (addr + dataOff, { a1 with blocks := [⟨addr, finalSize⟩] })
  | cur :: rest =>
    some (addr + dataOff, { a1 with blocks := cur :: ⟨addr, finalSize⟩ :: rest })

/-- Arena::allocate_new_block (arena.rs 166-203): start a new current block
sized for this allocation plus the doubled block size (8 KiB initially,
capped at 1 MiB), and point cursor/end into it. -/
def ArenaM.allocateNewBlock (a : ArenaM) (size align : Nat) : Option (Nat × ArenaM) :=
  if !a.hasAlloc then none else
  let ext1 := layoutExtend memBlockHeader 8 size align
  let s1p := layoutPad ext1.1.1 ext1.1.2
  let off := ext1.2
  let newBlockSize :=
    match a.blocks with
    | [] => 8192
    | cur :: _ => min (cur.size * 2) (1024 * 1024)
  let ext2 := layoutExtend s1p ext1.1.2 newBlockSize 1
  let s2p := layoutPad ext2.1.1 ext2.1.2
  let blockStart := ext2.2
  let (addr, a1) := a.allocate s2p ext2.1.2
  some (addr + off,
    { a1 with
        blocks := ⟨addr, s2p⟩ :: a1.blocks
        cursor := addr + blockStart
        endp := addr + s2p })

/-- Arena::alloc_outlined (arena.rs 150-163): the 512-byte
significant-space threshold decides between a dedicated block and a new
current block. -/
def ArenaM.allocOutlined (a : ArenaM) (size align availU : Nat) : Option (Nat × ArenaM) :=
  if 512 ≤ availU then a.allocDedicated size align
  else a.allocateNewBlock size align

/-- Arena::alloc_raw (arena.rs 112-132): align the cursor, take the fast
path when the request fits before `end`, and otherwise fall out to
alloc_outlined with `available` cast to usize (two's complement). -/
def ArenaM.allocRaw (a : ArenaM) (size align : Nat) : Option (Nat × ArenaM) :=
  let aligned := alignUp a.cursor align
  let available : Int := (a.endp : Int) - aligned
  if (size : Int) ≤ available then
    some (aligned, { a with cursor := aligned + size })
  else
    a.allocOutlined size align ((available.emod (2 ^ 64)).toNat)

/-! ## Encoder — modelled from the spec (§4.6)

`encoding.rs` is absent from the sources.  The spec describes a back-to-front
emitter over the encode entries in reverse order, which produces the present
fields' encodings concatenated in declaration order; sub-messages become
length-delimited blocks (groups bracketed by start/end tags); presence is the
has-bit for scalars, the discriminant for oneofs, non-emptiness for repeated
fields and a non-null pointer for message fields; a repeated primitive whose
precomputed tag has wire type 2 is emitted packed; exceeding the stack depth
is TreeTooDeep (`none`). -/

/-- Modelled from the spec: zigzag encode of a 64-bit pattern. -/
def zigzagEncode64 (v : Nat) : Nat :=
  if v < 2 ^ 63 then 2 * v else 2 * (2 ^ 64 - v) - 1

/-- Modelled from the spec: zigzag encode of a 32-bit pattern. -/
def zigzagEncode32 (v : Nat) : Nat :=
  if v < 2 ^ 31 then 2 * v else 2 * (2 ^ 32 - v) - 1

/-- Sign extension of an i32 bit pattern to the u64 pattern protobuf uses
for int32 varints. -/
def signExtend32 (v : Nat) : Nat :=
  if v < 2 ^ 31 then v else v + (2 ^ 64 - 2 ^ 32)

/-- Concatenated image of a list under an encoder. -/
def concatMapL (f : α → List Nat) (l : List α) : List Nat := (l.map f).flatten

/-- The end-group tag for an encode entry's field number. -/
def endTagOf (encodedTag : Nat) : Nat := (encodedTag >>> 3) <<< 3 ||| 4

/-- Modelled from the spec: presence of a non-repeated encode entry — the
oneof discriminant, the message pointer (its aux storage offset is passed
in), or the has-bit. -/
def encPresent (h : Heap) (p : Nat) (en : EncodeEntry) (msgOff : Option Nat) : Bool :=
  let o := h.get p
  if en.hasBit &&& 0x80 ≠ 0 then
    o.readWord ((en.hasBit &&& 0x7F) * 4) == en.encodedTag >>> 3
  else
    match msgOff with
    | some off => (o.readMsgPtr off).isSome
    | none => o.hasBit en.hasBit

/-- Modelled from the spec: a repeated primitive is emitted packed when its
precomputed tag has wire type 2, and element-wise with the native tag
otherwise; an empty container emits nothing. -/
def encodePackable (tagB : List Nat) (en : EncodeEntry) (elems : List Nat)
    (enc : Nat → List Nat) : List Nat :=
  if elems.isEmpty then []
  else if en.encodedTag &&& 7 == 2 then
    let payload := concatMapL enc elems
    tagB ++ varintEncode payload.length ++ payload
  else concatMapL (fun v => tagB ++ enc v) elems

mutual

/-- Modelled from the spec: encode one message object; `none` is
TreeTooDeep. -/
def encodeMsgM (env : TableEnv) (h : Heap) : Nat → Nat → Nat → Option (List Nat)
  | 0, _, _ => none
  | depth+1, p, tbl => encodeEntriesM env h depth p tbl (tableAt env tbl).encodeEntries
termination_by d _ _ => (d, 0, 0)

/-- Modelled from the spec: encode a list of entries in declaration
order. -/
def encodeEntriesM (env : TableEnv) (h : Heap) :
    Nat → Nat → Nat → List EncodeEntry → Option (List Nat)
  | _, _, _, [] => some []
  | depth, p, tbl, en :: rest =>
    match encodeOneM env h depth p tbl en, encodeEntriesM env h depth p tbl rest with
    | some a, some b => some (a ++ b)
    | _, _ => none
termination_by d _ _ l => (d, 1, l.length + 1)

/-- Modelled from the spec: encode the elements of a repeated
message/group field. -/
def encodeRepMsgM (env : TableEnv) (h : Heap) :
    Nat → Nat → Bool → Nat → List Nat → Option (List Nat)
  | _, _, _, _, [] => some []
  | depth, tagVal, isGroup, tbl', q :: qs =>
    match encodeMsgM env h depth q tbl', encodeRepMsgM env h depth tagVal isGroup tbl' qs with
    | some body, some rest =>
      if isGroup then
        some (varintEncode tagVal ++ body ++ varintEncode (endTagOf tagVal) ++ rest)
      else
        some (varintEncode tagVal ++ varintEncode body.length ++ body ++ rest)
    | _, _ => none
termination_by d _ _ _ l => (d, 0, l.length + 1)

/-- Modelled from the spec: emit one encode entry if its field is
present. -/
def encodeOneM (env : TableEnv) (h : Heap) (depth p tbl : Nat) (en : EncodeEntry) :
    Option (List Nat) :=
  let o := h.get p
  let tagB := varintEncode en.encodedTag
  match en.kind with
  | .Varint64 =>
    if encPresent h p en (none : Option Nat) then
      some (tagB ++ varintEncode (o.readN64 en.offset))
    else some []
  | .Varint32 =>
    if encPresent h p en none then some (tagB ++ varintEncode (o.readN32 en.offset))
    else some []
  | .Int32 =>
    if encPresent h p en none then
      some (tagB ++ varintEncode (signExtend32 (o.readN32 en.offset)))
    else some []
  | .Varint64Zigzag =>
    if encPresent h p en none then
      some (tagB ++ varintEncode (zigzagEncode64 (o.readN64 en.offset)))
    else some []
  | .Varint32Zigzag =>
    if encPresent h p en none then
      some (tagB ++ varintEncode (zigzagEncode32 (o.readN32 en.offset)))
    else some []
  | .Bool =>
    if encPresent h p en none then
      some (tagB ++ [if o.readBool en.offset then 1 else 0])
    else some []
  | .Fixed64 =>
    if encPresent h p en none then some (tagB ++ fixedEncodeLE 8 (o.readN64 en.offset))
    else some []
  | .Fixed32 =>
    if encPresent h p en none then some (tagB ++ fixedEncodeLE 4 (o.readN32 en.offset))
    else some []
  | .Bytes | .String =>
    if encPresent h p en none then
      let b := o.readBytes en.offset
      some (tagB ++ varintEncode b.length ++ b)
    else some []
  | .Message =>
    let aux := (tableAt env tbl).auxEntryDecode en.offset
    if encPresent h p en (some aux.offset) then
      match o.readMsgPtr aux.offset with
      | none => some []
      | some q =>
        match encodeMsgM env h depth q aux.childTable with
        | none => none
        | some body => some (tagB ++ varintEncode body.length ++ body)
    else some []
  | .Group =>
    let aux := (tableAt env tbl).auxEntryDecode en.offset
    if encPresent h p en (some aux.offset) then
      match o.readMsgPtr aux.offset with
      | none => some []
      | some q =>
        match encodeMsgM env h depth q aux.childTable with
        | none => none
        | some body =>
          some (tagB ++ body ++ varintEncode (endTagOf en.encodedTag))
    else some []
  | .RepeatedVarint64 =>
    some (encodePackable tagB en (o.readRep64 en.offset) varintEncode)
  | .RepeatedVarint32 =>
    some (encodePackable tagB en (o.readRep32 en.offset) varintEncode)
  | .RepeatedInt32 =>
    some (encodePackable tagB en (o.readRep32 en.offset)
      (fun v => varintEncode (signExtend32 v)))
  | .RepeatedVarint64Zigzag =>
    some (encodePackable tagB en (o.readRep64 en.offset)
      (fun v => varintEncode (zigzagEncode64 v)))
  | .RepeatedVarint32Zigzag =>
    some (encodePackable tagB en (o.readRep32 en.offset)
      (fun v => varintEncode (zigzagEncode32 v)))
  | .RepeatedBool =>
    some (encodePackable tagB en
      ((o.readRepBool en.offset).map (fun b => if b then 1 else 0)) varintEncode)
  | .RepeatedFixed64 =>
    some (encodePackable tagB en (o.readRep64 en.offset) (fixedEncodeLE 8))
  | .RepeatedFixed32 =>
    some (encodePackable tagB en (o.readRep32 en.offset) (fixedEncodeLE 4))
  | .RepeatedBytes | .RepeatedString =>
    some (concatMapL (fun b => tagB ++ varintEncode (List.length b) ++ b)
      (o.readRepBytes en.offset))
  | .RepeatedMessage =>
    let aux := (tableAt env tbl).auxEntryDecode en.offset
    encodeRepMsgM env h depth en.encodedTag false aux.childTable (o.readRepMsg aux.offset)
  | .RepeatedGroup =>
    let aux := (tableAt env tbl).auxEntryDecode en.offset
    encodeRepMsgM env h depth en.encodedTag true aux.childTable (o.readRepMsg aux.offset)
  | .Unknown => some []
termination_by (depth, 1, 0)

end


/-! ## Demonstration tables and heaps used to instantiate the theorems -/

/-- A small table: field 1 u64 varint, field 2 fixed64, field 3 string,
field 5 sub-message (recursively of the same type), field 7 repeated u32. -/
def demoTable : Table :=
  { size := 64,
    decodeEntries :=
      [⟨.Unknown, 0, 0⟩, ⟨.Varint64, 0, 8⟩, ⟨.Fixed64, 1, 16⟩, ⟨.String, 2, 24⟩,
       ⟨.Unknown, 0, 0⟩, ⟨.Message, 3, 200⟩, ⟨.Unknown, 0, 0⟩,
       ⟨.RepeatedVarint32, 0, 32⟩],
    auxEntries := [(200, ⟨40, 0⟩)],
    encodeEntries :=
      [⟨0, .Varint64, 8, 0x08⟩, ⟨1, .Fixed64, 16, 0x11⟩, ⟨2, .String, 24, 0x1A⟩,
       ⟨3, .Message, 200, 0x2A⟩, ⟨0, .RepeatedVarint32, 32, 0x3A⟩] }

/-- The demo table environment. -/
def demoEnv : TableEnv := [demoTable]

/-- An empty heap whose object 0 is the decode target. -/
def heap0 : Heap := { objs := fun _ => Obj.empty, next := 1 }

/-- Iterate 8-byte/8-aligned allocations (used to reach arena states through
the public allocation interface). -/
def allocIter : Nat → ArenaM → ArenaM
  | 0, a => a
  | n+1, a =>
    match a.allocRaw 8 8 with
    | some (_, a') => allocIter n a'
    | none => a

/-- Aligning rounds up: `a ≤ alignUp a n` for positive `n`. -/
theorem alignUp_ge (a n : Nat) (hn : 0 < n) : a ≤ alignUp a n := by
  have h := Nat.lt_div_mul_add (a := a + n - 1) hn
  unfold alignUp
  omega

/-- The container read by get_field for a repeated field of the given
descriptor type (emptiness decides presence). -/
def repContainerEmpty (env : TableEnv) (tbl : Nat) (o : Obj) (entry : TableEntry)
    (f : FieldDescriptor) : Bool :=
  match f.typ with
  | .int32 | .sint32 | .sfixed32 | .enum | .uint32 | .fixed32 | .float =>
    (o.readRep32 entry.offset).isEmpty
  | .int64 | .sint64 | .sfixed64 | .uint64 | .fixed64 | .double =>
    (o.readRep64 entry.offset).isEmpty
  | .bool => (o.readRepBool entry.offset).isEmpty
  | .string | .bytes => (o.readRepBytes entry.offset).isEmpty
  | .message | .group =>
    (o.readRepMsg ((tableAt env tbl).auxEntryDecode entry.offset).offset).isEmpty

/-- A table with a oneof (discriminant word 1 at offset 4), a has-bit
scalar, a repeated field and a message field, for presence-rule
instantiation. -/
def oneofTable : Table :=
  { size := 48,
    decodeEntries :=
      [⟨.Unknown, 0, 0⟩, ⟨.Varint32, 129, 12⟩, ⟨.Varint64, 129, 12⟩,
       ⟨.Varint64, 1, 16⟩, ⟨.RepeatedVarint32, 0, 24⟩, ⟨.Message, 0, 300⟩],
    auxEntries := [(300, ⟨32, 0⟩)],
    encodeEntries := [] }

/-- Environment for the oneof table. -/
def oneofEnv : TableEnv := [oneofTable]

/-- An object with oneof arm 1 active, has-bit 1 set, one repeated element
and a non-null child. -/
def oneofObj : Obj :=
  ((((Obj.empty.upd 4 (.word 1)).setHasBit 1).upd 12 (.n32 7)).upd 16
      (.n64 9)).upd 24 (.rep32 [5]) |>.upd 32 (.msgPtr 3)

/-- Heap holding the oneof demo object at pointer 0. -/
def oneofHeap : Heap :=
  { objs := fun q => if q = 0 then oneofObj else Obj.empty, next := 4 }


/-- The packed-stream element kind selected by decode_loop's repeated-varint
branch (decoding.rs 1077-1126) for each of the six repeated varint
FieldKinds; other kinds have no packed varint form. -/
def packKindOf : FieldKind → Option PackKind
  | .RepeatedVarint64 => some .u64
  | .RepeatedVarint32 => some .u32
  | .RepeatedInt32 => some .u32
  | .RepeatedVarint64Zigzag => some .i64z
  | .RepeatedVarint32Zigzag => some .i32z
  | .RepeatedBool => some .boolk
  | _ => none

/-- The packed wire image of a repeated varint field: a wire-type-2 tag, the
payload length, then the concatenated element varints. -/
def packedVarBuf (fn : Nat) (ws : List Nat) : List Nat :=
  varintEncodeAux 5 (8 * fn + 2)
    ++ (varintEncodeAux 5 (ws.flatMap varintEncode).length
        ++ ws.flatMap varintEncode)

/-- The unpacked wire image of a repeated varint field: one wire-type-0 tag
per element, each followed by the element varint. -/
def unpackedVarBuf (fn : Nat) (ws : List Nat) : List Nat :=
  ws.flatMap (fun w => varintEncodeAux 5 (8 * fn) ++ varintEncode w)

/-- Element byte width of the fixed kinds (8 for RepeatedFixed64, 4 for
RepeatedFixed32). -/
def fixedWidth (wide : Bool) : Nat := if wide then 8 else 4

/-- The packed wire image of a repeated fixed-width field. -/
def packedFixedBuf (fn : Nat) (wide : Bool) (ws : List Nat) : List Nat :=
  varintEncodeAux 5 (8 * fn + 2)
    ++ (varintEncodeAux 5 (ws.flatMap (fixedEncodeLE (fixedWidth wide))).length
        ++ ws.flatMap (fixedEncodeLE (fixedWidth wide)))

/-- The unpacked wire image of a repeated fixed-width field: one tag of the
kind's native wire type (1 or 5) per element, each followed by the
little-endian element bytes. -/
def unpackedFixedBuf (fn : Nat) (wide : Bool) (ws : List Nat) : List Nat :=
  ws.flatMap (fun w =>
    varintEncodeAux 5 (8 * fn + (if wide then 1 else 5))
      ++ fixedEncodeLE (fixedWidth wide) w)

/-- A table with the two repeated fixed-width kinds, for instantiating the
packed/unpacked equivalence. -/
def fixedDemoTable : Table :=
  { size := 32,
    decodeEntries :=
      [⟨.Unknown, 0, 0⟩, ⟨.RepeatedFixed64, 0, 8⟩, ⟨.RepeatedFixed32, 0, 16⟩],
    auxEntries := [],
    encodeEntries := [] }

/-- The environment of the fixed-width demo table. -/
def fixedDemoEnv : TableEnv := [fixedDemoTable]


/-- The wire image of a linear chain of `d` nested empty sub-messages of the
demo table's message field (field 5, tag 0x2A): each level is a header
followed by the body, the innermost body empty. -/
def msgChain : Nat → List Nat
  | 0 => []
  | d+1 => 0x2A :: (2 * d) :: msgChain d

/-- A heap holding a linear chain of `n` message objects: object `i` points
to object `i+1` through the demo table's message field storage (offset 40),
the last object empty.  A tree of nesting depth `n`. -/
def chainHeap (n : Nat) : Heap :=
  ⟨fun p => if p + 1 < n then Obj.empty.upd 40 (.msgPtr (p + 1)) else Obj.empty, n⟩


/-- A heap whose root object 0 already has a non-null child (object 3) in
the demo message field, and whose child has prior data, for the merge
experiment. -/
def mergeHeap : Heap :=
  { objs := fun q => if q = 0 then Obj.empty.upd 40 (.msgPtr 3)
            else if q = 3 then Obj.empty.upd 16 (.n64 9) else Obj.empty,
    next := 4 }

/-- Clearing an object makes it read as zeroed memory. -/
theorem Heap.clearObj_get (h : Heap) (p : Nat) : (h.clearObj p).get p = Obj.empty := by
  simp [Heap.clearObj, Heap.setObj, Heap.get]

/-! ## Claim theorems -/

theorem listSetRange_patch1 (buf : List Nat) (hb2 : buf.length ≤ SLOP) :
    listSetRange (List.replicate (2 * SLOP) 0) SLOP buf
      = List.replicate SLOP 0 ++ buf ++ List.replicate (SLOP - buf.length) 0 := by
  unfold listSetRange
  rw [List.take_replicate, List.drop_replicate]
  simp only [SLOP] at *
  rw [show min 16 (2*16) = 16 from rfl, show 2 * 16 - (16 + buf.length) = 16 - buf.length
    from by omega]

theorem patch_drop (buf : List Nat) (hb2 : buf.length ≤ SLOP) :
    (List.replicate SLOP 0 ++ buf ++ List.replicate (SLOP - buf.length) 0).drop buf.length
      = List.replicate (SLOP - buf.length) 0 ++ buf
          ++ List.replicate (SLOP - buf.length) 0 := by
  rw [List.append_assoc, List.drop_append_eq_append_drop, List.drop_replicate,
    List.length_replicate]
  simp only [SLOP] at *
  rw [show buf.length - 16 = 0 from by omega, List.drop_zero, List.append_assoc]

theorem patch_take (buf : List Nat) (hb1 : 1 ≤ buf.length) (hb2 : buf.length ≤ SLOP) :
    (List.replicate (SLOP - buf.length) 0 ++ buf
        ++ List.replicate (SLOP - buf.length) 0).take SLOP
      = List.replicate (SLOP - buf.length) 0 ++ buf := by
  rw [List.append_assoc, List.take_append_eq_append_take, List.take_replicate,
    List.length_replicate]
  simp only [SLOP] at *
  rw [show min 16 (16 - buf.length) = 16 - buf.length from by omega]
  congr 1
  rw [List.take_append_eq_append_take]
  rw [show 16 - (16 - buf.length) - buf.length = 0 from by omega, List.take_zero,
    List.append_nil, List.take_of_length_le (by omega)]

theorem patch2_eq (buf : List Nat) (hb1 : 1 ≤ buf.length) (hb2 : buf.length ≤ SLOP) :
    listSetRange (List.replicate SLOP 0 ++ buf ++ List.replicate (SLOP - buf.length) 0) 0
      (((List.replicate SLOP 0 ++ buf
          ++ List.replicate (SLOP - buf.length) 0).drop buf.length).take SLOP)
    = List.replicate (SLOP - buf.length) 0 ++ buf ++ buf
        ++ List.replicate (SLOP - buf.length) 0 := by
  rw [patch_drop buf hb2, patch_take buf hb1 hb2]
  unfold listSetRange
  rw [List.take_zero, List.nil_append, Nat.zero_add]
  have hlen : (List.replicate (SLOP - buf.length) 0 ++ buf).length = SLOP := by
    simp only [List.length_append, List.length_replicate, SLOP] at *
    omega
  rw [hlen, List.append_assoc, List.drop_append_eq_append_drop]
  have hd : List.drop SLOP (List.replicate SLOP 0 ++ buf) = buf :=
    List.drop_left' (by simp)
  have hc : SLOP - (List.replicate SLOP 0 ++ buf).length = 0 := by
    simp only [List.length_append, List.length_replicate]
    omega
  rw [hd, hc]
  simp [List.append_assoc]

theorem decodeFlat_small (env : TableEnv) (cap : Nat) (h : Heap) (p tbl : Nat)
    (buf : List Nat) (hb1 : 1 ≤ buf.length) (hb2 : buf.length ≤ SLOP) :
    decodeFlat env cap h p tbl buf =
      match decodeLoop env cap SLOP
          (List.replicate (SLOP - buf.length) 0 ++ buf ++ buf
            ++ List.replicate (SLOP - buf.length) 0)
          (decodeFuel SLOP cap) h
          ⟨isizeMax - buf.length - SLOP, p, tbl⟩ (SLOP - buf.length) [] with
      | (h', none) => (false, h'.clearObj p)
      | (h', some (c, _, ob, stack')) =>
          if (((c : Int) - (SLOP : Nat)) == 0) &&
             (match ob with | .message _ _ => true | _ => false) && stack'.isEmpty
          then (true, h')
          else (false, h'.clearObj p) := by
  have hs : ¬ (SLOP < buf.length) := by omega
  have hle : (buf.length : Int) ≤ ((SLOP : Nat) : Int) := by exact_mod_cast hb2
  have hgt : ¬ (((SLOP : Nat) : Int) ≤ (SLOP : Int) - (buf.length : Int)) := by
    simp only [SLOP]; omega
  have htn : ((SLOP : Int) - (buf.length : Int)).toNat = SLOP - buf.length := by
    simp only [SLOP] at *; omega
  unfold decodeFlat resumeImpl
  simp only [RDecoder.new, if_neg hs, listSetRange_patch1 buf hb2]
  unfold goDecode
  simp only [if_pos hle]
  simp only [patch2_eq buf hb1 hb2]
  unfold finishDecode
  unfold goDecode
  simp only [if_neg hgt, htn]
  rcases hdl : decodeLoop env cap SLOP
      (List.replicate (SLOP - buf.length) 0 ++ buf ++ buf
        ++ List.replicate (SLOP - buf.length) 0)
      (decodeFuel SLOP cap) h
      ⟨isizeMax - buf.length - SLOP, p, tbl⟩ (SLOP - buf.length) [] with ⟨h', od⟩
  cases od with
  | none => rfl
  | some r =>
    rcases r with ⟨c, l, ob, stack'⟩
    clear hdl
    cases hb : (((c : Int) - ((SLOP : Nat) : Int) == 0) &&
        (match ob with | .message _ _ => true | _ => false) && stack'.isEmpty) with
    | false => simp [hb]
    | true => simp [hb]

theorem byteAt_append_right (l1 l2 : List Nat) (k : Nat) :
    byteAt (l1 ++ l2) (l1.length + k) = byteAt l2 k := by
  unfold byteAt
  rw [List.getD_append_right l1 l2 0 _ (Nat.le_add_right _ _), Nat.add_sub_cancel_left]

theorem byteAt_cons_zero (a : Nat) (l : List Nat) : byteAt (a :: l) 0 = a % 256 := rfl

theorem readTag_single (mem : List Nat) (i : Nat) (h : byteAt mem i < 128) :
    readTag mem i = some (byteAt mem i, i + 1) := by
  have h2 : byteAt mem i % 2 ^ 32 = byteAt mem i :=
    Nat.mod_eq_of_lt (lt_trans h (by norm_num))
  simp [readTag, readTagAux, h, h2]
  omega

theorem readSize_single (mem : List Nat) (i : Nat) (h : byteAt mem i < 128) :
    readSize mem i = some ((byteAt mem i : Int), i + 1) := by
  have h2 : byteAt mem i % 2 ^ 64 = byteAt mem i :=
    Nat.mod_eq_of_lt (lt_trans h (by norm_num))
  simp [readSize, readVarintAux, h, h2]
  omega

theorem sliceBytes_exact (l1 p l2 : List Nat) (hp : ∀ b ∈ p, b < 256) :
    sliceBytes (l1 ++ (p ++ l2)) l1.length p.length = p := by
  apply List.ext_getElem
  · simp [sliceBytes]
  · intro k h1 h2
    simp only [sliceBytes, List.getElem_map, List.getElem_range, byteAt,
      List.length_map, List.length_range] at h1 ⊢
    rw [List.getD_append_right l1 _ 0 _ (Nat.le_add_right _ _), Nat.add_sub_cancel_left,
      List.getD_append p l2 0 k (by omega), List.getD_eq_getElem p 0 (by omega)]
    exact Nat.mod_eq_of_lt (hp _ (List.getElem_mem _))

/-- C5: for every target message and every input on which decode_flat
returns false, after the call the target message reads as fully zeroed
memory — every field therefore reads as its default value. -/
theorem c5_zero_on_failure (env : TableEnv) (cap : Nat) (h : Heap) (p tbl : Nat)
    (buf : List Nat) (hfail : (decodeFlat env cap h p tbl buf).1 = false) :
    (decodeFlat env cap h p tbl buf).2.get p = Obj.empty := by
  rcases hres : resumeImpl env cap h (RDecoder.new p tbl isizeMax) buf with ⟨h1, od⟩
  cases od with
  | none => simp [decodeFlat, hres, Heap.clearObj_get]
  | some d1 =>
    rcases hfin : finishDecode env cap h1 d1 with ⟨h2, b⟩
    cases b with
    | false => simp [decodeFlat, hres, hfin, Heap.clearObj_get]
    | true => simp [decodeFlat, hres, hfin] at hfail

theorem c5_zero_on_failure_witness :
    (decodeFlat demoEnv 32 heap0 0 0 [8]).1 = false ∧
    (decodeFlat demoEnv 32 heap0 0 0 [8]).2.get 0 = Obj.empty :=
  ⟨by decide, c5_zero_on_failure demoEnv 32 heap0 0 0 [8] (by decide)⟩

/-- C7 (failing-input evaluation): a tag 0 at top level with an empty stack
makes decode_loop return the terminate continuation (DecodeObject::None) —
parsing does stop — but the resumable driver then treats that continuation
as a failure: ResumeableDecode::finish demands a Message state, so
decode_flat on the single byte 0 returns false (and the claim's required
success does not occur). -/
theorem c7_zero_tag_terminates_but_decode_flat_fails :
    (decodeLoop demoEnv 32 1 [0] 50 heap0 ⟨100, 0, 0⟩ 0 []).2
        = some (1, 100, DObj.nil, []) ∧
    (decodeFlat demoEnv 32 heap0 0 0 [0]).1 = false := by decide

set_option maxRecDepth 40000 in
/-- C8 counterexample: an arena state reached through 1025 public
allocations has 8 bytes of remaining fast-path space (< 512); a 16-byte
64-aligned request does not fit, yet alloc_raw inserts a dedicated block
behind the preserved current block (cursor, end and the head block are
unchanged) instead of starting a new current block: the 512-byte comparison
is made on `end - aligned_cursor` reinterpreted as usize, which wraps for
the negative remainder produced by the alignment overshoot. -/
theorem c8_counterexample :
    (allocIter 1024 ArenaM.new).hasAlloc = true ∧
    (allocIter 1024 ArenaM.new).cursor ≤ (allocIter 1024 ArenaM.new).endp ∧
    (allocIter 1024 ArenaM.new).endp - (allocIter 1024 ArenaM.new).cursor < 512 ∧
    ((allocIter 1024 ArenaM.new).endp : Int)
        - (alignUp (allocIter 1024 ArenaM.new).cursor 64 : Nat) < (16 : Int) ∧
    ((allocIter 1024 ArenaM.new).allocRaw 16 64).map
        (fun r => (r.2.cursor, r.2.endp, r.2.blocks)) =
      some ((allocIter 1024 ArenaM.new).cursor, (allocIter 1024 ArenaM.new).endp,
        [⟨64, 8224⟩, ⟨8320, 128⟩]) := by decide

/-- C8 amended: for a request that does not fit the fast path, the branch
is decided by `end - aligned_cursor` reinterpreted as an unsigned 64-bit
value (so an alignment overshoot past `end` also counts as "significant").
When that value is at least 512 a dedicated block is inserted directly
behind the preserved current block, leaving cursor and end untouched;
otherwise a new current block is pushed in front and becomes the active
bump block. -/
theorem c8_amended (a : ArenaM) (size align : Nat)
    (halloc : a.hasAlloc = true)
    (cur : MemBlockM) (rest : List MemBlockM) (hblocks : a.blocks = cur :: rest)
    (hnofit : ((a.endp : Int) - (alignUp a.cursor align : Nat)) < (size : Int)) :
    (512 ≤ ((((a.endp : Int) - (alignUp a.cursor align : Nat)).emod (2 ^ 64)).toNat) →
      ∃ ptr a' d, a.allocRaw size align = some (ptr, a') ∧
        a'.cursor = a.cursor ∧ a'.endp = a.endp ∧ a'.blocks = cur :: d :: rest) ∧
    (((((a.endp : Int) - (alignUp a.cursor align : Nat)).emod (2 ^ 64)).toNat) < 512 →
      ∃ ptr a' nb, a.allocRaw size align = some (ptr, a') ∧
        a'.blocks = nb :: cur :: rest ∧ nb.addr ≤ a'.cursor ∧
        a'.cursor ≤ a'.endp ∧ a'.endp = nb.addr + nb.size) := by
  have hfastfail : ¬ ((size : Int) ≤ (a.endp : Int) - (alignUp a.cursor align : Nat)) := by
    omega
  constructor
  · intro hthr
    unfold ArenaM.allocRaw
    simp only [if_neg hfastfail]
    unfold ArenaM.allocOutlined
    rw [if_pos hthr]
    unfold ArenaM.allocDedicated ArenaM.allocate
    simp only [halloc, hblocks, Bool.not_true, Bool.false_eq_true, if_false]
    exact ⟨_, _, _, rfl, rfl, rfl, rfl⟩
  · intro hthr
    unfold ArenaM.allocRaw
    simp only [if_neg hfastfail]
    unfold ArenaM.allocOutlined
    rw [if_neg (by omega)]
    unfold ArenaM.allocateNewBlock ArenaM.allocate
    simp only [halloc, hblocks, Bool.not_true, Bool.false_eq_true, if_false]
    refine ⟨_, _, _, rfl, rfl, Nat.le_add_right _ _, ?_, rfl⟩
    · simp only [layoutExtend, layoutPad]
      have h1 : alignUp (layoutPad (alignUp memBlockHeader align + size) (max 8 align)) 1
          = layoutPad (alignUp memBlockHeader align + size) (max 8 align) := by
        simp [alignUp]
      refine Nat.add_le_add_left ?_ _
      calc alignUp (layoutPad (alignUp memBlockHeader align + size) (max 8 align)) 1
          ≤ alignUp (layoutPad (alignUp memBlockHeader align + size) (max 8 align)) 1
            + min (cur.size * 2) (1024 * 1024) := Nat.le_add_right _ _
        _ ≤ _ := alignUp_ge _ _ (by omega)

set_option maxRecDepth 40000 in
theorem c8_amended_witness :
    (∃ ptr a' d, (allocIter 1024 ArenaM.new).allocRaw 16 64 = some (ptr, a') ∧
      a'.cursor = (allocIter 1024 ArenaM.new).cursor ∧
      a'.endp = (allocIter 1024 ArenaM.new).endp ∧
      a'.blocks = ⟨64, 8224⟩ :: d :: []) ∧
    (∃ ptr a' nb, (allocIter 1024 ArenaM.new).allocRaw 16 8 = some (ptr, a') ∧
      a'.blocks = nb :: ⟨64, 8224⟩ :: [] ∧ nb.addr ≤ a'.cursor ∧
      a'.cursor ≤ a'.endp ∧ a'.endp = nb.addr + nb.size) :=
  ⟨(c8_amended (allocIter 1024 ArenaM.new) 16 64 (by decide) ⟨64, 8224⟩ []
      (by decide) (by decide)).1 (by decide),
   (c8_amended (allocIter 1024 ArenaM.new) 16 8 (by decide) ⟨64, 8224⟩ []
      (by decide) (by decide)).2 (by decide)⟩

/-- C9: get_field returns Some exactly under the presence rules — for a
oneof field the discriminant word must equal the field number; for a
non-oneof non-repeated non-message scalar the has-bit must be set; for a
repeated field the container must be non-empty; for a singular non-oneof
message field the stored pointer must be non-null. -/
theorem c9_presence_rules (env : TableEnv) (h : Heap) (p tbl : Nat)
    (f : FieldDescriptor) (entry : TableEntry)
    (hentry : (tableAt env tbl).entry f.number = some entry) :
    ((f.label ≠ Label.repeated) → isMessageFd f = false → entry.hasBitIdx &&& 0x80 ≠ 0 →
      ((getField env h p tbl f).isSome ↔
        (h.get p).readWord ((entry.hasBitIdx &&& 0x7F) * 4) = f.number)) ∧
    ((needsHasBit f = true) → entry.hasBitIdx &&& 0x80 = 0 →
      ((getField env h p tbl f).isSome ↔ (h.get p).hasBit entry.hasBitIdx = true)) ∧
    ((f.label = Label.repeated) →
      ((getField env h p tbl f).isSome ↔
        repContainerEmpty env tbl (h.get p) entry f = false)) ∧
    ((f.label ≠ Label.repeated) → isMessageFd f = true → entry.hasBitIdx &&& 0x80 = 0 →
      ((getField env h p tbl f).isSome ↔
        ((h.get p).readMsgPtr
          ((tableAt env tbl).auxEntryDecode entry.offset).offset).isSome)) := by
  obtain ⟨num, label, typ, oneofFlag⟩ := f
  refine ⟨?_, ?_, ?_, ?_⟩
  · intro hlabel hmsg honeof
    have hl : (label == Label.repeated) = false := by
      cases label <;> simp_all
    by_cases hd : (h.get p).readWord ((entry.hasBitIdx &&& 0x7F) * 4) = num
    · simp only [getField, hentry, hl, Bool.false_eq_true, if_false, if_neg honeof]
      cases typ <;>
        simp_all [getScalarValue, isMessageFd, getField, hentry]
    · simp_all [getField, hentry, isMessageFd]
  · intro hneeds honeof
    have hl : (label == Label.repeated) = false := by
      have := hneeds
      simp only [needsHasBit, isRepeatedFd] at this
      cases label <;> simp_all
    have hmsg : isMessageFd ⟨num, label, typ, oneofFlag⟩ = false := by
      simp only [needsHasBit] at hneeds
      rcases Bool.and_eq_true _ _ |>.mp hneeds with ⟨h1, _⟩
      rcases Bool.and_eq_true _ _ |>.mp h1 with ⟨_, h2⟩
      simpa using h2
    by_cases hb : (h.get p).hasBit entry.hasBitIdx = true
    · simp only [getField, hentry, hl, Bool.false_eq_true, if_false, honeof]
      cases typ <;> simp_all [getScalarValue, isMessageFd, needsHasBit, hneeds]
    · simp_all [getField, hentry]
  · intro hlabel
    have hl : (label == Label.repeated) = true := by simp_all
    cases typ <;>
      simp_all [getField, hentry, repContainerEmpty, List.isEmpty_iff]
  · intro hlabel hmsg honeof
    have hl : (label == Label.repeated) = false := by
      cases label <;> simp_all
    have hneeds : needsHasBit ⟨num, label, typ, oneofFlag⟩ = false := by
      simp [needsHasBit, isMessageFd] at hmsg ⊢
      rcases hmsg with hm | hm <;> simp [hm, isMessageFd]
    cases typ <;> simp_all [getField, hentry, getScalarValue, isMessageFd] <;>
      cases (h.get p).readMsgPtr ((tableAt env tbl).auxEntryDecode entry.offset).offset <;>
        simp

theorem c9_presence_rules_witness :
    ((getField oneofEnv oneofHeap 0 0 ⟨1, .optional, .uint32, true⟩).isSome ↔
      (oneofHeap.get 0).readWord ((129 &&& 0x7F) * 4) = 1) ∧
    ((getField oneofEnv oneofHeap 0 0 ⟨3, .optional, .uint64, false⟩).isSome ↔
      (oneofHeap.get 0).hasBit 1 = true) ∧
    ((getField oneofEnv oneofHeap 0 0 ⟨4, .repeated, .uint32, false⟩).isSome ↔
      repContainerEmpty oneofEnv 0 (oneofHeap.get 0) ⟨.RepeatedVarint32, 0, 24⟩
        ⟨4, .repeated, .uint32, false⟩ = false) ∧
    ((getField oneofEnv oneofHeap 0 0 ⟨5, .optional, .message, false⟩).isSome ↔
      ((oneofHeap.get 0).readMsgPtr
        ((tableAt oneofEnv 0).auxEntryDecode 300).offset).isSome) :=
  ⟨(c9_presence_rules oneofEnv oneofHeap 0 0 ⟨1, .optional, .uint32, true⟩
      ⟨.Varint32, 129, 12⟩ (by decide)).1 (by decide) (by decide) (by decide),
   (c9_presence_rules oneofEnv oneofHeap 0 0 ⟨3, .optional, .uint64, false⟩
      ⟨.Varint64, 1, 16⟩ (by decide)).2.1 (by decide) (by decide),
   (c9_presence_rules oneofEnv oneofHeap 0 0 ⟨4, .repeated, .uint32, false⟩
      ⟨.RepeatedVarint32, 0, 24⟩ (by decide)).2.2.1 (by decide),
   (c9_presence_rules oneofEnv oneofHeap 0 0 ⟨5, .optional, .message, false⟩
      ⟨.Message, 0, 300⟩ (by decide)).2.2.2 (by decide) (by decide) (by decide)⟩

/-- C4: decoding rejects invalid UTF-8 in String-kind fields.  First
conjunct: from any decoder state, a String or RepeatedString field whose
length-delimited payload lies inside the current buffer and is not valid
UTF-8 makes decode_loop fail at once.  Second conjunct: a string value that
spans buffers is validated by decode_string when it completes — whatever
was accumulated across the chunk boundary — and an invalid accumulated
value fails the decode there.  Third conjunct: end to end, decode_flat of a
message whose string field 3 carries any invalid-UTF-8 payload returns
false. -/
theorem c4_utf8_rejection :
    (∀ (env : TableEnv) (cap fuel : Nat) (h : Heap) (ctx : Ctx)
      (cursor e : Nat) (mem : List Nat) (stack : List SEntry)
      (tag c1 : Nat) (hb off : Nat) (kind : FieldKind) (len : Int) (c2 : Nat),
      (cursor : Int) < calcLimitedEnd e ctx.limit →
      readTag mem cursor = some (tag, c1) →
      tag &&& 7 = 2 →
      (tableAt env ctx.tbl).entry (tag >>> 3) = some ⟨kind, hb, off⟩ →
      (kind = .String ∨ kind = .RepeatedString) →
      readSize mem c1 = some (len, c2) →
      (c2 : Int) - calcLimitedEnd e ctx.limit + len ≤ (SLOP : Int) →
      isValidUtf8 (sliceBytes mem c2 len.toNat) = false →
      decodeLoop env cap e mem (fuel + 1) h ctx cursor stack = (h, none)) ∧
    (∀ (env : TableEnv) (cap fuel : Nat) (h : Heap) (limit : Int)
      (tgt : BytesTarget) (cursor e : Nat) (mem : List Nat) (stack : List SEntry),
      limit ≤ (SLOP : Int) →
      isValidUtf8 (readTarget (heapAppendTarget h tgt
        (sliceBytes mem cursor (limit - ((cursor : Int) - e)).toNat)) tgt) = false →
      decodeString env cap e mem (fuel + 1) h limit tgt true cursor stack
        = (heapAppendTarget h tgt
            (sliceBytes mem cursor (limit - ((cursor : Int) - e)).toNat), none)) ∧
    (∀ (p : List Nat), 1 ≤ p.length → p.length ≤ 14 → (∀ b ∈ p, b < 256) →
      isValidUtf8 p = false →
      (decodeFlat demoEnv 32 heap0 0 0 (26 :: p.length :: p)).1 = false) := by
  have parta : ∀ (env : TableEnv) (cap fuel : Nat) (h : Heap) (ctx : Ctx)
      (cursor e : Nat) (mem : List Nat) (stack : List SEntry)
      (tag c1 : Nat) (hb off : Nat) (kind : FieldKind) (len : Int) (c2 : Nat),
      (cursor : Int) < calcLimitedEnd e ctx.limit →
      readTag mem cursor = some (tag, c1) →
      tag &&& 7 = 2 →
      (tableAt env ctx.tbl).entry (tag >>> 3) = some ⟨kind, hb, off⟩ →
      (kind = .String ∨ kind = .RepeatedString) →
      readSize mem c1 = some (len, c2) →
      (c2 : Int) - calcLimitedEnd e ctx.limit + len ≤ (SLOP : Int) →
      isValidUtf8 (sliceBytes mem c2 len.toNat) = false →
      decodeLoop env cap e mem (fuel + 1) h ctx cursor stack = (h, none) := by
    intro env cap fuel h ctx cursor e mem stack tag c1 hb off kind len c2
      hcur htag hwt hentry hkind hsize hfit hbad
    rcases hkind with hk | hk <;> subst hk <;>
      simp only [decodeLoop, if_pos hcur, decodeStep, htag, hentry, hsize, hwt,
        ne_eq, not_true_eq_false, if_false, if_pos hfit, hbad, Bool.not_false,
        Bool.and_true, beq_self_eq_true, if_true, reduceCtorEq,
        ite_false, ite_true]
  refine ⟨parta, ?_, ?_⟩
  · intro env cap fuel h limit tgt cursor e mem stack hlim hbad
    simp only [decodeString, if_neg (by omega : ¬ ((SLOP : Int) < limit)), hbad,
      Bool.not_false, Bool.and_true, if_true]
  · intro p hp1 hp2 hpb hbad
    have hb1 : 1 ≤ (26 :: p.length :: p).length := by simp
    have hb2 : (26 :: p.length :: p).length ≤ SLOP := by simp [SLOP]; omega
    rw [decodeFlat_small demoEnv 32 heap0 0 0 _ hb1 hb2]
    have hlen : (26 :: p.length :: p).length = p.length + 2 := by simp
    rw [hlen, show (((p.length + 2 : Nat)) : Int) = (p.length : Int) + 2 from by push_cast; ring]
    set n := SLOP - (p.length + 2) with hn
    set mem := List.replicate n 0 ++ (26 :: p.length :: p) ++ (26 :: p.length :: p)
        ++ List.replicate n 0 with hmem
    have hmem2 : mem = List.replicate n 0
        ++ (26 :: p.length :: (p ++ ((26 :: p.length :: p) ++ List.replicate n 0))) := by
      simp [hmem, List.append_assoc]
    have h0 := byteAt_append_right (List.replicate n 0)
        (26 :: p.length :: (p ++ ((26 :: p.length :: p) ++ List.replicate n 0))) 0
    have h1 := byteAt_append_right (List.replicate n 0)
        (26 :: p.length :: (p ++ ((26 :: p.length :: p) ++ List.replicate n 0))) 1
    simp only [List.length_replicate, Nat.add_zero] at h0 h1
    rw [← hmem2] at h0 h1
    have hbyte0 : byteAt mem n = 26 := by
      rw [h0]; rfl
    have hbyte1 : byteAt mem (n + 1) = p.length := by
      rw [h1]
      show p.length % 256 = p.length
      omega
    have ht : readTag mem n = some (26, n + 1) := by
      rw [readTag_single mem n (by omega), hbyte0]
    have hsz : readSize mem (n + 1) = some ((p.length : Int), n + 2) := by
      rw [readSize_single mem (n + 1) (by omega), hbyte1]
    have hslice : sliceBytes mem (n + 2) p.length = p := by
      have h26 : mem = (List.replicate n 0 ++ [26, p.length])
          ++ (p ++ ((26 :: p.length :: p) ++ List.replicate n 0)) := by
        simp [hmem, List.append_assoc]
      have hl : (List.replicate n 0 ++ [26, p.length]).length = n + 2 := by simp
      rw [h26, ← hl, sliceBytes_exact _ _ _ hpb]
    have hent : (tableAt demoEnv (0 : Nat)).entry (26 >>> 3)
        = some ⟨.String, 2, 24⟩ := by decide
    have hfuel : decodeFuel SLOP 32 = (4 * SLOP + 227) + 1 := by
      simp [decodeFuel]
    have hcur : ((n : Nat) : Int)
        < calcLimitedEnd SLOP (isizeMax - ((p.length : Int) + 2) - (SLOP : Nat)) := by
      simp only [calcLimitedEnd, isizeMax, SLOP] at *
      omega
    have hfit : ((n + 2 : Nat) : Int)
          - calcLimitedEnd SLOP (isizeMax - ((p.length : Int) + 2) - (SLOP : Nat))
          + (p.length : Int) ≤ ((SLOP : Nat) : Int) := by
      simp only [calcLimitedEnd, isizeMax, SLOP] at *
      omega
    have hbad2 : isValidUtf8 (sliceBytes mem (n + 2) ((p.length : Int)).toNat) = false := by
      rw [show ((p.length : Int)).toNat = p.length from by omega, hslice]
      exact hbad
    have hloop := parta demoEnv 32 (4 * SLOP + 227) heap0
        ⟨isizeMax - ((p.length : Int) + 2) - (SLOP : Nat), 0, 0⟩ n SLOP mem [] 26 (n + 1)
        2 24 .String (p.length) (n + 2) hcur ht (by decide) hent (Or.inl rfl) hsz hfit hbad2
    rw [← hfuel] at hloop
    rw [hloop]
theorem c4_utf8_rejection_witness :
    decodeLoop demoEnv 32 3 [26, 1, 255] 10 heap0 ⟨100, 0, 0⟩ 0 [] = (heap0, none) ∧
    decodeString demoEnv 32 16 (List.replicate 16 0 ++ [255]) 10 heap0 1
        (.field 0 24) true 16 []
      = (heapAppendTarget heap0 (.field 0 24)
          (sliceBytes (List.replicate 16 0 ++ [255]) 16 (1 - ((16 : Int) - 16)).toNat),
         none) ∧
    (decodeFlat demoEnv 32 heap0 0 0 (26 :: [255, 97].length :: [255, 97])).1 = false :=
  ⟨c4_utf8_rejection.1 demoEnv 32 9 heap0 ⟨100, 0, 0⟩ 0 3 [26, 1, 255] [] 26 1 2 24
      .String 1 2 (by decide) (by decide) (by decide) (by decide) (Or.inl rfl)
      (by decide) (by decide) (by decide),
   c4_utf8_rejection.2.1 demoEnv 32 9 heap0 1 (.field 0 24) 16 16
      (List.replicate 16 0 ++ [255]) [] (by decide) (by decide),
   c4_utf8_rejection.2.2 [255, 97] (by decide) (by decide)
      (by intro b hb; fin_cases hb <;> decide) (by decide)⟩

theorem varintEncodeAux_length_pos (n v : Nat) : 0 < (varintEncodeAux (n+1) v).length := by
  unfold varintEncodeAux
  split <;> simp

theorem varintEncodeAux_ne_nil (n v : Nat) : varintEncodeAux (n+1) v ≠ [] := by
  have := varintEncodeAux_length_pos n v
  intro h
  rw [h] at this
  simp at this

theorem readVarintAux_encodeAux :
    ∀ (n : Nat) (v : Nat) (pre rest : List Nat) (shift acc : Nat),
      v < 2 ^ (7 * n) → 1 ≤ n →
      readVarintAux n (pre ++ (varintEncodeAux n v ++ rest)) pre.length shift acc
        = some ((acc + v * 2 ^ shift) % 2 ^ 64,
                pre.length + (varintEncodeAux n v).length) := by
  intro n
  induction n with
  | zero => intro v pre rest shift acc _ h1; omega
  | succ m ih =>
    intro v pre rest shift acc hv _
    by_cases hsmall : v < 128
    · unfold varintEncodeAux readVarintAux
      simp only [hsmall, if_true]
      have hb : byteAt (pre ++ ([v] ++ rest)) pre.length = v := by
        have := byteAt_append_right pre ([v] ++ rest) 0
        simp only [Nat.add_zero] at this
        rw [this]
        unfold byteAt
        simp
        omega
      simp only [hb]
      rw [if_pos (by omega)]
      simp
    · unfold varintEncodeAux readVarintAux
      simp only [hsmall, if_false]
      have hb : byteAt (pre ++ ((v % 128 + 128) :: varintEncodeAux m (v / 128) ++ rest)) pre.length
          = v % 128 + 128 := by
        have := byteAt_append_right pre ((v % 128 + 128) :: varintEncodeAux m (v / 128) ++ rest) 0
        simp only [Nat.add_zero] at this
        rw [this]
        unfold byteAt
        simp [List.getD]
        omega
      simp only [hb]
      rw [if_neg (by omega)]
      have hm : 1 ≤ m := by
        rcases Nat.eq_zero_or_pos m with h0 | h0
        · subst h0; simp at hv; omega
        · omega
      have hv' : v / 128 < 2 ^ (7 * m) := by
        have : v < 2 ^ (7 * m) * 128 := by
          have : 2 ^ (7 * (m+1)) = 2 ^ (7 * m) * 128 := by ring
          omega
        omega
      have hre : pre ++ ((v % 128 + 128) :: varintEncodeAux m (v / 128) ++ rest)
          = (pre ++ [v % 128 + 128]) ++ (varintEncodeAux m (v / 128) ++ rest) := by
        simp only [List.cons_append, List.append_assoc, List.singleton_append, List.nil_append]
      rw [hre]
      have hlen : pre.length + 1 = (pre ++ [v % 128 + 128]).length := by simp
      rw [hlen]
      rw [ih (v / 128) (pre ++ [v % 128 + 128]) rest (shift + 7)
            (acc + (v % 128 + 128 - 0x80) * 2 ^ shift) hv' hm]
      simp only [Option.some.injEq, Prod.mk.injEq]
      constructor
      · congr 1
        have h1 : v % 128 + 128 - 0x80 = v % 128 := by omega
        rw [h1]
        have h2 : (2 : Nat) ^ (shift + 7) = 2 ^ shift * 128 := by ring
        rw [h2]
        have h3 : v % 128 * 2 ^ shift + v / 128 * (2 ^ shift * 128)
            = (v % 128 + 128 * (v / 128)) * 2 ^ shift := by ring
        rw [Nat.add_assoc, h3, Nat.mod_add_div]
      · simp
        omega

theorem readVarint_encode (v : Nat) (pre rest : List Nat) (hv : v < 2 ^ 64) :
    readVarint (pre ++ (varintEncode v ++ rest)) pre.length
      = some (v, pre.length + (varintEncode v).length) := by
  unfold readVarint varintEncode
  rw [Nat.mod_eq_of_lt hv]
  rw [readVarintAux_encodeAux 10 v pre rest 0 0 (by omega) (by omega)]
  congr 2
  simp
  omega

theorem readTagAux_encodeAux :
    ∀ (n : Nat) (v : Nat) (pre rest : List Nat) (shift acc : Nat) (started : Bool),
      v < 2 ^ (7 * n) → 1 ≤ n → (started = true → 1 ≤ v) →
      readTagAux n (pre ++ (varintEncodeAux n v ++ rest)) pre.length shift acc started
        = some ((acc + v * 2 ^ shift) % 2 ^ 32,
                pre.length + (varintEncodeAux n v).length) := by
  intro n
  induction n with
  | zero => intro v pre rest shift acc started _ h1; omega
  | succ m ih =>
    intro v pre rest shift acc started hv _ hst
    by_cases hsmall : v < 128
    · unfold varintEncodeAux readTagAux
      simp only [hsmall, if_true]
      have hb : byteAt (pre ++ ([v] ++ rest)) pre.length = v := by
        have := byteAt_append_right pre ([v] ++ rest) 0
        simp only [Nat.add_zero] at this
        rw [this]
        unfold byteAt
        simp
        omega
      simp only [hb]
      rw [if_pos (by omega)]
      have hcase : ¬(started = true ∧ v = 0) := by
        intro hcon
        have := hst hcon.1
        omega
      simp only [hcase, if_false]
      simp
    · unfold varintEncodeAux readTagAux
      simp only [hsmall, if_false]
      have hb : byteAt (pre ++ ((v % 128 + 128) :: varintEncodeAux m (v / 128) ++ rest)) pre.length
          = v % 128 + 128 := by
        have := byteAt_append_right pre ((v % 128 + 128) :: varintEncodeAux m (v / 128) ++ rest) 0
        simp only [Nat.add_zero] at this
        rw [this]
        unfold byteAt
        simp [List.getD]
        omega
      simp only [hb]
      rw [if_neg (by omega)]
      have hm : 1 ≤ m := by
        rcases Nat.eq_zero_or_pos m with h0 | h0
        · subst h0; simp at hv; omega
        · omega
      have hv' : v / 128 < 2 ^ (7 * m) := by
        have : v < 2 ^ (7 * m) * 128 := by
          have : 2 ^ (7 * (m+1)) = 2 ^ (7 * m) * 128 := by ring
          omega
        omega
      have hre : pre ++ ((v % 128 + 128) :: varintEncodeAux m (v / 128) ++ rest)
          = (pre ++ [v % 128 + 128]) ++ (varintEncodeAux m (v / 128) ++ rest) := by
        simp only [List.cons_append, List.append_assoc, List.singleton_append, List.nil_append]
      rw [hre]
      have hlen : pre.length + 1 = (pre ++ [v % 128 + 128]).length := by simp
      rw [hlen]
      rw [ih (v / 128) (pre ++ [v % 128 + 128]) rest (shift + 7)
            (acc + (v % 128 + 128 - 0x80) * 2 ^ shift) true hv' hm
            (fun _ => by omega)]
      simp only [Option.some.injEq, Prod.mk.injEq]
      constructor
      · congr 1
        have h1 : v % 128 + 128 - 0x80 = v % 128 := by omega
        rw [h1]
        have h2 : (2 : Nat) ^ (shift + 7) = 2 ^ shift * 128 := by ring
        rw [h2]
        have h3 : v % 128 * 2 ^ shift + v / 128 * (2 ^ shift * 128)
            = (v % 128 + 128 * (v / 128)) * 2 ^ shift := by ring
        rw [Nat.add_assoc, h3, Nat.mod_add_div]
      · simp
        omega

theorem readTag_encode (t : Nat) (pre rest : List Nat) (h1 : 1 ≤ t) (h2 : t < 2 ^ 32) :
    readTag (pre ++ (varintEncodeAux 5 t ++ rest)) pre.length
      = some (t, pre.length + (varintEncodeAux 5 t).length) := by
  unfold readTag
  rw [readTagAux_encodeAux 5 t pre rest 0 0 false (by norm_num; omega) (by omega)
       (fun hcon => by simp at hcon)]
  congr 2
  simp
  omega

theorem readSize_encode (L : Nat) (pre rest : List Nat) (hL : L ≤ 2 ^ 31 - 1) :
    readSize (pre ++ (varintEncodeAux 5 L ++ rest)) pre.length
      = some ((L : Int), pre.length + (varintEncodeAux 5 L).length) := by
  unfold readSize
  rw [readVarintAux_encodeAux 5 L pre rest 0 0 (by norm_num; omega) (by omega)]
  have hmod : (0 + L * 2 ^ 0) % 2 ^ 64 = L := by
    simp
    omega
  simp only [hmod]
  rw [if_pos hL]

theorem readFixedLE_succ (w : Nat) (mem : List Nat) (i : Nat) :
    readFixedLE (w + 1) mem i = readFixedLE w mem (i + 1) * 256 + byteAt mem i := by
  unfold readFixedLE
  rw [List.range_succ_eq_map, List.foldr_cons, List.foldr_map]
  have hfun : (fun (x y : Nat) => y * 256 + byteAt mem (i + x.succ))
      = (fun (k acc : Nat) => acc * 256 + byteAt mem (i + 1 + k)) := by
    funext k acc
    have h1 : i + k.succ = i + 1 + k := by omega
    rw [h1]
  rw [hfun]
  simp

theorem fixedEncodeLE_length (w : Nat) : ∀ v, (fixedEncodeLE w v).length = w := by
  induction w with
  | zero => intro v; rfl
  | succ m ih =>
    intro v
    unfold fixedEncodeLE
    simp [ih]

theorem readFixedLE_encode (w : Nat) :
    ∀ (v : Nat) (pre rest : List Nat),
      readFixedLE w (pre ++ (fixedEncodeLE w v ++ rest)) pre.length = v % 256 ^ w := by
  induction w with
  | zero =>
    intro v pre rest
    simp [readFixedLE]
    omega
  | succ m ih =>
    intro v pre rest
    rw [readFixedLE_succ]
    have hb : byteAt (pre ++ ((v % 256) :: fixedEncodeLE m (v / 256) ++ rest)) pre.length
        = v % 256 := by
      have := byteAt_append_right pre ((v % 256) :: fixedEncodeLE m (v / 256) ++ rest) 0
      simp only [Nat.add_zero] at this
      rw [this]
      unfold byteAt
      simp [List.getD]
    have hre : pre ++ ((v % 256) :: fixedEncodeLE m (v / 256) ++ rest)
        = (pre ++ [v % 256]) ++ (fixedEncodeLE m (v / 256) ++ rest) := by
      simp only [List.cons_append, List.append_assoc, List.singleton_append, List.nil_append]
    unfold fixedEncodeLE
    rw [hb]
    rw [hre]
    have hlen : pre.length + 1 = (pre ++ [v % 256]).length := by simp
    rw [hlen]
    rw [ih (v / 256) (pre ++ [v % 256]) rest]
    have h256 : (256 : Nat) ^ (m + 1) = 256 * 256 ^ m := by ring
    rw [h256, Nat.mod_mul]
    ring

theorem tag_shift3 (fn wt : Nat) (h : wt < 8) : (8 * fn + wt) >>> 3 = fn := by
  rw [Nat.shiftRight_eq_div_pow]
  omega

theorem tag_and7 (fn wt : Nat) (h : wt < 8) : (8 * fn + wt) &&& 7 = wt := by
  have := Nat.and_pow_two_sub_one_eq_mod (8 * fn + wt) 3
  norm_num at this
  rw [this]
  omega


theorem varintEncode_length_pos (w : Nat) : 0 < (varintEncode w).length := by
  unfold varintEncode
  exact varintEncodeAux_length_pos 9 (w % 2 ^ 64)

theorem unpackVarint_run (k : PackKind) (p off : Nat) :
    ∀ (ws : List Nat) (pre rest : List Nat) (fuel : Nat) (h : Heap),
      ws.length + 1 ≤ fuel → (∀ w ∈ ws, w < 2 ^ 64) →
      unpackVarint k p off (pre ++ (ws.flatMap varintEncode ++ rest))
          ((pre.length : Int) + ((ws.flatMap varintEncode).length : Int)) fuel h pre.length
        = (ws.foldl (fun hh w => packPush hh p off k w) h,
           some (pre.length + (ws.flatMap varintEncode).length)) := by
  intro ws
  induction ws with
  | nil =>
    intro pre rest fuel h hfuel _
    match fuel, hfuel with
    | f+1, _ =>
      unfold unpackVarint
      rw [if_neg (by simp)]
      simp
  | cons w ws ih =>
    intro pre rest fuel h hfuel hws
    simp only [List.length_cons] at hfuel
    match fuel, hfuel with
    | f+1, hfuel =>
      unfold unpackVarint
      rw [if_pos (by
        have h2 : 0 < ((w :: ws).flatMap varintEncode).length := by
          rw [List.flatMap_cons, List.length_append]
          have := varintEncode_length_pos w
          omega
        omega)]
      have hre : pre ++ ((w :: ws).flatMap varintEncode ++ rest)
          = pre ++ (varintEncode w ++ (ws.flatMap varintEncode ++ rest)) := by
        simp
      rw [hre]
      rw [readVarint_encode w pre (ws.flatMap varintEncode ++ rest)
            (hws w (List.mem_cons_self w ws))]
      dsimp only
      have hre2 : pre ++ (varintEncode w ++ (ws.flatMap varintEncode ++ rest))
          = (pre ++ varintEncode w) ++ (ws.flatMap varintEncode ++ rest) := by
        simp
      rw [hre2]
      have hlen : pre.length + (varintEncode w).length = (pre ++ varintEncode w).length := by
        simp
      rw [hlen]
      have hstop : (pre.length : Int) + (((w :: ws).flatMap varintEncode).length : Int)
          = ((pre ++ varintEncode w).length : Int) + ((ws.flatMap varintEncode).length : Int) := by
        simp
        push_cast
        ring
      rw [hstop]
      rw [ih (pre ++ varintEncode w) rest f (packPush h p off k w)
            (by omega) (fun x hx => hws x (List.mem_cons_of_mem w hx))]
      rw [List.foldl_cons]
      simp only [Prod.mk.injEq, Option.some.injEq]
      constructor
      · trivial
      · rw [List.flatMap_cons, List.length_append, List.length_append]
        omega

theorem unpackFixed_run64 (p off : Nat) :
    ∀ (ws pre rest : List Nat) (fuel : Nat) (h : Heap),
      ws.length + 1 ≤ fuel → (∀ w ∈ ws, w < 256 ^ 8) →
      unpackFixed true p off (pre ++ (ws.flatMap (fixedEncodeLE 8) ++ rest))
          ((pre.length : Int) + ((ws.flatMap (fixedEncodeLE 8)).length : Int)) fuel h pre.length
        = (ws.foldl (fun hh w => heapPushRep64 hh p off w) h,
           pre.length + (ws.flatMap (fixedEncodeLE 8)).length) := by
  intro ws
  induction ws with
  | nil =>
    intro pre rest fuel h hfuel _
    match fuel, hfuel with
    | f+1, _ =>
      unfold unpackFixed
      rw [if_neg (by simp)]
      simp
  | cons w ws ih =>
    intro pre rest fuel h hfuel hws
    simp only [List.length_cons] at hfuel
    match fuel, hfuel with
    | f+1, hfuel =>
      unfold unpackFixed
      rw [if_pos (by
        have h2 : 0 < ((w :: ws).flatMap (fixedEncodeLE 8)).length := by
          rw [List.flatMap_cons, List.length_append, fixedEncodeLE_length]
          omega
        omega)]
      simp only [if_true]
      have hre : pre ++ ((w :: ws).flatMap (fixedEncodeLE 8) ++ rest)
          = pre ++ (fixedEncodeLE 8 w ++ (ws.flatMap (fixedEncodeLE 8) ++ rest)) := by
        simp
      rw [hre]
      rw [readFixedLE_encode 8 w pre (ws.flatMap (fixedEncodeLE 8) ++ rest)]
      rw [Nat.mod_eq_of_lt (hws w (List.mem_cons_self w ws))]
      have hre2 : pre ++ (fixedEncodeLE 8 w ++ (ws.flatMap (fixedEncodeLE 8) ++ rest))
          = (pre ++ fixedEncodeLE 8 w) ++ (ws.flatMap (fixedEncodeLE 8) ++ rest) := by
        simp
      rw [hre2]
      have hlen : pre.length + 8 = (pre ++ fixedEncodeLE 8 w).length := by
        rw [List.length_append, fixedEncodeLE_length]
      rw [hlen]
      have hstop : (pre.length : Int) + (((w :: ws).flatMap (fixedEncodeLE 8)).length : Int)
          = ((pre ++ fixedEncodeLE 8 w).length : Int)
            + ((ws.flatMap (fixedEncodeLE 8)).length : Int) := by
        rw [List.flatMap_cons, List.length_append, List.length_append, fixedEncodeLE_length]
        push_cast
        ring
      rw [hstop]
      rw [ih (pre ++ fixedEncodeLE 8 w) rest f (heapPushRep64 h p off w)
            (by omega) (fun x hx => hws x (List.mem_cons_of_mem w hx))]
      rw [List.foldl_cons]
      simp only [Prod.mk.injEq]
      constructor
      · trivial
      · rw [List.flatMap_cons, List.length_append, List.length_append]
        omega

theorem unpackFixed_run32 (p off : Nat) :
    ∀ (ws pre rest : List Nat) (fuel : Nat) (h : Heap),
      ws.length + 1 ≤ fuel → (∀ w ∈ ws, w < 256 ^ 4) →
      unpackFixed false p off (pre ++ (ws.flatMap (fixedEncodeLE 4) ++ rest))
          ((pre.length : Int) + ((ws.flatMap (fixedEncodeLE 4)).length : Int)) fuel h pre.length
        = (ws.foldl (fun hh w => heapPushRep32 hh p off w) h,
           pre.length + (ws.flatMap (fixedEncodeLE 4)).length) := by
  intro ws
  induction ws with
  | nil =>
    intro pre rest fuel h hfuel _
    match fuel, hfuel with
    | f+1, _ =>
      unfold unpackFixed
      rw [if_neg (by simp)]
      simp
  | cons w ws ih =>
    intro pre rest fuel h hfuel hws
    simp only [List.length_cons] at hfuel
    match fuel, hfuel with
    | f+1, hfuel =>
      unfold unpackFixed
      rw [if_pos (by
        have h2 : 0 < ((w :: ws).flatMap (fixedEncodeLE 4)).length := by
          rw [List.flatMap_cons, List.length_append, fixedEncodeLE_length]
          omega
        omega)]
      simp only [Bool.false_eq_true, if_false]
      have hre : pre ++ ((w :: ws).flatMap (fixedEncodeLE 4) ++ rest)
          = pre ++ (fixedEncodeLE 4 w ++ (ws.flatMap (fixedEncodeLE 4) ++ rest)) := by
        simp
      rw [hre]
      rw [readFixedLE_encode 4 w pre (ws.flatMap (fixedEncodeLE 4) ++ rest)]
      rw [Nat.mod_eq_of_lt (hws w (List.mem_cons_self w ws))]
      have hre2 : pre ++ (fixedEncodeLE 4 w ++ (ws.flatMap (fixedEncodeLE 4) ++ rest))
          = (pre ++ fixedEncodeLE 4 w) ++ (ws.flatMap (fixedEncodeLE 4) ++ rest) := by
        simp
      rw [hre2]
      have hlen : pre.length + 4 = (pre ++ fixedEncodeLE 4 w).length := by
        rw [List.length_append, fixedEncodeLE_length]
      rw [hlen]
      have hstop : (pre.length : Int) + (((w :: ws).flatMap (fixedEncodeLE 4)).length : Int)
          = ((pre ++ fixedEncodeLE 4 w).length : Int)
            + ((ws.flatMap (fixedEncodeLE 4)).length : Int) := by
        rw [List.flatMap_cons, List.length_append, List.length_append, fixedEncodeLE_length]
        push_cast
        ring
      rw [hstop]
      rw [ih (pre ++ fixedEncodeLE 4 w) rest f (heapPushRep32 h p off w)
            (by omega) (fun x hx => hws x (List.mem_cons_of_mem w hx))]
      rw [List.foldl_cons]
      simp only [Prod.mk.injEq]
      constructor
      · trivial
      · rw [List.flatMap_cons, List.length_append, List.length_append]
        omega

theorem decodeStep_repvarElem (env : TableEnv) (cap fuel : Nat) (h : Heap) (ctx : Ctx)
    (cursor e : Nat) (mem : List Nat) (stack : List SEntry)
    (fn : Nat) (entry : TableEntry) (k : PackKind) (v c1 c2 : Nat)
    (hentry : (tableAt env ctx.tbl).entry fn = some entry)
    (hk : packKindOf entry.kind = some k)
    (hfn : 1 ≤ fn)
    (hread : readTag mem cursor = some (8 * fn, c1))
    (hv : readVarint mem c1 = some (v, c2)) :
    decodeStep env cap fuel h ctx cursor e mem stack
      = .cont (packPush h ctx.obj entry.offset k v) ctx c2 stack := by
  have hshift : (8 * fn) >>> 3 = fn := by
    have := tag_shift3 fn 0 (by omega)
    simpa using this
  have hand : 8 * fn &&& 7 = 0 := by
    have := tag_and7 fn 0 (by omega)
    simpa using this
  unfold decodeStep
  rw [hread]
  dsimp only
  rw [hshift, hand, hentry]
  dsimp only
  obtain ⟨kind0, hb0, off0⟩ := entry
  cases kind0 <;> simp only [packKindOf, Option.some.injEq, reduceCtorEq] at hk <;>
    subst hk <;> simp [hv]

theorem decodeStep_repvarPacked (env : TableEnv) (cap fuel : Nat) (h h' : Heap) (ctx : Ctx)
    (cursor e : Nat) (mem : List Nat) (stack : List SEntry)
    (fn : Nat) (entry : TableEntry) (k : PackKind) (len : Int) (c1 c2 c3 : Nat)
    (hentry : (tableAt env ctx.tbl).entry fn = some entry)
    (hk : packKindOf entry.kind = some k)
    (hfn : 1 ≤ fn)
    (hread : readTag mem cursor = some (8 * fn + 2, c1))
    (hsize : readSize mem c1 = some (len, c2))
    (hin : (c2 : Int) - calcLimitedEnd e ctx.limit + len ≤ 0)
    (hrun : unpackVarint k ctx.obj entry.offset mem ((c2 : Int) + len) fuel h c2
              = (h', some c3))
    (hc3 : (c3 : Int) = (c2 : Int) + len) :
    decodeStep env cap fuel h ctx cursor e mem stack = .cont h' ctx c3 stack := by
  have hshift : (8 * fn + 2) >>> 3 = fn := tag_shift3 fn 2 (by omega)
  have hand : 8 * fn + 2 &&& 7 = 2 := tag_and7 fn 2 (by omega)
  unfold decodeStep
  rw [hread]
  dsimp only
  rw [hshift, hand, hentry]
  dsimp only
  obtain ⟨kind0, hb0, off0⟩ := entry
  cases kind0 <;> simp only [packKindOf, Option.some.injEq, reduceCtorEq] at hk <;>
    subst hk <;> simp only at hsize hrun ⊢ <;>
    simp [hsize, hin, hrun, hc3]

theorem decodeStep_repfixedElem64 (env : TableEnv) (cap fuel : Nat) (h : Heap) (ctx : Ctx)
    (cursor e : Nat) (mem : List Nat) (stack : List SEntry)
    (fn : Nat) (entry : TableEntry) (c1 : Nat)
    (hentry : (tableAt env ctx.tbl).entry fn = some entry)
    (hkind : entry.kind = FieldKind.RepeatedFixed64)
    (hfn : 1 ≤ fn)
    (hread : readTag mem cursor = some (8 * fn + 1, c1)) :
    decodeStep env cap fuel h ctx cursor e mem stack
      = .cont (heapPushRep64 h ctx.obj entry.offset (readFixedLE 8 mem c1)) ctx (c1 + 8) stack := by
  have hshift : (8 * fn + 1) >>> 3 = fn := tag_shift3 fn 1 (by omega)
  have hand : 8 * fn + 1 &&& 7 = 1 := tag_and7 fn 1 (by omega)
  unfold decodeStep
  rw [hread]
  dsimp only
  rw [hshift, hand, hentry]
  dsimp only
  obtain ⟨kind0, hb0, off0⟩ := entry
  simp only at hkind
  subst hkind
  simp

theorem decodeStep_repfixedElem32 (env : TableEnv) (cap fuel : Nat) (h : Heap) (ctx : Ctx)
    (cursor e : Nat) (mem : List Nat) (stack : List SEntry)
    (fn : Nat) (entry : TableEntry) (c1 : Nat)
    (hentry : (tableAt env ctx.tbl).entry fn = some entry)
    (hkind : entry.kind = FieldKind.RepeatedFixed32)
    (hfn : 1 ≤ fn)
    (hread : readTag mem cursor = some (8 * fn + 5, c1)) :
    decodeStep env cap fuel h ctx cursor e mem stack
      = .cont (heapPushRep32 h ctx.obj entry.offset (readFixedLE 4 mem c1)) ctx (c1 + 4) stack := by
  have hshift : (8 * fn + 5) >>> 3 = fn := tag_shift3 fn 5 (by omega)
  have hand : 8 * fn + 5 &&& 7 = 5 := tag_and7 fn 5 (by omega)
  unfold decodeStep
  rw [hread]
  dsimp only
  rw [hshift, hand, hentry]
  dsimp only
  obtain ⟨kind0, hb0, off0⟩ := entry
  simp only at hkind
  subst hkind
  simp

theorem decodeStep_repfixedPacked64 (env : TableEnv) (cap fuel : Nat) (h h' : Heap) (ctx : Ctx)
    (cursor e : Nat) (mem : List Nat) (stack : List SEntry)
    (fn : Nat) (entry : TableEntry) (len : Int) (c1 c2 c3 : Nat)
    (hentry : (tableAt env ctx.tbl).entry fn = some entry)
    (hkind : entry.kind = FieldKind.RepeatedFixed64)
    (hfn : 1 ≤ fn)
    (hread : readTag mem cursor = some (8 * fn + 2, c1))
    (hsize : readSize mem c1 = some (len, c2))
    (hin : (c2 : Int) - calcLimitedEnd e ctx.limit + len ≤ 0)
    (hrun : unpackFixed true ctx.obj entry.offset mem ((c2 : Int) + len) fuel h c2 = (h', c3))
    (hc3 : (c3 : Int) = (c2 : Int) + len) :
    decodeStep env cap fuel h ctx cursor e mem stack = .cont h' ctx c3 stack := by
  have hshift : (8 * fn + 2) >>> 3 = fn := tag_shift3 fn 2 (by omega)
  have hand : 8 * fn + 2 &&& 7 = 2 := tag_and7 fn 2 (by omega)
  unfold decodeStep
  rw [hread]
  dsimp only
  rw [hshift, hand, hentry]
  dsimp only
  obtain ⟨kind0, hb0, off0⟩ := entry
  simp only at hkind
  subst hkind
  simp [hsize, hin, hrun, hc3]

theorem decodeStep_repfixedPacked32 (env : TableEnv) (cap fuel : Nat) (h h' : Heap) (ctx : Ctx)
    (cursor e : Nat) (mem : List Nat) (stack : List SEntry)
    (fn : Nat) (entry : TableEntry) (len : Int) (c1 c2 c3 : Nat)
    (hentry : (tableAt env ctx.tbl).entry fn = some entry)
    (hkind : entry.kind = FieldKind.RepeatedFixed32)
    (hfn : 1 ≤ fn)
    (hread : readTag mem cursor = some (8 * fn + 2, c1))
    (hsize : readSize mem c1 = some (len, c2))
    (hin : (c2 : Int) - calcLimitedEnd e ctx.limit + len ≤ 0)
    (hrun : unpackFixed false ctx.obj entry.offset mem ((c2 : Int) + len) fuel h c2 = (h', c3))
    (hc3 : (c3 : Int) = (c2 : Int) + len) :
    decodeStep env cap fuel h ctx cursor e mem stack = .cont h' ctx c3 stack := by
  have hshift : (8 * fn + 2) >>> 3 = fn := tag_shift3 fn 2 (by omega)
  have hand : 8 * fn + 2 &&& 7 = 2 := tag_and7 fn 2 (by omega)
  unfold decodeStep
  rw [hread]
  dsimp only
  rw [hshift, hand, hentry]
  dsimp only
  obtain ⟨kind0, hb0, off0⟩ := entry
  simp only at hkind
  subst hkind
  have hbeq : (FieldKind.RepeatedFixed32 == FieldKind.RepeatedFixed64) = false := by decide
  simp [hsize, hin, hrun, hc3, hbeq]

theorem decodeLoop_unpackedVar_run (env : TableEnv) (cap : Nat) (ctx : Ctx)
    (fn : Nat) (entry : TableEntry) (k : PackKind)
    (hentry : (tableAt env ctx.tbl).entry fn = some entry)
    (hk : packKindOf entry.kind = some k)
    (hfn : 1 ≤ fn) (htag : 8 * fn < 2 ^ 32) (hlim : 0 < ctx.limit) :
    ∀ (ws pre : List Nat) (fuel : Nat) (h : Heap),
      ws.length + 1 ≤ fuel → (∀ w ∈ ws, w < 2 ^ 64) →
      decodeLoop env cap
          (pre.length + (ws.flatMap (fun w => varintEncodeAux 5 (8 * fn) ++ varintEncode w)).length)
          (pre ++ ws.flatMap (fun w => varintEncodeAux 5 (8 * fn) ++ varintEncode w))
          fuel h ctx pre.length []
        = (ws.foldl (fun hh w => packPush hh ctx.obj entry.offset k w) h,
           some (pre.length
                   + (ws.flatMap (fun w => varintEncodeAux 5 (8 * fn) ++ varintEncode w)).length,
                 ctx.limit, DObj.message ctx.obj ctx.tbl, [])) := by
  have hmin : min ctx.limit 0 = 0 := by omega
  intro ws
  induction ws with
  | nil =>
    intro pre fuel h hfuel _
    match fuel, hfuel with
    | f+1, _ =>
      simp only [decodeLoop]
      simp only [List.flatMap_nil, List.length_nil, Nat.add_zero, calcLimitedEnd, hmin,
        Int.add_zero]
      rw [if_neg (by omega)]
      rw [if_neg (by omega)]
      rw [if_pos (by omega)]
      simp
  | cons w ws ih =>
    intro pre fuel h hfuel hws
    simp only [List.length_cons] at hfuel
    match fuel, hfuel with
    | f+1, hfuel =>
      have htagpos : 0 < (varintEncodeAux 5 (8 * fn)).length :=
        varintEncodeAux_length_pos 4 (8 * fn)
      have hencpos := varintEncode_length_pos w
      have hflatlen : ((w :: ws).flatMap (fun w => varintEncodeAux 5 (8 * fn) ++ varintEncode w)).length
          = (varintEncodeAux 5 (8 * fn)).length + (varintEncode w).length
            + (ws.flatMap (fun w => varintEncodeAux 5 (8 * fn) ++ varintEncode w)).length := by
        rw [List.flatMap_cons, List.length_append, List.length_append]
      simp only [decodeLoop]
      rw [if_pos (by
        simp only [calcLimitedEnd, hmin, Int.add_zero]
        have := hflatlen
        push_cast
        omega)]
      have hbuf1 : pre ++ (w :: ws).flatMap (fun w => varintEncodeAux 5 (8 * fn) ++ varintEncode w)
          = pre ++ (varintEncodeAux 5 (8 * fn)
              ++ (varintEncode w
                  ++ ws.flatMap (fun w => varintEncodeAux 5 (8 * fn) ++ varintEncode w))) := by
        simp
      have hread : readTag
          (pre ++ (w :: ws).flatMap (fun w => varintEncodeAux 5 (8 * fn) ++ varintEncode w))
          pre.length = some (8 * fn, pre.length + (varintEncodeAux 5 (8 * fn)).length) := by
        rw [hbuf1]
        exact readTag_encode (8 * fn) pre _ (by omega) htag
      have hbuf2 : pre ++ (w :: ws).flatMap (fun w => varintEncodeAux 5 (8 * fn) ++ varintEncode w)
          = (pre ++ varintEncodeAux 5 (8 * fn))
              ++ (varintEncode w
                  ++ ws.flatMap (fun w => varintEncodeAux 5 (8 * fn) ++ varintEncode w)) := by
        simp
      have hv : readVarint
          (pre ++ (w :: ws).flatMap (fun w => varintEncodeAux 5 (8 * fn) ++ varintEncode w))
          (pre.length + (varintEncodeAux 5 (8 * fn)).length)
          = some (w, (pre ++ varintEncodeAux 5 (8 * fn)).length + (varintEncode w).length) := by
        rw [hbuf2]
        have hl : pre.length + (varintEncodeAux 5 (8 * fn)).length
            = (pre ++ varintEncodeAux 5 (8 * fn)).length := by simp
        rw [hl]
        exact readVarint_encode w _ _ (hws w (List.mem_cons_self w ws))
      rw [decodeStep_repvarElem env cap f h ctx pre.length _ _ [] fn entry k w
            (pre.length + (varintEncodeAux 5 (8 * fn)).length)
            ((pre ++ varintEncodeAux 5 (8 * fn)).length + (varintEncode w).length)
            hentry hk hfn hread hv]
      dsimp only
      have hc2 : (pre ++ varintEncodeAux 5 (8 * fn)).length + (varintEncode w).length
          = (pre ++ (varintEncodeAux 5 (8 * fn) ++ varintEncode w)).length := by
        simp
        omega
      have he : pre.length
            + ((w :: ws).flatMap (fun w => varintEncodeAux 5 (8 * fn) ++ varintEncode w)).length
          = (pre ++ (varintEncodeAux 5 (8 * fn) ++ varintEncode w)).length
            + (ws.flatMap (fun w => varintEncodeAux 5 (8 * fn) ++ varintEncode w)).length := by
        rw [hflatlen]
        simp
        omega
      have hbuf3 : pre ++ (w :: ws).flatMap (fun w => varintEncodeAux 5 (8 * fn) ++ varintEncode w)
          = (pre ++ (varintEncodeAux 5 (8 * fn) ++ varintEncode w))
              ++ ws.flatMap (fun w => varintEncodeAux 5 (8 * fn) ++ varintEncode w) := by
        simp
      rw [hc2, he, hbuf3]
      rw [ih (pre ++ (varintEncodeAux 5 (8 * fn) ++ varintEncode w)) f
            (packPush h ctx.obj entry.offset k w) (by omega)
            (fun x hx => hws x (List.mem_cons_of_mem w hx))]
      rw [List.foldl_cons]

theorem decodeLoop_atEnd (env : TableEnv) (cap e : Nat) (mem : List Nat)
    (fuel : Nat) (h : Heap) (ctx : Ctx)
    (hlim : 0 < ctx.limit) (hfuel : 1 ≤ fuel) :
    decodeLoop env cap e mem fuel h ctx e []
      = (h, some (e, ctx.limit, DObj.message ctx.obj ctx.tbl, [])) := by
  match fuel, hfuel with
  | f+1, _ =>
    simp only [decodeLoop, calcLimitedEnd]
    rw [if_neg (by omega)]
    rw [if_neg (by omega)]
    rw [if_pos (by omega)]

theorem decodeLoop_packedVar_run (env : TableEnv) (cap : Nat) (ctx : Ctx)
    (fn : Nat) (entry : TableEntry) (k : PackKind)
    (hentry : (tableAt env ctx.tbl).entry fn = some entry)
    (hk : packKindOf entry.kind = some k)
    (hfn : 1 ≤ fn) (htag : 8 * fn + 2 < 2 ^ 32) (hlim : 0 < ctx.limit)
    (ws : List Nat) (fuel : Nat) (h : Heap)
    (hfuel : ws.length + 2 ≤ fuel) (hws : ∀ w ∈ ws, w < 2 ^ 64)
    (hlen : (ws.flatMap varintEncode).length ≤ 2 ^ 31 - 1) :
    decodeLoop env cap (packedVarBuf fn ws).length (packedVarBuf fn ws) fuel h ctx 0 []
      = (ws.foldl (fun hh w => packPush hh ctx.obj entry.offset k w) h,
         some ((packedVarBuf fn ws).length, ctx.limit, DObj.message ctx.obj ctx.tbl, [])) := by
  have hmin : min ctx.limit 0 = 0 := by omega
  match fuel, hfuel with
  | f+1, hfuel =>
    have htagpos : 0 < (varintEncodeAux 5 (8 * fn + 2)).length :=
      varintEncodeAux_length_pos 4 (8 * fn + 2)
    have he : (packedVarBuf fn ws).length
        = (varintEncodeAux 5 (8 * fn + 2)).length
          + ((varintEncodeAux 5 (ws.flatMap varintEncode).length).length
             + (ws.flatMap varintEncode).length) := by
      unfold packedVarBuf
      simp
    simp only [decodeLoop]
    rw [if_pos (by
      simp only [calcLimitedEnd, hmin, Int.add_zero]
      have := he
      push_cast
      omega)]
    have hread : readTag (packedVarBuf fn ws) 0
        = some (8 * fn + 2, (varintEncodeAux 5 (8 * fn + 2)).length) := by
      have := readTag_encode (8 * fn + 2) []
        (varintEncodeAux 5 (ws.flatMap varintEncode).length ++ ws.flatMap varintEncode)
        (by omega) htag
      simpa [packedVarBuf] using this
    have hsize : readSize (packedVarBuf fn ws) (varintEncodeAux 5 (8 * fn + 2)).length
        = some (((ws.flatMap varintEncode).length : Int),
                (varintEncodeAux 5 (8 * fn + 2)).length
                  + (varintEncodeAux 5 (ws.flatMap varintEncode).length).length) := by
      exact readSize_encode (ws.flatMap varintEncode).length
        (varintEncodeAux 5 (8 * fn + 2)) (ws.flatMap varintEncode) hlen
    have hrun : unpackVarint k ctx.obj entry.offset (packedVarBuf fn ws)
        ((((varintEncodeAux 5 (8 * fn + 2)).length
            + (varintEncodeAux 5 (ws.flatMap varintEncode).length).length : Nat) : Int)
          + ((ws.flatMap varintEncode).length : Int)) f h
        ((varintEncodeAux 5 (8 * fn + 2)).length
          + (varintEncodeAux 5 (ws.flatMap varintEncode).length).length)
        = (ws.foldl (fun hh w => packPush hh ctx.obj entry.offset k w) h,
           some ((varintEncodeAux 5 (8 * fn + 2)).length
             + (varintEncodeAux 5 (ws.flatMap varintEncode).length).length
             + (ws.flatMap varintEncode).length)) := by
      have hb : packedVarBuf fn ws
          = (varintEncodeAux 5 (8 * fn + 2)
              ++ varintEncodeAux 5 (ws.flatMap varintEncode).length)
            ++ (ws.flatMap varintEncode ++ []) := by
        unfold packedVarBuf
        simp
      have hl : (varintEncodeAux 5 (8 * fn + 2)).length
            + (varintEncodeAux 5 (ws.flatMap varintEncode).length).length
          = ((varintEncodeAux 5 (8 * fn + 2)
              ++ varintEncodeAux 5 (ws.flatMap varintEncode).length)).length := by
        simp
      rw [hb, hl]
      exact unpackVarint_run k ctx.obj entry.offset ws _ [] f h (by omega) hws
    rw [decodeStep_repvarPacked env cap f h
          (ws.foldl (fun hh w => packPush hh ctx.obj entry.offset k w) h) ctx 0 _ _ []
          fn entry k ((ws.flatMap varintEncode).length : Int)
          (varintEncodeAux 5 (8 * fn + 2)).length
          ((varintEncodeAux 5 (8 * fn + 2)).length
            + (varintEncodeAux 5 (ws.flatMap varintEncode).length).length)
          ((varintEncodeAux 5 (8 * fn + 2)).length
            + (varintEncodeAux 5 (ws.flatMap varintEncode).length).length
            + (ws.flatMap varintEncode).length)
          hentry hk hfn hread hsize
          (by
            simp only [calcLimitedEnd, hmin, Int.add_zero]
            rw [he]
            push_cast
            omega)
          hrun
          (by push_cast; omega)]
    dsimp only
    rw [show (varintEncodeAux 5 (8 * fn + 2)).length
          + (varintEncodeAux 5 (ws.flatMap varintEncode).length).length
          + (ws.flatMap varintEncode).length
        = (packedVarBuf fn ws).length from by rw [he]; omega]
    exact decodeLoop_atEnd env cap (packedVarBuf fn ws).length (packedVarBuf fn ws) f
      (ws.foldl (fun hh w => packPush hh ctx.obj entry.offset k w) h) ctx hlim (by omega)

theorem decodeLoop_unpackedFixed_run64 (env : TableEnv) (cap : Nat) (ctx : Ctx)
    (fn : Nat) (entry : TableEntry)
    (hentry : (tableAt env ctx.tbl).entry fn = some entry)
    (hkind : entry.kind = FieldKind.RepeatedFixed64)
    (hfn : 1 ≤ fn) (htag : 8 * fn + 1 < 2 ^ 32) (hlim : 0 < ctx.limit) :
    ∀ (ws pre : List Nat) (fuel : Nat) (h : Heap),
      ws.length + 1 ≤ fuel → (∀ w ∈ ws, w < 256 ^ 8) →
      decodeLoop env cap
          (pre.length + (ws.flatMap (fun w => varintEncodeAux 5 (8 * fn + 1) ++ fixedEncodeLE 8 w)).length)
          (pre ++ ws.flatMap (fun w => varintEncodeAux 5 (8 * fn + 1) ++ fixedEncodeLE 8 w))
          fuel h ctx pre.length []
        = (ws.foldl (fun hh w => heapPushRep64 hh ctx.obj entry.offset w) h,
           some (pre.length
                   + (ws.flatMap (fun w => varintEncodeAux 5 (8 * fn + 1) ++ fixedEncodeLE 8 w)).length,
                 ctx.limit, DObj.message ctx.obj ctx.tbl, [])) := by
  have hmin : min ctx.limit 0 = 0 := by omega
  intro ws
  induction ws with
  | nil =>
    intro pre fuel h hfuel _
    match fuel, hfuel with
    | f+1, _ =>
      simp only [decodeLoop]
      simp only [List.flatMap_nil, List.length_nil, Nat.add_zero, calcLimitedEnd, hmin,
        Int.add_zero]
      rw [if_neg (by omega)]
      rw [if_neg (by omega)]
      rw [if_pos (by omega)]
      simp
  | cons w ws ih =>
    intro pre fuel h hfuel hws
    simp only [List.length_cons] at hfuel
    match fuel, hfuel with
    | f+1, hfuel =>
      have htagpos : 0 < (varintEncodeAux 5 (8 * fn + 1)).length :=
        varintEncodeAux_length_pos 4 (8 * fn + 1)
      have hencl : (fixedEncodeLE 8 w).length = 8 := fixedEncodeLE_length 8 w
      have hflatlen : ((w :: ws).flatMap (fun w => varintEncodeAux 5 (8 * fn + 1) ++ fixedEncodeLE 8 w)).length
          = (varintEncodeAux 5 (8 * fn + 1)).length + 8
            + (ws.flatMap (fun w => varintEncodeAux 5 (8 * fn + 1) ++ fixedEncodeLE 8 w)).length := by
        rw [List.flatMap_cons, List.length_append, List.length_append, hencl]
      simp only [decodeLoop]
      rw [if_pos (by
        simp only [calcLimitedEnd, hmin, Int.add_zero]
        have := hflatlen
        push_cast
        omega)]
      have hbuf1 : pre ++ (w :: ws).flatMap (fun w => varintEncodeAux 5 (8 * fn + 1) ++ fixedEncodeLE 8 w)
          = pre ++ (varintEncodeAux 5 (8 * fn + 1)
              ++ (fixedEncodeLE 8 w
                  ++ ws.flatMap (fun w => varintEncodeAux 5 (8 * fn + 1) ++ fixedEncodeLE 8 w))) := by
        simp
      have hread : readTag
          (pre ++ (w :: ws).flatMap (fun w => varintEncodeAux 5 (8 * fn + 1) ++ fixedEncodeLE 8 w))
          pre.length = some (8 * fn + 1, pre.length + (varintEncodeAux 5 (8 * fn + 1)).length) := by
        rw [hbuf1]
        exact readTag_encode (8 * fn + 1) pre _ (by omega) htag
      rw [decodeStep_repfixedElem64 env cap f h ctx pre.length _ _ [] fn entry
            (pre.length + (varintEncodeAux 5 (8 * fn + 1)).length)
            hentry hkind hfn hread]
      dsimp only
      have hbuf2 : pre ++ (w :: ws).flatMap (fun w => varintEncodeAux 5 (8 * fn + 1) ++ fixedEncodeLE 8 w)
          = (pre ++ varintEncodeAux 5 (8 * fn + 1))
              ++ (fixedEncodeLE 8 w
                  ++ ws.flatMap (fun w => varintEncodeAux 5 (8 * fn + 1) ++ fixedEncodeLE 8 w)) := by
        simp
      have hfix : readFixedLE 8
          (pre ++ (w :: ws).flatMap (fun w => varintEncodeAux 5 (8 * fn + 1) ++ fixedEncodeLE 8 w))
          (pre.length + (varintEncodeAux 5 (8 * fn + 1)).length) = w := by
        rw [hbuf2]
        have hl : pre.length + (varintEncodeAux 5 (8 * fn + 1)).length
            = (pre ++ varintEncodeAux 5 (8 * fn + 1)).length := by simp
        rw [hl]
        rw [readFixedLE_encode 8 w (pre ++ varintEncodeAux 5 (8 * fn + 1)) _]
        exact Nat.mod_eq_of_lt (hws w (List.mem_cons_self w ws))
      rw [hfix]
      have hc2 : pre.length + (varintEncodeAux 5 (8 * fn + 1)).length + 8
          = (pre ++ (varintEncodeAux 5 (8 * fn + 1) ++ fixedEncodeLE 8 w)).length := by
        simp [hencl]
        omega
      have he : pre.length
            + ((w :: ws).flatMap (fun w => varintEncodeAux 5 (8 * fn + 1) ++ fixedEncodeLE 8 w)).length
          = (pre ++ (varintEncodeAux 5 (8 * fn + 1) ++ fixedEncodeLE 8 w)).length
            + (ws.flatMap (fun w => varintEncodeAux 5 (8 * fn + 1) ++ fixedEncodeLE 8 w)).length := by
        rw [hflatlen]
        simp [hencl]
        omega
      have hbuf3 : pre ++ (w :: ws).flatMap (fun w => varintEncodeAux 5 (8 * fn + 1) ++ fixedEncodeLE 8 w)
          = (pre ++ (varintEncodeAux 5 (8 * fn + 1) ++ fixedEncodeLE 8 w))
              ++ ws.flatMap (fun w => varintEncodeAux 5 (8 * fn + 1) ++ fixedEncodeLE 8 w) := by
        simp
      rw [hc2, he, hbuf3]
      rw [ih (pre ++ (varintEncodeAux 5 (8 * fn + 1) ++ fixedEncodeLE 8 w)) f
            (heapPushRep64 h ctx.obj entry.offset w) (by omega)
            (fun x hx => hws x (List.mem_cons_of_mem w hx))]
      rw [List.foldl_cons]

theorem decodeLoop_unpackedFixed_run32 (env : TableEnv) (cap : Nat) (ctx : Ctx)
    (fn : Nat) (entry : TableEntry)
    (hentry : (tableAt env ctx.tbl).entry fn = some entry)
    (hkind : entry.kind = FieldKind.RepeatedFixed32)
    (hfn : 1 ≤ fn) (htag : 8 * fn + 5 < 2 ^ 32) (hlim : 0 < ctx.limit) :
    ∀ (ws pre : List Nat) (fuel : Nat) (h : Heap),
      ws.length + 1 ≤ fuel → (∀ w ∈ ws, w < 256 ^ 4) →
      decodeLoop env cap
          (pre.length + (ws.flatMap (fun w => varintEncodeAux 5 (8 * fn + 5) ++ fixedEncodeLE 4 w)).length)
          (pre ++ ws.flatMap (fun w => varintEncodeAux 5 (8 * fn + 5) ++ fixedEncodeLE 4 w))
          fuel h ctx pre.length []
        = (ws.foldl (fun hh w => heapPushRep32 hh ctx.obj entry.offset w) h,
           some (pre.length
                   + (ws.flatMap (fun w => varintEncodeAux 5 (8 * fn + 5) ++ fixedEncodeLE 4 w)).length,
                 ctx.limit, DObj.message ctx.obj ctx.tbl, [])) := by
  have hmin : min ctx.limit 0 = 0 := by omega
  intro ws
  induction ws with
  | nil =>
    intro pre fuel h hfuel _
    match fuel, hfuel with
    | f+1, _ =>
      simp only [decodeLoop]
      simp only [List.flatMap_nil, List.length_nil, Nat.add_zero, calcLimitedEnd, hmin,
        Int.add_zero]
      rw [if_neg (by omega)]
      rw [if_neg (by omega)]
      rw [if_pos (by omega)]
      simp
  | cons w ws ih =>
    intro pre fuel h hfuel hws
    simp only [List.length_cons] at hfuel
    match fuel, hfuel with
    | f+1, hfuel =>
      have htagpos : 0 < (varintEncodeAux 5 (8 * fn + 5)).length :=
        varintEncodeAux_length_pos 4 (8 * fn + 5)
      have hencl : (fixedEncodeLE 4 w).length = 4 := fixedEncodeLE_length 4 w
      have hflatlen : ((w :: ws).flatMap (fun w => varintEncodeAux 5 (8 * fn + 5) ++ fixedEncodeLE 4 w)).length
          = (varintEncodeAux 5 (8 * fn + 5)).length + 4
            + (ws.flatMap (fun w => varintEncodeAux 5 (8 * fn + 5) ++ fixedEncodeLE 4 w)).length := by
        rw [List.flatMap_cons, List.length_append, List.length_append, hencl]
      simp only [decodeLoop]
      rw [if_pos (by
        simp only [calcLimitedEnd, hmin, Int.add_zero]
        have := hflatlen
        push_cast
        omega)]
      have hbuf1 : pre ++ (w :: ws).flatMap (fun w => varintEncodeAux 5 (8 * fn + 5) ++ fixedEncodeLE 4 w)
          = pre ++ (varintEncodeAux 5 (8 * fn + 5)
              ++ (fixedEncodeLE 4 w
                  ++ ws.flatMap (fun w => varintEncodeAux 5 (8 * fn + 5) ++ fixedEncodeLE 4 w))) := by
        simp
      have hread : readTag
          (pre ++ (w :: ws).flatMap (fun w => varintEncodeAux 5 (8 * fn + 5) ++ fixedEncodeLE 4 w))
          pre.length = some (8 * fn + 5, pre.length + (varintEncodeAux 5 (8 * fn + 5)).length) := by
        rw [hbuf1]
        exact readTag_encode (8 * fn + 5) pre _ (by omega) htag
      rw [decodeStep_repfixedElem32 env cap f h ctx pre.length _ _ [] fn entry
            (pre.length + (varintEncodeAux 5 (8 * fn + 5)).length)
            hentry hkind hfn hread]
      dsimp only
      have hbuf2 : pre ++ (w :: ws).flatMap (fun w => varintEncodeAux 5 (8 * fn + 5) ++ fixedEncodeLE 4 w)
          = (pre ++ varintEncodeAux 5 (8 * fn + 5))
              ++ (fixedEncodeLE 4 w
                  ++ ws.flatMap (fun w => varintEncodeAux 5 (8 * fn + 5) ++ fixedEncodeLE 4 w)) := by
        simp
      have hfix : readFixedLE 4
          (pre ++ (w :: ws).flatMap (fun w => varintEncodeAux 5 (8 * fn + 5) ++ fixedEncodeLE 4 w))
          (pre.length + (varintEncodeAux 5 (8 * fn + 5)).length) = w := by
        rw [hbuf2]
        have hl : pre.length + (varintEncodeAux 5 (8 * fn + 5)).length
            = (pre ++ varintEncodeAux 5 (8 * fn + 5)).length := by simp
        rw [hl]
        rw [readFixedLE_encode 4 w (pre ++ varintEncodeAux 5 (8 * fn + 5)) _]
        exact Nat.mod_eq_of_lt (hws w (List.mem_cons_self w ws))
      rw [hfix]
      have hc2 : pre.length + (varintEncodeAux 5 (8 * fn + 5)).length + 4
          = (pre ++ (varintEncodeAux 5 (8 * fn + 5) ++ fixedEncodeLE 4 w)).length := by
        simp [hencl]
        omega
      have he : pre.length
            + ((w :: ws).flatMap (fun w => varintEncodeAux 5 (8 * fn + 5) ++ fixedEncodeLE 4 w)).length
          = (pre ++ (varintEncodeAux 5 (8 * fn + 5) ++ fixedEncodeLE 4 w)).length
            + (ws.flatMap (fun w => varintEncodeAux 5 (8 * fn + 5) ++ fixedEncodeLE 4 w)).length := by
        rw [hflatlen]
        simp [hencl]
        omega
      have hbuf3 : pre ++ (w :: ws).flatMap (fun w => varintEncodeAux 5 (8 * fn + 5) ++ fixedEncodeLE 4 w)
          = (pre ++ (varintEncodeAux 5 (8 * fn + 5) ++ fixedEncodeLE 4 w))
              ++ ws.flatMap (fun w => varintEncodeAux 5 (8 * fn + 5) ++ fixedEncodeLE 4 w) := by
        simp
      rw [hc2, he, hbuf3]
      rw [ih (pre ++ (varintEncodeAux 5 (8 * fn + 5) ++ fixedEncodeLE 4 w)) f
            (heapPushRep32 h ctx.obj entry.offset w) (by omega)
            (fun x hx => hws x (List.mem_cons_of_mem w hx))]
      rw [List.foldl_cons]

theorem decodeLoop_packedFixed_run64 (env : TableEnv) (cap : Nat) (ctx : Ctx)
    (fn : Nat) (entry : TableEntry)
    (hentry : (tableAt env ctx.tbl).entry fn = some entry)
    (hkind : entry.kind = FieldKind.RepeatedFixed64)
    (hfn : 1 ≤ fn) (htag : 8 * fn + 2 < 2 ^ 32) (hlim : 0 < ctx.limit)
    (ws : List Nat) (fuel : Nat) (h : Heap)
    (hfuel : ws.length + 2 ≤ fuel) (hws : ∀ w ∈ ws, w < 256 ^ 8)
    (hlen : (ws.flatMap (fixedEncodeLE 8)).length ≤ 2 ^ 31 - 1) :
    decodeLoop env cap (packedFixedBuf fn true ws).length (packedFixedBuf fn true ws) fuel h ctx 0 []
      = (ws.foldl (fun hh w => heapPushRep64 hh ctx.obj entry.offset w) h,
         some ((packedFixedBuf fn true ws).length, ctx.limit, DObj.message ctx.obj ctx.tbl, [])) := by
  have hmin : min ctx.limit 0 = 0 := by omega
  have hfw : fixedWidth true = 8 := rfl
  match fuel, hfuel with
  | f+1, hfuel =>
    have htagpos : 0 < (varintEncodeAux 5 (8 * fn + 2)).length :=
      varintEncodeAux_length_pos 4 (8 * fn + 2)
    have he : (packedFixedBuf fn true ws).length
        = (varintEncodeAux 5 (8 * fn + 2)).length
          + ((varintEncodeAux 5 (ws.flatMap (fixedEncodeLE 8)).length).length
             + (ws.flatMap (fixedEncodeLE 8)).length) := by
      unfold packedFixedBuf
      rw [hfw]
      simp
    simp only [decodeLoop]
    rw [if_pos (by
      simp only [calcLimitedEnd, hmin, Int.add_zero]
      have := he
      push_cast
      omega)]
    have hpb : packedFixedBuf fn true ws
        = varintEncodeAux 5 (8 * fn + 2)
            ++ (varintEncodeAux 5 (ws.flatMap (fixedEncodeLE 8)).length
                ++ ws.flatMap (fixedEncodeLE 8)) := by
      unfold packedFixedBuf
      rw [hfw]
    have hread : readTag (packedFixedBuf fn true ws) 0
        = some (8 * fn + 2, (varintEncodeAux 5 (8 * fn + 2)).length) := by
      have := readTag_encode (8 * fn + 2) []
        (varintEncodeAux 5 (ws.flatMap (fixedEncodeLE 8)).length
          ++ ws.flatMap (fixedEncodeLE 8))
        (by omega) htag
      rw [hpb]
      simpa using this
    have hsize : readSize (packedFixedBuf fn true ws) (varintEncodeAux 5 (8 * fn + 2)).length
        = some (((ws.flatMap (fixedEncodeLE 8)).length : Int),
                (varintEncodeAux 5 (8 * fn + 2)).length
                  + (varintEncodeAux 5 (ws.flatMap (fixedEncodeLE 8)).length).length) := by
      rw [hpb]
      exact readSize_encode (ws.flatMap (fixedEncodeLE 8)).length
        (varintEncodeAux 5 (8 * fn + 2)) (ws.flatMap (fixedEncodeLE 8)) hlen
    have hrun : unpackFixed true ctx.obj entry.offset (packedFixedBuf fn true ws)
        ((((varintEncodeAux 5 (8 * fn + 2)).length
            + (varintEncodeAux 5 (ws.flatMap (fixedEncodeLE 8)).length).length : Nat) : Int)
          + ((ws.flatMap (fixedEncodeLE 8)).length : Int)) f h
        ((varintEncodeAux 5 (8 * fn + 2)).length
          + (varintEncodeAux 5 (ws.flatMap (fixedEncodeLE 8)).length).length)
        = (ws.foldl (fun hh w => heapPushRep64 hh ctx.obj entry.offset w) h,
           (varintEncodeAux 5 (8 * fn + 2)).length
             + (varintEncodeAux 5 (ws.flatMap (fixedEncodeLE 8)).length).length
             + (ws.flatMap (fixedEncodeLE 8)).length) := by
      have hb : packedFixedBuf fn true ws
          = (varintEncodeAux 5 (8 * fn + 2)
              ++ varintEncodeAux 5 (ws.flatMap (fixedEncodeLE 8)).length)
            ++ (ws.flatMap (fixedEncodeLE 8) ++ []) := by
        rw [hpb]
        simp
      have hl : (varintEncodeAux 5 (8 * fn + 2)).length
            + (varintEncodeAux 5 (ws.flatMap (fixedEncodeLE 8)).length).length
          = ((varintEncodeAux 5 (8 * fn + 2)
              ++ varintEncodeAux 5 (ws.flatMap (fixedEncodeLE 8)).length)).length := by
        simp
      rw [hb, hl]
      exact unpackFixed_run64 ctx.obj entry.offset ws _ [] f h (by omega) hws
    rw [decodeStep_repfixedPacked64 env cap f h
          (ws.foldl (fun hh w => heapPushRep64 hh ctx.obj entry.offset w) h) ctx 0 _ _ []
          fn entry ((ws.flatMap (fixedEncodeLE 8)).length : Int)
          (varintEncodeAux 5 (8 * fn + 2)).length
          ((varintEncodeAux 5 (8 * fn + 2)).length
            + (varintEncodeAux 5 (ws.flatMap (fixedEncodeLE 8)).length).length)
          ((varintEncodeAux 5 (8 * fn + 2)).length
            + (varintEncodeAux 5 (ws.flatMap (fixedEncodeLE 8)).length).length
            + (ws.flatMap (fixedEncodeLE 8)).length)
          hentry hkind hfn hread hsize
          (by
            simp only [calcLimitedEnd, hmin, Int.add_zero]
            rw [he]
            push_cast
            omega)
          hrun
          (by push_cast; omega)]
    dsimp only
    rw [show (varintEncodeAux 5 (8 * fn + 2)).length
          + (varintEncodeAux 5 (ws.flatMap (fixedEncodeLE 8)).length).length
          + (ws.flatMap (fixedEncodeLE 8)).length
        = (packedFixedBuf fn true ws).length from by rw [he]; omega]
    exact decodeLoop_atEnd env cap (packedFixedBuf fn true ws).length (packedFixedBuf fn true ws) f
      (ws.foldl (fun hh w => heapPushRep64 hh ctx.obj entry.offset w) h) ctx hlim (by omega)

theorem decodeLoop_packedFixed_run32 (env : TableEnv) (cap : Nat) (ctx : Ctx)
    (fn : Nat) (entry : TableEntry)
    (hentry : (tableAt env ctx.tbl).entry fn = some entry)
    (hkind : entry.kind = FieldKind.RepeatedFixed32)
    (hfn : 1 ≤ fn) (htag : 8 * fn + 2 < 2 ^ 32) (hlim : 0 < ctx.limit)
    (ws : List Nat) (fuel : Nat) (h : Heap)
    (hfuel : ws.length + 2 ≤ fuel) (hws : ∀ w ∈ ws, w < 256 ^ 4)
    (hlen : (ws.flatMap (fixedEncodeLE 4)).length ≤ 2 ^ 31 - 1) :
    decodeLoop env cap (packedFixedBuf fn false ws).length (packedFixedBuf fn false ws) fuel h ctx 0 []
      = (ws.foldl (fun hh w => heapPushRep32 hh ctx.obj entry.offset w) h,
         some ((packedFixedBuf fn false ws).length, ctx.limit, DObj.message ctx.obj ctx.tbl, [])) := by
  have hmin : min ctx.limit 0 = 0 := by omega
  have hfw : fixedWidth false = 4 := rfl
  match fuel, hfuel with
  | f+1, hfuel =>
    have htagpos : 0 < (varintEncodeAux 5 (8 * fn + 2)).length :=
      varintEncodeAux_length_pos 4 (8 * fn + 2)
    have he : (packedFixedBuf fn false ws).length
        = (varintEncodeAux 5 (8 * fn + 2)).length
          + ((varintEncodeAux 5 (ws.flatMap (fixedEncodeLE 4)).length).length
             + (ws.flatMap (fixedEncodeLE 4)).length) := by
      unfold packedFixedBuf
      rw [hfw]
      simp
    simp only [decodeLoop]
    rw [if_pos (by
      simp only [calcLimitedEnd, hmin, Int.add_zero]
      have := he
      push_cast
      omega)]
    have hpb : packedFixedBuf fn false ws
        = varintEncodeAux 5 (8 * fn + 2)
            ++ (varintEncodeAux 5 (ws.flatMap (fixedEncodeLE 4)).length
                ++ ws.flatMap (fixedEncodeLE 4)) := by
      unfold packedFixedBuf
      rw [hfw]
    have hread : readTag (packedFixedBuf fn false ws) 0
        = some (8 * fn + 2, (varintEncodeAux 5 (8 * fn + 2)).length) := by
      have := readTag_encode (8 * fn + 2) []
        (varintEncodeAux 5 (ws.flatMap (fixedEncodeLE 4)).length
          ++ ws.flatMap (fixedEncodeLE 4))
        (by omega) htag
      rw [hpb]
      simpa using this
    have hsize : readSize (packedFixedBuf fn false ws) (varintEncodeAux 5 (8 * fn + 2)).length
        = some (((ws.flatMap (fixedEncodeLE 4)).length : Int),
                (varintEncodeAux 5 (8 * fn + 2)).length
                  + (varintEncodeAux 5 (ws.flatMap (fixedEncodeLE 4)).length).length) := by
      rw [hpb]
      exact readSize_encode (ws.flatMap (fixedEncodeLE 4)).length
        (varintEncodeAux 5 (8 * fn + 2)) (ws.flatMap (fixedEncodeLE 4)) hlen
    have hrun : unpackFixed false ctx.obj entry.offset (packedFixedBuf fn false ws)
        ((((varintEncodeAux 5 (8 * fn + 2)).length
            + (varintEncodeAux 5 (ws.flatMap (fixedEncodeLE 4)).length).length : Nat) : Int)
          + ((ws.flatMap (fixedEncodeLE 4)).length : Int)) f h
        ((varintEncodeAux 5 (8 * fn + 2)).length
          + (varintEncodeAux 5 (ws.flatMap (fixedEncodeLE 4)).length).length)
        = (ws.foldl (fun hh w => heapPushRep32 hh ctx.obj entry.offset w) h,
           (varintEncodeAux 5 (8 * fn + 2)).length
             + (varintEncodeAux 5 (ws.flatMap (fixedEncodeLE 4)).length).length
             + (ws.flatMap (fixedEncodeLE 4)).length) := by
      have hb : packedFixedBuf fn false ws
          = (varintEncodeAux 5 (8 * fn + 2)
              ++ varintEncodeAux 5 (ws.flatMap (fixedEncodeLE 4)).length)
            ++ (ws.flatMap (fixedEncodeLE 4) ++ []) := by
        rw [hpb]
        simp
      have hl : (varintEncodeAux 5 (8 * fn + 2)).length
            + (varintEncodeAux 5 (ws.flatMap (fixedEncodeLE 4)).length).length
          = ((varintEncodeAux 5 (8 * fn + 2)
              ++ varintEncodeAux 5 (ws.flatMap (fixedEncodeLE 4)).length)).length := by
        simp
      rw [hb, hl]
      exact unpackFixed_run32 ctx.obj entry.offset ws _ [] f h (by omega) hws
    rw [decodeStep_repfixedPacked32 env cap f h
          (ws.foldl (fun hh w => heapPushRep32 hh ctx.obj entry.offset w) h) ctx 0 _ _ []
          fn entry ((ws.flatMap (fixedEncodeLE 4)).length : Int)
          (varintEncodeAux 5 (8 * fn + 2)).length
          ((varintEncodeAux 5 (8 * fn + 2)).length
            + (varintEncodeAux 5 (ws.flatMap (fixedEncodeLE 4)).length).length)
          ((varintEncodeAux 5 (8 * fn + 2)).length
            + (varintEncodeAux 5 (ws.flatMap (fixedEncodeLE 4)).length).length
            + (ws.flatMap (fixedEncodeLE 4)).length)
          hentry hkind hfn hread hsize
          (by
            simp only [calcLimitedEnd, hmin, Int.add_zero]
            rw [he]
            push_cast
            omega)
          hrun
          (by push_cast; omega)]
    dsimp only
    rw [show (varintEncodeAux 5 (8 * fn + 2)).length
          + (varintEncodeAux 5 (ws.flatMap (fixedEncodeLE 4)).length).length
          + (ws.flatMap (fixedEncodeLE 4)).length
        = (packedFixedBuf fn false ws).length from by rw [he]; omega]
    exact decodeLoop_atEnd env cap (packedFixedBuf fn false ws).length (packedFixedBuf fn false ws) f
      (ws.foldl (fun hh w => heapPushRep32 hh ctx.obj entry.offset w) h) ctx hlim (by omega)

/-- C3: decoding the packed encoding of a repeated primitive field (one
wire-type-2 length-delimited block of elements) writes the same repeated-field
contents to the heap as decoding the elementwise unpacked encoding (one tag of
the kind's native wire type per element), and decode_loop accepts both forms:
both runs succeed, consume their whole buffer, and leave the identical heap,
namely the elementwise container pushes folded over the element list — stated
for the six repeated varint kinds and for the two repeated fixed-width
kinds. -/
theorem c3_packed_unpacked_equiv :
    (∀ (env : TableEnv) (cap : Nat) (ctx : Ctx) (fn : Nat) (entry : TableEntry)
       (k : PackKind) (ws : List Nat) (fuel : Nat) (h : Heap),
       (tableAt env ctx.tbl).entry fn = some entry →
       packKindOf entry.kind = some k →
       1 ≤ fn → 8 * fn + 7 < 2 ^ 32 → 0 < ctx.limit →
       ws.length + 2 ≤ fuel → (∀ w ∈ ws, w < 2 ^ 64) →
       (ws.flatMap varintEncode).length ≤ 2 ^ 31 - 1 →
       decodeLoop env cap (packedVarBuf fn ws).length (packedVarBuf fn ws) fuel h ctx 0 []
         = (ws.foldl (fun hh w => packPush hh ctx.obj entry.offset k w) h,
            some ((packedVarBuf fn ws).length, ctx.limit, DObj.message ctx.obj ctx.tbl, []))
       ∧ decodeLoop env cap (unpackedVarBuf fn ws).length (unpackedVarBuf fn ws) fuel h ctx 0 []
         = (ws.foldl (fun hh w => packPush hh ctx.obj entry.offset k w) h,
            some ((unpackedVarBuf fn ws).length, ctx.limit, DObj.message ctx.obj ctx.tbl, [])))
    ∧
    (∀ (env : TableEnv) (cap : Nat) (ctx : Ctx) (fn : Nat) (entry : TableEntry)
       (wide : Bool) (ws : List Nat) (fuel : Nat) (h : Heap),
       (tableAt env ctx.tbl).entry fn = some entry →
       entry.kind = (if wide then FieldKind.RepeatedFixed64 else FieldKind.RepeatedFixed32) →
       1 ≤ fn → 8 * fn + 7 < 2 ^ 32 → 0 < ctx.limit →
       ws.length + 2 ≤ fuel → (∀ w ∈ ws, w < 256 ^ fixedWidth wide) →
       (ws.flatMap (fixedEncodeLE (fixedWidth wide))).length ≤ 2 ^ 31 - 1 →
       decodeLoop env cap (packedFixedBuf fn wide ws).length (packedFixedBuf fn wide ws)
           fuel h ctx 0 []
         = (ws.foldl (fun hh w =>
              if wide then heapPushRep64 hh ctx.obj entry.offset w
              else heapPushRep32 hh ctx.obj entry.offset w) h,
            some ((packedFixedBuf fn wide ws).length, ctx.limit,
                  DObj.message ctx.obj ctx.tbl, []))
       ∧ decodeLoop env cap (unpackedFixedBuf fn wide ws).length (unpackedFixedBuf fn wide ws)
           fuel h ctx 0 []
         = (ws.foldl (fun hh w =>
              if wide then heapPushRep64 hh ctx.obj entry.offset w
              else heapPushRep32 hh ctx.obj entry.offset w) h,
            some ((unpackedFixedBuf fn wide ws).length, ctx.limit,
                  DObj.message ctx.obj ctx.tbl, []))) := by
  constructor
  · intro env cap ctx fn entry k ws fuel h hentry hk hfn htag hlim hfuel hws hlen
    constructor
    · exact decodeLoop_packedVar_run env cap ctx fn entry k hentry hk hfn (by omega) hlim
        ws fuel h hfuel hws hlen
    · have := decodeLoop_unpackedVar_run env cap ctx fn entry k hentry hk hfn (by omega) hlim
        ws [] fuel h (by omega) hws
      simpa [unpackedVarBuf] using this
  · intro env cap ctx fn entry wide ws fuel h hentry hkind hfn htag hlim hfuel hws hlen
    cases wide
    · simp only [Bool.false_eq_true, if_false] at hkind ⊢
      have hfw : fixedWidth false = 4 := rfl
      rw [hfw] at hws hlen
      constructor
      · exact decodeLoop_packedFixed_run32 env cap ctx fn entry hentry hkind hfn (by omega)
          hlim ws fuel h hfuel hws hlen
      · have := decodeLoop_unpackedFixed_run32 env cap ctx fn entry hentry hkind hfn (by omega)
          hlim ws [] fuel h (by omega) hws
        simpa [unpackedFixedBuf, fixedWidth] using this
    · simp only [if_true] at hkind ⊢
      have hfw : fixedWidth true = 8 := rfl
      rw [hfw] at hws hlen
      constructor
      · exact decodeLoop_packedFixed_run64 env cap ctx fn entry hentry hkind hfn (by omega)
          hlim ws fuel h hfuel hws hlen
      · have := decodeLoop_unpackedFixed_run64 env cap ctx fn entry hentry hkind hfn (by omega)
          hlim ws [] fuel h (by omega) hws
        simpa [unpackedFixedBuf, fixedWidth] using this

theorem c3_packed_unpacked_equiv_witness :
    (decodeLoop demoEnv 32 (packedVarBuf 7 [1, 300]).length (packedVarBuf 7 [1, 300])
         10 heap0 ⟨100, 0, 0⟩ 0 []
       = ([1, 300].foldl (fun hh w => packPush hh 0 32 PackKind.u32 w) heap0,
          some ((packedVarBuf 7 [1, 300]).length, 100, DObj.message 0 0, []))
     ∧ decodeLoop demoEnv 32 (unpackedVarBuf 7 [1, 300]).length (unpackedVarBuf 7 [1, 300])
         10 heap0 ⟨100, 0, 0⟩ 0 []
       = ([1, 300].foldl (fun hh w => packPush hh 0 32 PackKind.u32 w) heap0,
          some ((unpackedVarBuf 7 [1, 300]).length, 100, DObj.message 0 0, [])))
    ∧
    (decodeLoop fixedDemoEnv 32 (packedFixedBuf 1 true [5]).length (packedFixedBuf 1 true [5])
         10 heap0 ⟨100, 0, 0⟩ 0 []
       = ([5].foldl (fun hh w =>
            if true then heapPushRep64 hh 0 8 w else heapPushRep32 hh 0 8 w) heap0,
          some ((packedFixedBuf 1 true [5]).length, 100, DObj.message 0 0, []))
     ∧ decodeLoop fixedDemoEnv 32 (unpackedFixedBuf 1 true [5]).length (unpackedFixedBuf 1 true [5])
         10 heap0 ⟨100, 0, 0⟩ 0 []
       = ([5].foldl (fun hh w =>
            if true then heapPushRep64 hh 0 8 w else heapPushRep32 hh 0 8 w) heap0,
          some ((unpackedFixedBuf 1 true [5]).length, 100, DObj.message 0 0, []))) :=
  ⟨c3_packed_unpacked_equiv.1 demoEnv 32 ⟨100, 0, 0⟩ 7 ⟨.RepeatedVarint32, 0, 32⟩ .u32
     [1, 300] 10 heap0
     (by decide) (by decide) (by decide) (by decide) (by decide) (by decide)
     (by intro w hw; fin_cases hw <;> decide) (by decide),
   c3_packed_unpacked_equiv.2 fixedDemoEnv 32 ⟨100, 0, 0⟩ 1 ⟨.RepeatedFixed64, 0, 8⟩ true
     [5] 10 heap0
     (by decide) (by decide) (by decide) (by decide) (by decide) (by decide)
     (by intro w hw; fin_cases hw <;> decide) (by decide)⟩

theorem decodeStep_msgDemo (cap fuel : Nat) (h : Heap) (L : Int) (obj : Nat)
    (cursor c1 e : Nat) (mem : List Nat) (stack : List SEntry) (len : Int) (c2 : Nat)
    (hread : readTag mem cursor = some (42, c1))
    (hsize : readSize mem c1 = some (len, c2))
    (hdelta : 0 ≤ L - ((c2 : Int) - (e : Int) + len))
    (hcap : stack.length < cap) :
    ∃ hS pS, decodeStep demoEnv cap fuel h ⟨L, obj, 0⟩ cursor e mem stack
      = .cont hS ⟨(c2 : Int) - (e : Int) + len, pS, 0⟩ c2
          (⟨some (obj, 0), L - ((c2 : Int) - (e : Int) + len)⟩ :: stack) := by
  unfold decodeStep
  rw [hread]
  dsimp only
  have h42a : (42 : Nat) >>> 3 = 5 := by decide
  have h42b : (42 : Nat) &&& 7 = 2 := by decide
  rw [h42a, h42b]
  have hent : (tableAt demoEnv 0).entry 5 = some ⟨.Message, 3, 200⟩ := by decide
  rw [hent]
  dsimp only
  have hhb : ¬ ((3 : Nat) &&& 0x80 ≠ 0) := by decide
  rw [if_neg (by decide : ¬ ((2 : Nat) ≠ 2)), if_neg hhb, hsize]
  dsimp only
  unfold pushLimit
  rw [if_neg (by dsimp only; omega), if_neg (by omega)]
  dsimp only
  have haux : (tableAt demoEnv 0).auxEntryDecode 200 = ⟨40, 0⟩ := by decide
  rw [haux]
  dsimp only
  cases hm : (h.get obj).readMsgPtr 40 with
  | some p => exact ⟨h, p, rfl⟩
  | none => exact ⟨_, h.next, rfl⟩

theorem decodeLoop_msgChain_descent (cap : Nat) :
    ∀ (d : Nat) (pre : List Nat) (fuel : Nat) (h : Heap) (L : Int) (obj : Nat)
      (stack : List SEntry),
      d + stack.length ≤ cap → d ≤ 64 → 0 ≤ L →
      ∃ h', decodeLoop demoEnv cap (pre.length + 2 * d) (pre ++ msgChain d)
              (fuel + 2 * d) h ⟨L, obj, 0⟩ pre.length stack
        = decodeLoop demoEnv cap (pre.length + 2 * d) (pre ++ msgChain d)
              fuel h' ⟨L, obj, 0⟩ (pre.length + 2 * d) stack := by
  intro d
  induction d with
  | zero =>
    intro pre fuel h L obj stack _ _ _
    exact ⟨h, by simp⟩
  | succ d ih =>
    intro pre fuel h L obj stack hcap hd hL
    obtain ⟨f1, hf1a, hf1b⟩ : ∃ f1, fuel + 2 * (d + 1) = f1 + 1 ∧ f1 = fuel + 2 * d + 1 :=
      ⟨fuel + 2 * d + 1, by ring, rfl⟩
    rw [hf1a]
    simp only [decodeLoop]
    rw [if_pos (by
      simp only [calcLimitedEnd]
      have : min L 0 = 0 := by omega
      rw [this]
      push_cast
      omega)]
    have hb0 : byteAt (pre ++ msgChain (d + 1)) pre.length = 42 := by
      have := byteAt_append_right pre (msgChain (d + 1)) 0
      simp only [Nat.add_zero] at this
      rw [this]
      rfl
    have hb1 : byteAt (pre ++ msgChain (d + 1)) (pre.length + 1) = 2 * d := by
      rw [byteAt_append_right pre (msgChain (d + 1)) 1]
      show (msgChain (d + 1)).getD 1 0 % 256 = 2 * d
      unfold msgChain
      simp [List.getD]
      omega
    have hread : readTag (pre ++ msgChain (d + 1)) pre.length
        = some (42, pre.length + 1) := by
      rw [readTag_single _ _ (by rw [hb0]; omega), hb0]
    have hsize : readSize (pre ++ msgChain (d + 1)) (pre.length + 1)
        = some (((2 * d : Nat) : Int), pre.length + 2) := by
      rw [readSize_single _ _ (by rw [hb1]; omega), hb1]
    obtain ⟨hS, pS, hstep⟩ := decodeStep_msgDemo cap f1 h L obj
      pre.length (pre.length + 1) (pre.length + 2 * (d + 1)) (pre ++ msgChain (d + 1))
      stack ((2 * d : Nat) : Int) (pre.length + 2)
      hread hsize (by push_cast; omega) (by omega)
    rw [hstep]
    dsimp only
    have hnl : ((pre.length + 2 : Nat) : Int) - ((pre.length + 2 * (d + 1) : Nat) : Int)
        + ((2 * d : Nat) : Int) = 0 := by push_cast; ring
    rw [hnl]
    have hdel : L - 0 = L := by ring
    rw [hdel]
    have hpre2 : pre.length + 2 = (pre ++ [42, 2 * d]).length := by simp
    have hmem : pre ++ msgChain (d + 1) = (pre ++ [42, 2 * d]) ++ msgChain d := by
      show pre ++ (42 :: 2 * d :: msgChain d) = (pre ++ [42, 2 * d]) ++ msgChain d
      simp
    have he : pre.length + 2 * (d + 1) = (pre ++ [42, 2 * d]).length + 2 * d := by
      simp
      omega
    rw [hpre2, hmem, he]
    rw [show f1 = (fuel + 1) + 2 * d from by omega]
    obtain ⟨h2, hrun⟩ := ih (pre ++ [42, 2 * d]) (fuel + 1) hS 0 pS
      (⟨some (obj, 0), L⟩ :: stack) (by simp; omega) (by omega) (by omega)
    rw [hrun]
    simp only [decodeLoop]
    rw [if_neg (by
      simp only [calcLimitedEnd]
      omega)]
    rw [if_pos (by push_cast; omega)]
    unfold SEntry.intoContext
    dsimp only
    rw [if_neg (by omega)]
    dsimp only
    refine ⟨h2, ?_⟩
    rw [show (0 : Int) + L = L from by ring]

theorem decodeStep_msgDemo_fail (cap fuel : Nat) (h : Heap) (L : Int) (obj : Nat)
    (cursor c1 e : Nat) (mem : List Nat) (stack : List SEntry) (len : Int) (c2 : Nat)
    (hread : readTag mem cursor = some (42, c1))
    (hsize : readSize mem c1 = some (len, c2))
    (hdelta : 0 ≤ L - ((c2 : Int) - (e : Int) + len))
    (hcap : cap ≤ stack.length) :
    decodeStep demoEnv cap fuel h ⟨L, obj, 0⟩ cursor e mem stack = .fail h := by
  unfold decodeStep
  rw [hread]
  dsimp only
  have h42a : (42 : Nat) >>> 3 = 5 := by decide
  have h42b : (42 : Nat) &&& 7 = 2 := by decide
  rw [h42a, h42b]
  have hent : (tableAt demoEnv 0).entry 5 = some ⟨.Message, 3, 200⟩ := by decide
  rw [hent]
  dsimp only
  have hhb : ¬ ((3 : Nat) &&& 0x80 ≠ 0) := by decide
  rw [if_neg (by decide : ¬ ((2 : Nat) ≠ 2)), if_neg hhb, hsize]
  dsimp only
  unfold pushLimit
  rw [if_neg (by dsimp only; omega), if_pos hcap]

theorem decodeLoop_msgChain_overflow (cap : Nat) :
    ∀ (d : Nat) (pre : List Nat) (fuel : Nat) (h : Heap) (L : Int) (obj : Nat)
      (stack : List SEntry),
      cap < d + stack.length → d ≤ 64 → 0 ≤ L → 1 ≤ d → d ≤ fuel →
      (decodeLoop demoEnv cap (pre.length + 2 * d) (pre ++ msgChain d)
          fuel h ⟨L, obj, 0⟩ pre.length stack).2 = none := by
  intro d
  induction d with
  | zero => intro pre fuel h L obj stack _ _ _ h1 _; omega
  | succ d ih =>
    intro pre fuel h L obj stack hcap hd hL _ hfuel
    obtain ⟨f1, hf1a⟩ : ∃ f1, fuel = f1 + 1 := ⟨fuel - 1, by omega⟩
    subst hf1a
    simp only [decodeLoop]
    rw [if_pos (by
      simp only [calcLimitedEnd]
      have : min L 0 = 0 := by omega
      rw [this]
      push_cast
      omega)]
    have hb0 : byteAt (pre ++ msgChain (d + 1)) pre.length = 42 := by
      have := byteAt_append_right pre (msgChain (d + 1)) 0
      simp only [Nat.add_zero] at this
      rw [this]
      rfl
    have hb1 : byteAt (pre ++ msgChain (d + 1)) (pre.length + 1) = 2 * d := by
      rw [byteAt_append_right pre (msgChain (d + 1)) 1]
      show (msgChain (d + 1)).getD 1 0 % 256 = 2 * d
      unfold msgChain
      simp [List.getD]
      omega
    have hread : readTag (pre ++ msgChain (d + 1)) pre.length
        = some (42, pre.length + 1) := by
      rw [readTag_single _ _ (by rw [hb0]; omega), hb0]
    have hsize : readSize (pre ++ msgChain (d + 1)) (pre.length + 1)
        = some (((2 * d : Nat) : Int), pre.length + 2) := by
      rw [readSize_single _ _ (by rw [hb1]; omega), hb1]
    by_cases hfull : cap ≤ stack.length
    · rw [decodeStep_msgDemo_fail cap f1 h L obj
        pre.length (pre.length + 1) (pre.length + 2 * (d + 1)) (pre ++ msgChain (d + 1))
        stack ((2 * d : Nat) : Int) (pre.length + 2)
        hread hsize (by push_cast; omega) hfull]
    · obtain ⟨hS, pS, hstep⟩ := decodeStep_msgDemo cap f1 h L obj
        pre.length (pre.length + 1) (pre.length + 2 * (d + 1)) (pre ++ msgChain (d + 1))
        stack ((2 * d : Nat) : Int) (pre.length + 2)
        hread hsize (by push_cast; omega) (by omega)
      rw [hstep]
      dsimp only
      have hnl : ((pre.length + 2 : Nat) : Int) - ((pre.length + 2 * (d + 1) : Nat) : Int)
          + ((2 * d : Nat) : Int) = 0 := by push_cast; ring
      rw [hnl]
      have hdel : L - 0 = L := by ring
      rw [hdel]
      have hpre2 : pre.length + 2 = (pre ++ [42, 2 * d]).length := by simp
      have hmem : pre ++ msgChain (d + 1) = (pre ++ [42, 2 * d]) ++ msgChain d := by
        show pre ++ (42 :: 2 * d :: msgChain d) = (pre ++ [42, 2 * d]) ++ msgChain d
        simp
      have he : pre.length + 2 * (d + 1) = (pre ++ [42, 2 * d]).length + 2 * d := by
        simp
        omega
      rw [hpre2, hmem, he]
      exact ih (pre ++ [42, 2 * d]) f1 hS 0 pS (⟨some (obj, 0), L⟩ :: stack)
        (by simp; omega) (by omega) (by omega) (by omega) (by omega)

theorem decodeLoop_msgChain_ok (cap d : Nat) (L : Int) (root : Nat) (h : Heap) (fuel : Nat)
    (hdc : d ≤ cap) (hd64 : d ≤ 64) (hL : 0 < L) (hfuel : 2 * d + 1 ≤ fuel) :
    (decodeLoop demoEnv cap (2 * d) (msgChain d) fuel h ⟨L, root, 0⟩ 0 []).2
      = some (2 * d, L, DObj.message root 0, []) := by
  obtain ⟨f0, hf0a, hf0b⟩ : ∃ f0, fuel = f0 + 2 * d ∧ 1 ≤ f0 :=
    ⟨fuel - 2 * d, by omega, by omega⟩
  subst hf0a
  obtain ⟨h', hrun⟩ := decodeLoop_msgChain_descent cap d [] f0 h L root []
    (by simpa using hdc) hd64 (by omega)
  simp only [List.nil_append, List.length_nil, Nat.zero_add] at hrun
  rw [hrun]
  rw [decodeLoop_atEnd demoEnv cap (2 * d) (msgChain d) f0 h' ⟨L, root, 0⟩ hL hf0b]

theorem encodeMsgM_chainHeap (n : Nat) :
    ∀ (D s : Nat), s < n →
      ((encodeMsgM demoEnv (chainHeap n) D s 0).isSome ↔ n - s ≤ D) := by
  have h1 : (tableAt demoEnv 0).encodeEntries
      = [⟨0, .Varint64, 8, 0x08⟩, ⟨1, .Fixed64, 16, 0x11⟩, ⟨2, .String, 24, 0x1A⟩,
         ⟨3, .Message, 200, 0x2A⟩, ⟨0, .RepeatedVarint32, 32, 0x3A⟩] := rfl
  have h2 : (tableAt demoEnv 0).auxEntryDecode 200 = ⟨40, 0⟩ := rfl
  intro D
  induction D with
  | zero =>
    intro s hs
    simp only [encodeMsgM, Option.isSome_none]
    constructor
    · intro hcon; cases hcon
    · omega
  | succ D ih =>
    intro s hs
    by_cases hsn : s + 1 < n
    · have hobj : (chainHeap n).get s = Obj.empty.upd 40 (.msgPtr (s + 1)) := by
        unfold chainHeap Heap.get
        simp [hsn]
      have hih := ih (s + 1) hsn
      cases hcall : encodeMsgM demoEnv (chainHeap n) D (s + 1) 0 with
      | none =>
        rw [hcall] at hih
        simp only [Option.isSome_none, Bool.false_eq_true, false_iff] at hih
        simp only [encodeMsgM, encodeEntriesM, encodeOneM, h1, h2, encPresent,
          encodePackable, hobj]
        simp [Obj.hasBit, Obj.readWord, Obj.readMsgPtr, Obj.readRep32, Obj.upd, Obj.empty]
        rw [hcall]
        simp [(by decide : ((3 : Nat) &&& 128 = 0) = True)]
        omega
      | some body =>
        rw [hcall] at hih
        simp only [Option.isSome_some, true_iff] at hih
        simp only [encodeMsgM, encodeEntriesM, encodeOneM, h1, h2, encPresent,
          encodePackable, hobj]
        simp [Obj.hasBit, Obj.readWord, Obj.readMsgPtr, Obj.readRep32, Obj.upd, Obj.empty]
        rw [hcall]
        simp [(by decide : ((3 : Nat) &&& 128 = 0) = True)]
        omega
    · have hobj : (chainHeap n).get s = Obj.empty := by
        unfold chainHeap Heap.get
        simp [hsn]
      simp only [encodeMsgM, encodeEntriesM, encodeOneM, h1, h2, encPresent,
        encodePackable, hobj]
      simp [Obj.hasBit, Obj.readWord, Obj.readMsgPtr, Obj.readRep32, Obj.upd, Obj.empty]
      omega

set_option maxRecDepth 100000 in
/-- C6 counterexample: the same message tree — a linear chain of 33 message
objects, nesting depth 33 > STACK_DEPTH = 32 — is rejected by the encoder
(TreeTooDeep, `none`) yet accepted end-to-end by decode_flat with
STACK_DEPTH = 32, because the decoder only pushes a stack frame per
sub-message header while the root consumes no frame; the claim demands that
decode fail for every tree deeper than STACK_DEPTH. -/
theorem c6_counterexample :
    encodeMsgM demoEnv (chainHeap 33) 32 0 0 = none
    ∧ (decodeFlat demoEnv 32 heap0 0 0 (msgChain 32)).1 = true := by
  constructor
  · have h := (encodeMsgM_chainHeap 33 32 0 (by omega)).1
    cases hc : encodeMsgM demoEnv (chainHeap 33) 32 0 0 with
    | none => rfl
    | some b =>
      have h2 : (33 : Nat) - 0 ≤ 32 := h (by rw [hc]; rfl)
      exact absurd h2 (by omega)
  · decide

/-- C6 (amended): the stack bound is asymmetric by one level.  The decoder's
parse loop accepts a chain of d nested sub-message headers — a tree of
nesting depth d+1 — exactly when d ≤ STACK_DEPTH (the root consumes no stack
frame), and fails once d exceeds STACK_DEPTH; the encoder succeeds on a chain
of n message objects — nesting depth n — exactly when n ≤ STACK_DEPTH. -/
theorem c6_stack_depth_bound :
    (∀ (cap d : Nat) (L : Int) (root : Nat) (h : Heap) (fuel : Nat),
       d ≤ cap → d ≤ 64 → 0 < L → 2 * d + 1 ≤ fuel →
       (decodeLoop demoEnv cap (2 * d) (msgChain d) fuel h ⟨L, root, 0⟩ 0 []).2
         = some (2 * d, L, DObj.message root 0, []))
    ∧ (∀ (cap d : Nat) (L : Int) (root : Nat) (h : Heap) (fuel : Nat),
       cap < d → d ≤ 64 → 0 ≤ L → d ≤ fuel →
       (decodeLoop demoEnv cap (2 * d) (msgChain d) fuel h ⟨L, root, 0⟩ 0 []).2 = none)
    ∧ (∀ (n D : Nat), 0 < n →
       ((encodeMsgM demoEnv (chainHeap n) D 0 0).isSome ↔ n ≤ D)) := by
  refine ⟨?_, ?_, ?_⟩
  · intro cap d L root h fuel h1 h2 h3 h4
    exact decodeLoop_msgChain_ok cap d L root h fuel h1 h2 h3 h4
  · intro cap d L root h fuel h1 h2 h3 h4
    have := decodeLoop_msgChain_overflow cap d [] fuel h L root []
      (by simpa using h1) h2 h3 (by omega) h4
    simpa using this
  · intro n D hn
    have := encodeMsgM_chainHeap n D 0 hn
    simpa using this

theorem c6_stack_depth_bound_witness :
    ((decodeLoop demoEnv 2 (2 * 2) (msgChain 2) 10 heap0 ⟨100, 0, 0⟩ 0 []).2
        = some (2 * 2, 100, DObj.message 0 0, []))
    ∧ ((decodeLoop demoEnv 2 (2 * 3) (msgChain 3) 10 heap0 ⟨100, 0, 0⟩ 0 []).2 = none)
    ∧ ((encodeMsgM demoEnv (chainHeap 3) 3 0 0).isSome ↔ 3 ≤ 3) :=
  ⟨c6_stack_depth_bound.1 2 2 100 0 heap0 10 (by decide) (by decide) (by decide) (by decide),
   c6_stack_depth_bound.2.1 2 3 100 0 heap0 10 (by decide) (by decide) (by decide) (by decide),
   c6_stack_depth_bound.2.2 3 3 (by decide)⟩

theorem readVarint_single (mem : List Nat) (i : Nat) (h : byteAt mem i < 128) :
    readVarint mem i = some (byteAt mem i, i + 1) := by
  have h2 : byteAt mem i % 2 ^ 64 = byteAt mem i :=
    Nat.mod_eq_of_lt (lt_trans h (by norm_num))
  simp [readVarint, readVarintAux, h, h2]
  omega

theorem decodeStep_varint64Demo (cap fuel : Nat) (h : Heap) (L : Int) (obj : Nat)
    (cursor c1 e : Nat) (mem : List Nat) (stack : List SEntry) (v c2 : Nat)
    (hread : readTag mem cursor = some (8, c1))
    (hv : readVarint mem c1 = some (v, c2)) :
    decodeStep demoEnv cap fuel h ⟨L, obj, 0⟩ cursor e mem stack
      = .cont (ctxSet h obj ⟨.Varint64, 0, 8⟩ 1 (.n64 v)) ⟨L, obj, 0⟩ c2 stack := by
  unfold decodeStep
  rw [hread]
  dsimp only
  have h8a : (8 : Nat) >>> 3 = 1 := by decide
  have h8b : (8 : Nat) &&& 7 = 0 := by decide
  rw [h8a, h8b]
  have hent : (tableAt demoEnv 0).entry 1 = some ⟨.Varint64, 0, 8⟩ := by decide
  rw [hent]
  dsimp only
  rw [if_neg (by decide : ¬ ((0 : Nat) ≠ 0)), hv]

theorem decodeStep_msgMerge (cap fuel : Nat) (h : Heap) (L : Int) (obj q : Nat)
    (cursor c1 e : Nat) (mem : List Nat) (stack : List SEntry) (len : Int) (c2 : Nat)
    (hread : readTag mem cursor = some (42, c1))
    (hsize : readSize mem c1 = some (len, c2))
    (hdelta : 0 ≤ L - ((c2 : Int) - (e : Int) + len))
    (hcap : stack.length < cap)
    (hq : (h.get obj).readMsgPtr 40 = some q) :
    decodeStep demoEnv cap fuel h ⟨L, obj, 0⟩ cursor e mem stack
      = .cont h ⟨(c2 : Int) - (e : Int) + len, q, 0⟩ c2
          (⟨some (obj, 0), L - ((c2 : Int) - (e : Int) + len)⟩ :: stack) := by
  unfold decodeStep
  rw [hread]
  dsimp only
  have h42a : (42 : Nat) >>> 3 = 5 := by decide
  have h42b : (42 : Nat) &&& 7 = 2 := by decide
  rw [h42a, h42b]
  have hent : (tableAt demoEnv 0).entry 5 = some ⟨.Message, 3, 200⟩ := by decide
  rw [hent]
  dsimp only
  have hhb : ¬ ((3 : Nat) &&& 0x80 ≠ 0) := by decide
  rw [if_neg (by decide : ¬ ((2 : Nat) ≠ 2)), if_neg hhb, hsize]
  dsimp only
  unfold pushLimit
  rw [if_neg (by dsimp only; omega), if_neg (by omega)]
  dsimp only
  have haux : (tableAt demoEnv 0).auxEntryDecode 200 = ⟨40, 0⟩ := by decide
  rw [haux]
  dsimp only
  rw [hq]

/-- C10 counterexample: a target whose oneof arm 1 is set loses that value
when the input sets the sibling arm 2, although field number 1 never occurs
in the input — oneof siblings share storage and the discriminant, so fields
absent from the input do not always keep their prior values. -/
theorem c10_counterexample :
    getField oneofEnv oneofHeap 0 0 ⟨1, Label.optional, PType.uint32, true⟩
      = some (Value.uint32 7)
    ∧ (decodeFlat oneofEnv 32 oneofHeap 0 0 [16, 5]).1 = true
    ∧ getField oneofEnv (decodeFlat oneofEnv 32 oneofHeap 0 0 [16, 5]).2 0 0
        ⟨1, Label.optional, PType.uint32, true⟩ = none :=
  ⟨by decide, by decide, by decide⟩

/-- C10 (amended): decode_flat merges into the existing target rather than
clearing it, except that oneof siblings share storage.  (1) The decode step
for a message field whose pointer is already non-null continues into the
existing child object with the heap untouched — no fresh object replaces it;
(2) end to end and for every prior heap, a successful decode_flat of a
varint field writes only that field's slot and has-bit, the returned heap
differing from the input heap in nothing else, so non-oneof fields whose
numbers do not occur in the input keep their prior values; (3) concretely,
decoding a nested message into a target whose child exists writes through
the existing child pointer, preserves the child's other prior field, and
allocates no object. -/
theorem c10_no_clear_and_merge :
    (∀ (cap fuel : Nat) (h : Heap) (L : Int) (obj q : Nat) (cursor c1 e : Nat)
       (mem : List Nat) (stack : List SEntry) (len : Int) (c2 : Nat),
       readTag mem cursor = some (42, c1) →
       readSize mem c1 = some (len, c2) →
       0 ≤ L - ((c2 : Int) - (e : Int) + len) →
       stack.length < cap →
       (h.get obj).readMsgPtr 40 = some q →
       decodeStep demoEnv cap fuel h ⟨L, obj, 0⟩ cursor e mem stack
         = .cont h ⟨(c2 : Int) - (e : Int) + len, q, 0⟩ c2
             (⟨some (obj, 0), L - ((c2 : Int) - (e : Int) + len)⟩ :: stack))
    ∧ (∀ (h : Heap) (root : Nat),
       decodeFlat demoEnv 32 h root 0 [8, 5]
         = (true, (h.setObj root ((h.get root).setHasBit 0)).setSlot root 8 (.n64 5)))
    ∧ ((decodeFlat demoEnv 32 mergeHeap 0 0 [42, 2, 8, 5]).1 = true
       ∧ ((decodeFlat demoEnv 32 mergeHeap 0 0 [42, 2, 8, 5]).2.get 0).readMsgPtr 40
           = some 3
       ∧ ((decodeFlat demoEnv 32 mergeHeap 0 0 [42, 2, 8, 5]).2.get 3).readN64 8 = 5
       ∧ ((decodeFlat demoEnv 32 mergeHeap 0 0 [42, 2, 8, 5]).2.get 3).readN64 16 = 9
       ∧ (decodeFlat demoEnv 32 mergeHeap 0 0 [42, 2, 8, 5]).2.next = 4) := by
  refine ⟨?_, ?_, by decide, by decide, by decide, by decide, by decide⟩
  · intro cap fuel h L obj q cursor c1 e mem stack len c2 hread hsize hdelta hcap hq
    exact decodeStep_msgMerge cap fuel h L obj q cursor c1 e mem stack len c2
      hread hsize hdelta hcap hq
  · intro h root
    rw [decodeFlat_small demoEnv 32 h root 0 [8, 5] (by decide) (by decide)]
    norm_num [SLOP]
    have ht : readTag (List.replicate 14 0 ++ 8 :: 5 :: 8 :: 5 :: List.replicate 14 0) 14
        = some (8, 15) := by decide
    have hv : readVarint (List.replicate 14 0 ++ 8 :: 5 :: 8 :: 5 :: List.replicate 14 0) 15
        = some (5, 16) := by decide
    obtain ⟨F, hF1, hF2⟩ : ∃ F, decodeFuel 16 32 = F + 1 ∧ 1 ≤ F := ⟨291, by decide, by decide⟩
    rw [hF1]
    simp only [decodeLoop]
    rw [if_pos (by
      simp only [calcLimitedEnd, isizeMax]
      omega)]
    rw [decodeStep_varint64Demo 32 F h _ root 14 15 16 _ [] 5 16 ht hv]
    dsimp only
    rw [decodeLoop_atEnd demoEnv 32 16 _ F _ ⟨isizeMax - 2 - 16, root, 0⟩
      (by simp only [isizeMax]; omega) hF2]
    norm_num [ctxSet]

theorem c10_no_clear_and_merge_witness :
    (decodeStep demoEnv 32 10 mergeHeap ⟨100, 0, 0⟩ 0 4 [42, 2, 8, 5] []
       = .cont mergeHeap ⟨((2 : Nat) : Int) - ((4 : Nat) : Int) + 2, 3, 0⟩ 2
           [⟨some (0, 0), 100 - (((2 : Nat) : Int) - ((4 : Nat) : Int) + 2)⟩])
    ∧ decodeFlat demoEnv 32 mergeHeap 0 0 [8, 5]
       = (true, (mergeHeap.setObj 0 ((mergeHeap.get 0).setHasBit 0)).setSlot 0 8 (.n64 5)) :=
  ⟨c10_no_clear_and_merge.1 32 10 mergeHeap 100 0 3 0 1 4 [42, 2, 8, 5] [] 2 2
     (by decide) (by decide) (by decide) (by decide) (by decide),
   c10_no_clear_and_merge.2.1 mergeHeap 0⟩

theorem flagDecomp {c : Nat} {ob : DObj} {st : List SEntry}
    (hg : ((((c : Int) - ((SLOP : Nat) : Int)) == 0) &&
      (match ob with | .message _ _ => true | _ => false) && st.isEmpty) = true) :
    c = SLOP ∧ (∃ q u, ob = DObj.message q u) ∧ st = [] := by
  simp only [Bool.and_eq_true, beq_iff_eq, List.isEmpty_iff] at hg
  obtain ⟨⟨hc, hob⟩, hst⟩ := hg
  refine ⟨by omega, ?_, hst⟩
  cases ob <;> first
    | exact ⟨_, _, rfl⟩
    | simp at hob

